import Mathlib

/-!
Verification development for the gopherseo crawler.

The Go sources are shallowly embedded: strings are modelled as `List Char`
(written `GoStr`), Go maps as association lists, fallible Go functions as
`Option`-valued Lean functions.  The pieces of the Go standard library the
code relies on (`net/url`, `path.Match`, `path.Base`, `strings` helpers) are
modelled by executable Lean functions that agree with the Go implementations
on a documented sub-domain: URL strings without percent-escapes, userinfo,
ports, IPv6 brackets or exotic characters.  Inputs outside this sub-domain
are rejected by the model parser (`parseURL` returns `none`), so every
theorem quantified over parsed URLs ranges over that sub-domain.
-/

set_option maxRecDepth 4096

/-- Go strings, modelled as lists of characters. -/
abbrev GoStr := List Char

/-- Conversion helper from Lean string literals. -/
def str (s : String) : GoStr := s.toList

/-- ASCII lower-casing of one character, as in Go `unicode.ToLower`
restricted to ASCII. -/
def lowerChar (c : Char) : Char :=
  if 'A' ≤ c ∧ c ≤ 'Z' then Char.ofNat (c.toNat + 32) else c

/-- ASCII lower-casing of a string. -/
def lowerStr (s : GoStr) : GoStr := s.map lowerChar

/-- Model of Go `strings.EqualFold` restricted to ASCII case folding. -/
def equalFold (a b : GoStr) : Bool := lowerStr a = lowerStr b

/-- The ASCII space characters trimmed by Go `strings.TrimSpace`. -/
def isSpaceChar (c : Char) : Bool :=
  c = ' ' ∨ c = '\t' ∨ c = '\n' ∨ c = (Char.ofNat 11) ∨ c = (Char.ofNat 12) ∨ c = '\r'

/-- Model of Go `strings.TrimSpace` (ASCII whitespace). -/
def trimSpace (s : GoStr) : GoStr :=
  ((s.dropWhile isSpaceChar).reverse.dropWhile isSpaceChar).reverse

/-- Control bytes rejected by Go `url.Parse` (`stringContainsCTLByte`). -/
def isCTL (c : Char) : Bool := c.toNat < 0x20 ∨ c.toNat = 0x7f

/-- Cut a list at the first occurrence of `c`: returns the part before,
the part after, and whether `c` occurred (Go `strings.Cut`). -/
def cutList (c : Char) : GoStr → GoStr × GoStr × Bool
  | [] => ([], [], false)
  | x :: xs =>
    if x = c then ([], xs, true)
    else (x :: (cutList c xs).1, (cutList c xs).2.1, (cutList c xs).2.2)

/-- Boolean list-prefix test (Go `strings.HasPrefix`). -/
def begWith : GoStr → GoStr → Bool
  | [], _ => true
  | _ :: _, [] => false
  | p :: ps, s :: ss => p = s && begWith ps ss

/-- Remove every trailing `/` (Go `strings.TrimRight(s, "/")`). -/
def rtrimSlash : GoStr → GoStr
  | [] => []
  | c :: cs => if rtrimSlash cs = [] ∧ c = '/' then [] else c :: rtrimSlash cs

/-- ASCII letter test. -/
def isAlphaCh (c : Char) : Bool := ('a' ≤ c ∧ c ≤ 'z') ∨ ('A' ≤ c ∧ c ≤ 'Z')

/-- ASCII digit test. -/
def isDigitCh (c : Char) : Bool := '0' ≤ c ∧ c ≤ '9'

/-- Characters admitted inside a URL scheme (Go `getScheme`). -/
def schemeChar (c : Char) : Bool :=
  isAlphaCh c ∨ isDigitCh c ∨ c = '+' ∨ c = '-' ∨ c = '.'

/-- Host characters admitted by the model: a restriction of Go's
`parseHost` to plain registered names (no port, userinfo or brackets). -/
def hostChar (c : Char) : Bool :=
  isAlphaCh c ∨ isDigitCh c ∨ c = '.' ∨ c = '-' ∨ c = '_' ∨ c = '~'

/-- Path characters the model admits: exactly the characters Go never
percent-escapes in a path, so printing is literal. -/
def pathChar (c : Char) : Bool :=
  isAlphaCh c ∨ isDigitCh c ∨ c = '-' ∨ c = '_' ∨ c = '.' ∨ c = '~' ∨
  c = '$' ∨ c = '&' ∨ c = '+' ∨ c = ',' ∨ c = '/' ∨ c = ':' ∨ c = ';' ∨
  c = '=' ∨ c = '@'

/-- Model of Go `net/url.URL` restricted to the fields the crawler uses.
`opq` is non-empty exactly for URIs like `mailto:x`. -/
structure GoURL where
  scheme : GoStr
  opq : GoStr
  host : GoStr
  path : GoStr
  rawQuery : GoStr
  fragment : GoStr
  deriving DecidableEq, Repr

/-- Result of Go `getScheme`: a hard error, no scheme found, or a scheme
plus the remainder after the colon. -/
inductive SchemeRes where
  | err : SchemeRes
  | noScheme : SchemeRes
  | found (scheme rest : GoStr) : SchemeRes
  deriving DecidableEq, Repr

/-- Worker for `getScheme`, accumulating the candidate scheme. -/
def getSchemeAux (acc : GoStr) : GoStr → SchemeRes
  | [] => .noScheme
  | c :: rest =>
    if isAlphaCh c then getSchemeAux (acc ++ [c]) rest
    else if isDigitCh c ∨ c = '+' ∨ c = '-' ∨ c = '.' then
      if acc = [] then .noScheme else getSchemeAux (acc ++ [c]) rest
    else if c = ':' then
      if acc = [] then .err else .found acc rest
    else .noScheme

/-- Model of Go `net/url.getScheme`. -/
def getScheme (s : GoStr) : SchemeRes := getSchemeAux [] s

/-- Main branch structure of Go `url.Parse` after the fragment and query
have been cut off: opaque vs authority vs path forms.  `rest2` is the text
before the query, `rawQuery` the query text. -/
def parseMain (scheme rest2 rawQuery frag : GoStr) : Option GoURL :=
  if ¬ begWith (str "/") rest2 then
    if scheme ≠ [] then
      if rest2.all pathChar then some ⟨scheme, rest2, [], [], rawQuery, frag⟩ else none
    else
      if ((cutList '/' rest2).1).contains ':' then none
      else if rest2.all pathChar then some ⟨[], [], [], rest2, rawQuery, frag⟩ else none
  else if begWith (str "//") rest2 then
    if scheme = [] ∧ begWith (str "///") rest2 then
      if rest2.all pathChar then some ⟨[], [], [], rest2, rawQuery, frag⟩ else none
    else
      if ((cutList '/' (rest2.drop 2)).1).all hostChar ∧
          (if (cutList '/' (rest2.drop 2)).2.2 then '/' :: (cutList '/' (rest2.drop 2)).2.1
           else []).all pathChar then
        some ⟨scheme, [], (cutList '/' (rest2.drop 2)).1,
          (if (cutList '/' (rest2.drop 2)).2.2 then '/' :: (cutList '/' (rest2.drop 2)).2.1
           else []), rawQuery, frag⟩
      else none
  else
    if scheme ≠ [] then none
    else if rest2.all pathChar then some ⟨[], [], [], rest2, rawQuery, frag⟩ else none

/-- Query splitting step of Go `url.Parse` (the model rejects a dangling
`?` with empty query instead of tracking Go's `ForceQuery` flag). -/
def parseRest (scheme rest1 frag : GoStr) : Option GoURL :=
  if (cutList '?' rest1).2.2 ∧ (cutList '?' rest1).2.1 = [] then none
  else parseMain scheme (cutList '?' rest1).1 (cutList '?' rest1).2.1 frag

/-- Model of Go `url.Parse` on the documented sub-domain.  Returns `none`
both where Go errors (control bytes, `:` with empty scheme, a colon in the
first segment of a rootless path) and on inputs outside the modelled
sub-domain (percent signs, userinfo/port/bracket host characters,
characters Go would percent-escape in paths, a `?` with empty query,
`scheme:/path` forms, and schemeless `///`-prefixed forms). -/
def parseURL (s : GoStr) : Option GoURL :=
  if s.any (fun c => isCTL c ∨ c = '%') then none
  else
    match getScheme (cutList '#' s).1 with
    | .err => none
    | .noScheme => parseRest [] (cutList '#' s).1 (cutList '#' s).2.1
    | .found sch r => parseRest (lowerStr sch) r (cutList '#' s).2.1

/-- Model of Go `url.URL.String` for the modelled fields (escaping is the
identity on the admitted character sets). -/
def urlString (u : GoURL) : GoStr :=
  (if u.scheme ≠ [] then u.scheme ++ [':'] else []) ++
  (if u.opq ≠ [] then u.opq
   else
     (if (u.scheme ≠ [] ∨ u.host ≠ []) ∧ (u.host ≠ [] ∨ u.path ≠ [])
      then str "//" ++ u.host else []) ++
     (if u.path ≠ [] ∧ ¬ begWith (str "/") u.path ∧ u.host ≠ []
      then str "/" else []) ++
     (if u.scheme = [] ∧ u.host = [] ∧ ((cutList '/' u.path).1).contains ':'
      then str "./" else []) ++
     u.path) ++
  (if u.rawQuery ≠ [] then '?' :: u.rawQuery else []) ++
  (if u.fragment ≠ [] then '#' :: u.fragment else [])

/-- Model of Go `url.URL.Hostname` on the modelled sub-domain (no ports or
brackets, so the hostname is the host field itself). -/
def hostname (u : GoURL) : GoStr := u.host

/-- The mutation `normalizeURL` applies to a parsed URL: strip the
fragment, make an empty path `/`, strip trailing slashes from non-root
paths. -/
def normStep (p0 : GoURL) : GoURL :=
  if p0.path = [] then { p0 with fragment := [], path := str "/" }
  else if p0.path ≠ str "/" then { p0 with fragment := [], path := rtrimSlash p0.path }
  else { p0 with fragment := [] }

/-- Embedding of `normalizeURL` from `internal/crawler/crawler.go` (the
identical function also appears in `internal/canonical`): parse, apply
`normStep`, and re-serialize. -/
def normalizeURL (raw : GoStr) : Option (GoStr × GoURL) :=
  match parseURL raw with
  | none => none
  | some p0 => some (urlString (normStep p0), normStep p0)

/-- Embedding of `isHTTP` from `internal/crawler/crawler.go`. -/
def isHTTP (u : GoURL) : Bool := u.scheme = str "http" ∨ u.scheme = str "https"

/-- Embedding of `isInternal` from `internal/crawler/crawler.go`. -/
def isInternal (root candidate : GoURL) : Bool :=
  equalFold (hostname root) (hostname candidate)

/-- Embedding of `normalizeRoot` from `internal/crawler/crawler.go`: trim,
default the scheme to `https://`, normalize, and require a hostname. -/
def normalizeRoot (raw : GoStr) : Option (GoStr × GoURL) :=
  let clean := trimSpace raw
  if clean = [] then none
  else
    let clean2 :=
      if ¬ begWith (str "http://") clean ∧ ¬ begWith (str "https://") clean
      then str "https://" ++ clean else clean
    match normalizeURL clean2 with
    | none => none
    | some (normalized, parsed) =>
      if hostname parsed = [] then none else some (normalized, parsed)

example : normalizeURL (str "https://example.com") = some (str "https://example.com/",
    ⟨str "https", [], str "example.com", str "/", [], []⟩) := by decide

example : normalizeURL (str "https://example.com/page#section") =
    some (str "https://example.com/page",
      ⟨str "https", [], str "example.com", str "/page", [], []⟩) := by decide

example : (normalizeURL (str "https://example.com/about/")).map Prod.fst =
    some (str "https://example.com/about") := by decide

example : (normalizeURL (str "https://example.com/page/?q=1")).map Prod.fst =
    some (str "https://example.com/page?q=1") := by decide

example : (normalizeRoot (str "example.com")).map Prod.fst =
    some (str "https://example.com/") := by decide

example : normalizeRoot (str "   ") = none := by decide

example : (normalizeURL (str "https://x//")).map Prod.fst = some (str "https://x") := by decide

example : (normalizeURL (str "https://x")).map Prod.fst = some (str "https://x/") := by decide

/-! Utility lemmas about the string primitives, used by the idempotence
development for `normalizeURL`. -/

theorem charEqOfToNat {a b : Char} (h : a.toNat = b.toNat) : a = b :=
  Char.eq_of_val_eq (UInt32.ext h)

theorem charLe_iff (a b : Char) : a ≤ b ↔ a.toNat ≤ b.toNat := Iff.rfl

theorem lowerChar_toNat_of_upper {c : Char} (h : 65 ≤ c.toNat ∧ c.toNat ≤ 90) :
    (lowerChar c).toNat = c.toNat + 32 := by
  have hc : 'A' ≤ c ∧ c ≤ 'Z' := ⟨h.1, h.2⟩
  unfold lowerChar
  rw [if_pos hc]
  have hv : Nat.isValidChar (c.toNat + 32) := Or.inl (by omega)
  rw [Char.ofNat, dif_pos hv]
  rfl

theorem lowerChar_of_not_upper {c : Char} (h : ¬(65 ≤ c.toNat ∧ c.toNat ≤ 90)) :
    lowerChar c = c := by
  unfold lowerChar
  rw [if_neg]
  intro hc
  exact h ⟨hc.1, hc.2⟩

theorem lowerChar_idem (c : Char) : lowerChar (lowerChar c) = lowerChar c := by
  by_cases h : 65 ≤ c.toNat ∧ c.toNat ≤ 90
  · have h1 := lowerChar_toNat_of_upper h
    apply lowerChar_of_not_upper
    omega
  · rw [lowerChar_of_not_upper h, lowerChar_of_not_upper h]

theorem lowerStr_idem (s : GoStr) : lowerStr (lowerStr s) = lowerStr s := by
  unfold lowerStr
  rw [List.map_map]
  apply List.map_congr_left
  intro c _
  exact lowerChar_idem c

theorem isAlphaCh_iff (c : Char) :
    isAlphaCh c = true ↔ (97 ≤ c.toNat ∧ c.toNat ≤ 122) ∨ (65 ≤ c.toNat ∧ c.toNat ≤ 90) := by
  unfold isAlphaCh
  constructor
  · intro h
    rcases of_decide_eq_true h with h1 | h1
    · exact Or.inl ⟨h1.1, h1.2⟩
    · exact Or.inr ⟨h1.1, h1.2⟩
  · intro h
    apply decide_eq_true
    rcases h with h1 | h1
    · exact Or.inl ⟨h1.1, h1.2⟩
    · exact Or.inr ⟨h1.1, h1.2⟩

theorem isAlphaCh_lowerChar {c : Char} (h : isAlphaCh c = true) :
    isAlphaCh (lowerChar c) = true := by
  rcases (isAlphaCh_iff c).1 h with h1 | h1
  · rw [lowerChar_of_not_upper (by omega)]
    exact h
  · have h2 := lowerChar_toNat_of_upper h1
    exact (isAlphaCh_iff _).2 (Or.inl (by omega))

theorem isDigitCh_iff (c : Char) :
    isDigitCh c = true ↔ 48 ≤ c.toNat ∧ c.toNat ≤ 57 := by
  unfold isDigitCh
  constructor
  · intro h
    exact ⟨(of_decide_eq_true h).1, (of_decide_eq_true h).2⟩
  · intro h
    exact decide_eq_true ⟨h.1, h.2⟩

theorem charEq_toNat (c d : Char) : c = d ↔ c.toNat = d.toNat :=
  ⟨fun h => h ▸ rfl, charEqOfToNat⟩

theorem schemeChar_lowerChar {c : Char} (h : schemeChar c = true) :
    schemeChar (lowerChar c) = true := by
  unfold schemeChar at h ⊢
  rcases of_decide_eq_true h with h1 | h1 | h1 | h1 | h1
  · exact decide_eq_true (Or.inl (isAlphaCh_lowerChar h1))
  · have := (isDigitCh_iff c).1 h1
    rw [lowerChar_of_not_upper (by omega)]
    exact h
  all_goals subst h1; decide


theorem cutList_cons (c x : Char) (xs : GoStr) :
    cutList c (x :: xs) =
      if x = c then ([], xs, true)
      else (x :: (cutList c xs).1, (cutList c xs).2.1, (cutList c xs).2.2) := rfl

theorem cutList_not_mem {c : Char} {s : GoStr} (h : ∀ x ∈ s, x ≠ c) :
    cutList c s = (s, [], false) := by
  induction s with
  | nil => rfl
  | cons x xs ih =>
    rw [cutList_cons, if_neg (h x (by simp)), ih (fun y hy => h y (by simp [hy]))]

theorem cutList_hit {c : Char} {a b : GoStr} (h : ∀ x ∈ a, x ≠ c) :
    cutList c (a ++ c :: b) = (a, b, true) := by
  induction a with
  | nil => simp [cutList_cons]
  | cons x xs ih =>
    rw [List.cons_append, cutList_cons, if_neg (h x (by simp)),
      ih (fun y hy => h y (by simp [hy]))]

theorem cutList_fst_mem {c : Char} {s : GoStr} : ∀ x ∈ (cutList c s).1, x ∈ s := by
  induction s with
  | nil => simp [cutList]
  | cons y ys ih =>
    intro x hx
    rw [cutList_cons] at hx
    by_cases hy : y = c
    · rw [if_pos hy] at hx
      simp at hx
    · rw [if_neg hy] at hx
      rcases List.mem_cons.1 hx with hx | hx
      · simp [hx]
      · exact List.mem_cons_of_mem _ (ih x hx)

theorem cutList_snd_mem {c : Char} {s : GoStr} : ∀ x ∈ (cutList c s).2.1, x ∈ s := by
  induction s with
  | nil => simp [cutList]
  | cons y ys ih =>
    intro x hx
    rw [cutList_cons] at hx
    by_cases hy : y = c
    · rw [if_pos hy] at hx
      exact List.mem_cons_of_mem _ hx
    · rw [if_neg hy] at hx
      exact List.mem_cons_of_mem _ (ih x hx)

theorem cutList_fst_ne {c : Char} {s : GoStr} : ∀ x ∈ (cutList c s).1, x ≠ c := by
  induction s with
  | nil => simp [cutList]
  | cons y ys ih =>
    intro x hx
    rw [cutList_cons] at hx
    by_cases hy : y = c
    · rw [if_pos hy] at hx
      simp at hx
    · rw [if_neg hy] at hx
      rcases List.mem_cons.1 hx with hx | hx
      · simpa [hx] using hy
      · exact ih x hx

theorem begWith_append (p t : GoStr) : begWith p (p ++ t) = true := by
  induction p with
  | nil => rfl
  | cons c cs ih => simpa [begWith] using ih

theorem begWith_cons (c : Char) (ps : GoStr) (d : Char) (ss : GoStr) :
    begWith (c :: ps) (d :: ss) = true ↔ c = d ∧ begWith ps ss = true := by
  simp [begWith]

theorem begWith_nil_right (p : GoStr) (h : p ≠ []) : begWith p [] = false := by
  cases p with
  | nil => simp at h
  | cons c cs => rfl

theorem rtrimSlash_cons (c : Char) (cs : GoStr) :
    rtrimSlash (c :: cs) =
      if rtrimSlash cs = [] ∧ c = '/' then [] else c :: rtrimSlash cs := rfl

theorem mem_rtrimSlash {s : GoStr} : ∀ x ∈ rtrimSlash s, x ∈ s := by
  induction s with
  | nil => simp [rtrimSlash]
  | cons c cs ih =>
    intro x hx
    rw [rtrimSlash_cons] at hx
    split at hx
    · simp at hx
    · rcases List.mem_cons.1 hx with hx | hx
      · simp [hx]
      · exact List.mem_cons_of_mem _ (ih x hx)

theorem rtrimSlash_eq_nil_iff (s : GoStr) : rtrimSlash s = [] ↔ ∀ c ∈ s, c = '/' := by
  induction s with
  | nil => simp [rtrimSlash]
  | cons c cs ih =>
    rw [rtrimSlash_cons]
    constructor
    · intro h
      split at h
      · rename_i hsp
        intro x hx
        rcases List.mem_cons.1 hx with hx | hx
        · simpa [hx] using hsp.2
        · exact (ih.1 hsp.1) x hx
      · simp at h
    · intro h
      rw [if_pos ⟨ih.2 (fun x hx => h x (by simp [hx])), h c (by simp)⟩]

theorem rtrimSlash_idem (s : GoStr) : rtrimSlash (rtrimSlash s) = rtrimSlash s := by
  induction s with
  | nil => rfl
  | cons c cs ih =>
    rw [rtrimSlash_cons]
    split
    · rfl
    · rename_i hcond
      rw [rtrimSlash_cons, ih, if_neg hcond]

theorem rtrimSlash_cons_ne_nil {c : Char} {cs : GoStr} (h : rtrimSlash (c :: cs) ≠ []) :
    rtrimSlash (c :: cs) = c :: rtrimSlash cs := by
  rw [rtrimSlash_cons] at h ⊢
  split at h
  · simp at h
  · rename_i hcond
    rw [if_neg hcond]

theorem rtrim_begWith_slashes {pre : GoStr} (hpre : ∀ c ∈ pre, c = '/') :
    ∀ p, begWith pre p = true →
      rtrimSlash p = [] ∨ begWith pre (rtrimSlash p) = true := by
  induction pre with
  | nil => intro p _; right; rfl
  | cons c cs ih =>
    intro p hbeg
    cases p with
    | nil => simp [begWith] at hbeg
    | cons d ds =>
      rw [begWith_cons] at hbeg
      by_cases hnil : rtrimSlash (d :: ds) = []
      · exact Or.inl hnil
      · right
        rw [rtrimSlash_cons_ne_nil hnil, begWith_cons]
        refine ⟨hbeg.1, ?_⟩
        rcases ih (fun x hx => hpre x (by simp [hx])) ds hbeg.2 with h1 | h1
        · exfalso
          apply hnil
          rw [rtrimSlash_eq_nil_iff]
          intro x hx
          rcases List.mem_cons.1 hx with hx | hx
          · rw [hx, ← hbeg.1]
            exact hpre c (by simp)
          · exact (rtrimSlash_eq_nil_iff ds).1 h1 x hx
        · exact h1

/-- Scanning guard: the left-to-right scan of `getScheme` reaches either the
end of the string or a stop character before any colon. -/
def colonSafe : GoStr → Bool
  | [] => true
  | c :: rest =>
    if c = ':' then false
    else if schemeChar c then colonSafe rest
    else true

theorem getSchemeAux_noScheme {s : GoStr} (h : colonSafe s = true) :
    ∀ acc, getSchemeAux acc s = .noScheme := by
  induction s with
  | nil => intro acc; rfl
  | cons c rest ih =>
    intro acc
    have hcolon : ¬ c = ':' := by
      intro hc
      rw [colonSafe, if_pos hc] at h
      exact Bool.false_ne_true h
    rw [colonSafe, if_neg hcolon] at h
    unfold getSchemeAux
    by_cases ha : isAlphaCh c = true
    · rw [if_pos ha]
      have hsc : schemeChar c = true := by
        unfold schemeChar
        exact decide_eq_true (Or.inl ha)
      rw [if_pos hsc] at h
      exact ih h _
    · rw [if_neg ha]
      by_cases hd : isDigitCh c = true ∨ c = '+' ∨ c = '-' ∨ c = '.'
      · rw [if_pos hd]
        have hsc : schemeChar c = true := by
          unfold schemeChar
          exact decide_eq_true (Or.inr hd)
        rw [if_pos hsc] at h
        split
        · rfl
        · exact ih h _
      · rw [if_neg hd, if_neg hcolon]

theorem getSchemeAux_found_app {cs : GoStr} (hcs : ∀ c ∈ cs, schemeChar c = true) :
    ∀ acc rest, acc ≠ [] →
      getSchemeAux acc (cs ++ ':' :: rest) = .found (acc ++ cs) rest := by
  induction cs with
  | nil =>
    intro acc rest hacc
    rw [List.nil_append]
    unfold getSchemeAux
    rw [if_neg (by decide : ¬ isAlphaCh ':' = true),
      if_neg (by decide : ¬ (isDigitCh ':' = true ∨ (':' : Char) = '+' ∨ (':' : Char) = '-' ∨ (':' : Char) = '.')),
      if_pos rfl, if_neg hacc]
    simp
  | cons c cs ih =>
    intro acc rest hacc
    have hc : schemeChar c = true := hcs c (by simp)
    have hcs' : ∀ x ∈ cs, schemeChar x = true := fun x hx => hcs x (by simp [hx])
    rw [List.cons_append]
    unfold getSchemeAux
    have hor := of_decide_eq_true hc
    by_cases ha : isAlphaCh c = true
    · rw [if_pos ha, ih hcs' (acc ++ [c]) rest (by simp)]
      simp
    · have hd : isDigitCh c = true ∨ c = '+' ∨ c = '-' ∨ c = '.' := by
        rcases hor with h1 | h1
        · exact absurd h1 ha
        · exact h1
      rw [if_neg ha, if_pos hd, if_neg hacc, ih hcs' (acc ++ [c]) rest (by simp)]
      simp

theorem getScheme_of_scheme {c : Char} {cs rest : GoStr} (ha : isAlphaCh c = true)
    (hcs : ∀ x ∈ cs, schemeChar x = true) :
    getScheme (c :: cs ++ ':' :: rest) = .found (c :: cs) rest := by
  unfold getScheme
  rw [List.cons_append]
  unfold getSchemeAux
  rw [if_pos ha, List.nil_append, getSchemeAux_found_app hcs [c] rest (by simp)]
  simp

theorem getSchemeAux_found_facts :
    ∀ s acc sch rest, getSchemeAux acc s = .found sch rest →
      (∀ c ∈ acc, schemeChar c = true) →
      (∀ d ds, acc = d :: ds → isAlphaCh d = true) →
      (∀ c ∈ sch, schemeChar c = true) ∧
        (∃ d ds, sch = d :: ds ∧ isAlphaCh d = true) ∧ (∀ x ∈ rest, x ∈ s) := by
  intro s
  induction s with
  | nil =>
    intro acc sch rest h
    simp [getSchemeAux] at h
  | cons c s' ih =>
    intro acc sch rest h hacc hhead
    unfold getSchemeAux at h
    by_cases ha : isAlphaCh c = true
    · rw [if_pos ha] at h
      have hacc' : ∀ x ∈ acc ++ [c], schemeChar x = true := by
        intro x hx
        rcases List.mem_append.1 hx with hx | hx
        · exact hacc x hx
        · simp at hx
          subst hx
          unfold schemeChar
          exact decide_eq_true (Or.inl ha)
      have hhead' : ∀ d ds, acc ++ [c] = d :: ds → isAlphaCh d = true := by
        intro d ds hds
        cases acc with
        | nil =>
          simp at hds
          rw [← hds.1]
          exact ha
        | cons a as =>
          rw [List.cons_append] at hds
          injection hds with h1 _
          rw [← h1]
          exact hhead a as rfl
      obtain ⟨f1, f2, f3⟩ := ih (acc ++ [c]) sch rest h hacc' hhead'
      exact ⟨f1, f2, fun x hx => List.mem_cons_of_mem _ (f3 x hx)⟩
    · rw [if_neg ha] at h
      by_cases hd : isDigitCh c = true ∨ c = '+' ∨ c = '-' ∨ c = '.'
      · rw [if_pos hd] at h
        cases hacceq : acc with
        | nil =>
          rw [hacceq, if_pos rfl] at h
          exact absurd h (by simp)
        | cons a as =>
          rw [hacceq] at h
          rw [if_neg (by simp)] at h
          have hacc' : ∀ x ∈ (a :: as) ++ [c], schemeChar x = true := by
            intro x hx
            rcases List.mem_append.1 hx with hx | hx
            · exact hacc x (hacceq ▸ hx)
            · simp at hx
              subst hx
              unfold schemeChar
              refine decide_eq_true (Or.inr hd)
          have hhead' : ∀ d ds, (a :: as) ++ [c] = d :: ds → isAlphaCh d = true := by
            intro d ds hds
            rw [List.cons_append] at hds
            injection hds with h1 _
            rw [← h1]
            exact hhead a as hacceq
          obtain ⟨f1, f2, f3⟩ := ih ((a :: as) ++ [c]) sch rest h hacc' hhead'
          exact ⟨f1, f2, fun x hx => List.mem_cons_of_mem _ (f3 x hx)⟩
      · rw [if_neg hd] at h
        by_cases hcl : c = ':'
        · rw [if_pos hcl] at h
          cases hacceq : acc with
          | nil =>
            rw [hacceq, if_pos rfl] at h
            exact absurd h (by simp)
          | cons a as =>
            rw [hacceq] at h
            rw [if_neg (by simp)] at h
            injection h with h1 h2
            subst h1
            subst h2
            refine ⟨fun x hx => hacc x (hacceq ▸ hx), ⟨a, as, rfl, hhead a as hacceq⟩, ?_⟩
            intro x hx
            exact List.mem_cons_of_mem _ hx
        · rw [if_neg hcl] at h
          exact absurd h (by simp)

theorem getScheme_found_facts {s sch rest : GoStr} (h : getScheme s = .found sch rest) :
    (∀ c ∈ sch, schemeChar c = true) ∧
      (∃ d ds, sch = d :: ds ∧ isAlphaCh d = true) ∧ (∀ x ∈ rest, x ∈ s) :=
  getSchemeAux_found_facts s [] sch rest h (by simp) (by simp)

theorem str_slash : str "/" = ['/'] := rfl

theorem str_slash2 : str "//" = ['/', '/'] := rfl

theorem str_slash3 : str "///" = ['/', '/', '/'] := rfl

theorem begWith2_implies1 {s : GoStr} (h : begWith ['/', '/'] s = true) :
    begWith ['/'] s = true := by
  cases s with
  | nil => simp [begWith] at h
  | cons a t =>
    cases t with
    | nil => simp [begWith] at h
    | cons b t' =>
      simp [begWith] at h ⊢
      exact h.1

theorem begWith3_implies2 {s : GoStr} (h : begWith ['/', '/', '/'] s = true) :
    begWith ['/', '/'] s = true := by
  cases s with
  | nil => simp [begWith] at h
  | cons a t =>
    cases t with
    | nil => simp [begWith] at h
    | cons b t' =>
      cases t' with
      | nil => simp [begWith] at h
      | cons c t'' =>
        simp [begWith] at h ⊢
        exact ⟨h.1, h.2.1⟩

theorem begWith2_struct {s : GoStr} (h : begWith ['/', '/'] s = true) :
    s = '/' :: '/' :: s.drop 2 := by
  cases s with
  | nil => simp [begWith] at h
  | cons a t =>
    cases t with
    | nil => simp [begWith] at h
    | cons b t' =>
      simp [begWith] at h
      rw [← h.1, ← h.2]
      rfl

theorem cutList_fst_nil {c : Char} {s : GoStr} (h : (cutList c s).1 = []) :
    s = [] ∨ ∃ t, s = c :: t := by
  cases s with
  | nil => exact Or.inl rfl
  | cons x xs =>
    rw [cutList_cons] at h
    by_cases hx : x = c
    · exact Or.inr ⟨xs, by rw [hx]⟩
    · rw [if_neg hx] at h
      simp at h

theorem mem_of_all {p : Char → Bool} {l : GoStr} (h : l.all p = true) :
    ∀ x ∈ l, p x = true := List.all_eq_true.1 h

/-- Invariant satisfied by every URL value `url.Parse` can produce in the
model; it is exactly what the print/re-parse round trip needs. -/
structure URLOK (v : GoURL) : Prop where
  scheme_chars : ∀ c ∈ v.scheme, schemeChar c = true
  scheme_lower : lowerStr v.scheme = v.scheme
  scheme_head : ∀ d ds, v.scheme = d :: ds → isAlphaCh d = true
  host_chars : ∀ c ∈ v.host, hostChar c = true
  path_chars : ∀ c ∈ v.path, pathChar c = true
  opq_chars : ∀ c ∈ v.opq, pathChar c = true
  query_ok : ∀ c ∈ v.rawQuery, ¬ (isCTL c = true ∨ c = '%') ∧ c ≠ '#'
  opq_shape : v.opq ≠ [] → v.scheme ≠ [] ∧ begWith (str "/") v.opq = false ∧ v.host = []
  opq_path : v.opq ≠ [] → v.path = [] ∨ v.path = str "/" 
  host_path : v.host ≠ [] → v.path = [] ∨ begWith (str "/") v.path = true
  scheme_path : v.scheme ≠ [] → v.host = [] → v.opq = [] →
    v.path = [] ∨ begWith (str "/") v.path = true
  rel_colon : v.scheme = [] → v.host = [] → begWith (str "/") v.path = false →
    ((cutList '/' v.path).1).contains ':' = false
  rel_slashes : v.scheme = [] → v.host = [] → begWith (str "//") v.path = true →
    begWith (str "///") v.path = true

theorem bool_clash {b : Bool} {C : Prop} (h1 : b = true) (h2 : b = false) : C := by
  rw [h1] at h2
  exact absurd h2 (by simp)

theorem begWith_slash_cons (l : GoStr) : begWith (str "/") ('/' :: l) = true := by
  simp [str_slash, begWith]

theorem parseMain_shape {scheme rest2 rawQuery frag : GoStr} {v : GoURL}
    (h : parseMain scheme rest2 rawQuery frag = some v)
    (hs1 : ∀ c ∈ scheme, schemeChar c = true)
    (hs2 : lowerStr scheme = scheme)
    (hs3 : ∀ d ds, scheme = d :: ds → isAlphaCh d = true)
    (hq : ∀ c ∈ rawQuery, ¬ (isCTL c = true ∨ c = '%') ∧ c ≠ '#') : URLOK v := by
  unfold parseMain at h
  by_cases h1 : begWith (str "/") rest2 = true
  · rw [if_neg (not_not_intro h1)] at h
    by_cases h2 : begWith (str "//") rest2 = true
    · rw [if_pos h2] at h
      by_cases h3 : scheme = [] ∧ begWith (str "///") rest2 = true
      · rw [if_pos h3] at h
        by_cases h4 : rest2.all pathChar = true
        · rw [if_pos h4] at h
          have hv := Option.some.inj h
          subst hv
          exact {
            scheme_chars := fun c hc => absurd hc (List.not_mem_nil c)
            scheme_lower := rfl
            scheme_head := fun d ds hds => by simp at hds
            host_chars := fun c hc => absurd hc (List.not_mem_nil c)
            path_chars := mem_of_all h4
            opq_chars := fun c hc => absurd hc (List.not_mem_nil c)
            query_ok := hq
            opq_shape := fun hop => absurd rfl hop
            opq_path := fun hop => absurd rfl hop
            host_path := fun hh => absurd rfl hh
            scheme_path := fun hs => absurd rfl hs
            rel_colon := fun _ _ hf => bool_clash h1 hf
            rel_slashes := fun _ _ _ => h3.2 }
        · rw [if_neg h4] at h
          exact absurd h (by simp)
      · rw [if_neg h3] at h
        by_cases h4 : ((cutList '/' (rest2.drop 2)).1).all hostChar = true ∧
            ((if (cutList '/' (rest2.drop 2)).2.2 = true then
                '/' :: (cutList '/' (rest2.drop 2)).2.1 else []) : GoStr).all pathChar = true
        · rw [if_pos h4] at h
          have hv := Option.some.inj h
          subst hv
          have hpshape : ((if (cutList '/' (rest2.drop 2)).2.2 = true then
              '/' :: (cutList '/' (rest2.drop 2)).2.1 else []) : GoStr) = [] ∨
              begWith (str "/") ((if (cutList '/' (rest2.drop 2)).2.2 = true then
                '/' :: (cutList '/' (rest2.drop 2)).2.1 else []) : GoStr) = true := by
            by_cases hf : (cutList '/' (rest2.drop 2)).2.2 = true
            · rw [if_pos hf]
              exact Or.inr (begWith_slash_cons _)
            · rw [if_neg hf]
              exact Or.inl rfl
          exact {
            scheme_chars := hs1
            scheme_lower := hs2
            scheme_head := hs3
            host_chars := mem_of_all h4.1
            path_chars := mem_of_all h4.2
            opq_chars := fun c hc => absurd hc (List.not_mem_nil c)
            query_ok := hq
            opq_shape := fun hop => absurd rfl hop
            opq_path := fun hop => absurd rfl hop
            host_path := fun _ => hpshape
            scheme_path := fun _ _ _ => hpshape
            rel_colon := by
              intro _ _ hf
              rcases hpshape with hp | hp
              · rw [hp]
                rfl
              · exact bool_clash hp hf
            rel_slashes := by
              intro hsch hhost hbb
              exfalso
              rcases cutList_fst_nil hhost with hd | ⟨t, hd⟩
              · rw [hd] at hbb
                have : (cutList '/' ([] : GoStr)).2.2 = false := rfl
                rw [this] at hbb
                simp [begWith] at hbb
              · apply h3
                refine ⟨hsch, ?_⟩
                have hstruct := begWith2_struct h2
                rw [hstruct, hd]
                simp [str_slash3, begWith] }
        · rw [if_neg h4] at h
          exact absurd h (by simp)
    · rw [if_neg h2] at h
      by_cases hsch : scheme = []
      · rw [if_neg (not_not_intro hsch)] at h
        by_cases h4 : rest2.all pathChar = true
        · rw [if_pos h4] at h
          have hv := Option.some.inj h
          subst hv
          exact {
            scheme_chars := fun c hc => absurd hc (List.not_mem_nil c)
            scheme_lower := rfl
            scheme_head := fun d ds hds => by simp at hds
            host_chars := fun c hc => absurd hc (List.not_mem_nil c)
            path_chars := mem_of_all h4
            opq_chars := fun c hc => absurd hc (List.not_mem_nil c)
            query_ok := hq
            opq_shape := fun hop => absurd rfl hop
            opq_path := fun hop => absurd rfl hop
            host_path := fun hh => absurd rfl hh
            scheme_path := fun hs => absurd rfl hs
            rel_colon := fun _ _ hf => bool_clash h1 hf
            rel_slashes := fun _ _ hbb => absurd hbb h2 }
        · rw [if_neg h4] at h
          exact absurd h (by simp)
      · rw [if_pos hsch] at h
        exact absurd h (by simp)
  · rw [if_pos h1] at h
    by_cases hsch : scheme = []
    · rw [if_neg (not_not_intro hsch)] at h
      by_cases hcol : ((cutList '/' rest2).1).contains ':' = true
      · rw [if_pos hcol] at h
        exact absurd h (by simp)
      · rw [if_neg hcol] at h
        by_cases h4 : rest2.all pathChar = true
        · rw [if_pos h4] at h
          have hv := Option.some.inj h
          subst hv
          exact {
            scheme_chars := fun c hc => absurd hc (List.not_mem_nil c)
            scheme_lower := rfl
            scheme_head := fun d ds hds => by simp at hds
            host_chars := fun c hc => absurd hc (List.not_mem_nil c)
            path_chars := mem_of_all h4
            opq_chars := fun c hc => absurd hc (List.not_mem_nil c)
            query_ok := hq
            opq_shape := fun hop => absurd rfl hop
            opq_path := fun hop => absurd rfl hop
            host_path := fun hh => absurd rfl hh
            scheme_path := fun hs => absurd rfl hs
            rel_colon := fun _ _ _ => Bool.eq_false_iff.2 hcol
            rel_slashes := fun _ _ hbb => absurd (begWith2_implies1 hbb) h1 }
        · rw [if_neg h4] at h
          exact absurd h (by simp)
    · rw [if_pos hsch] at h
      by_cases h4 : rest2.all pathChar = true
      · rw [if_pos h4] at h
        have hv := Option.some.inj h
        subst hv
        exact {
          scheme_chars := hs1
          scheme_lower := hs2
          scheme_head := hs3
          host_chars := fun c hc => absurd hc (List.not_mem_nil c)
          path_chars := fun c hc => absurd hc (List.not_mem_nil c)
          opq_chars := mem_of_all h4
          query_ok := hq
          opq_shape := fun _ => ⟨hsch, Bool.eq_false_iff.2 h1, rfl⟩
          opq_path := fun _ => Or.inl rfl
          host_path := fun hh => absurd rfl hh
          scheme_path := fun _ _ _ => Or.inl rfl
          rel_colon := fun hs => absurd hs hsch
          rel_slashes := fun hs => absurd hs hsch }
      · rw [if_neg h4] at h
        exact absurd h (by simp)

theorem parseRest_shape {scheme rest1 frag : GoStr} {v : GoURL}
    (h : parseRest scheme rest1 frag = some v)
    (hs1 : ∀ c ∈ scheme, schemeChar c = true)
    (hs2 : lowerStr scheme = scheme)
    (hs3 : ∀ d ds, scheme = d :: ds → isAlphaCh d = true)
    (hr : ∀ c ∈ rest1, ¬ (isCTL c = true ∨ c = '%') ∧ c ≠ '#') : URLOK v := by
  unfold parseRest at h
  by_cases hc : (cutList '?' rest1).2.2 = true ∧ (cutList '?' rest1).2.1 = []
  · rw [if_pos hc] at h
    exact absurd h (by simp)
  · rw [if_neg hc] at h
    exact parseMain_shape h hs1 hs2 hs3 (fun c hcm => hr c (cutList_snd_mem c hcm))

theorem parseURL_shape {s : GoStr} {v : GoURL} (h : parseURL s = some v) : URLOK v := by
  unfold parseURL at h
  by_cases hany : (s.any fun c => isCTL c ∨ c = '%') = true
  · rw [if_pos hany] at h
    exact absurd h (by simp)
  · rw [if_neg hany] at h
    have hchar : ∀ c ∈ s, ¬ (isCTL c = true ∨ c = '%') := by
      intro c hc hcontra
      exact hany (List.any_eq_true.2 ⟨c, hc, decide_eq_true hcontra⟩)
    have hrest0 : ∀ c ∈ (cutList '#' s).1, ¬ (isCTL c = true ∨ c = '%') ∧ c ≠ '#' :=
      fun c hc => ⟨hchar c (cutList_fst_mem c hc), cutList_fst_ne c hc⟩
    cases hg : getScheme (cutList '#' s).1 with
    | err =>
      rw [hg] at h
      exact absurd h (by simp)
    | noScheme =>
      rw [hg] at h
      exact parseRest_shape h (by simp) rfl (by simp) hrest0
    | found sch r =>
      rw [hg] at h
      obtain ⟨f1, f2, f3⟩ := getScheme_found_facts hg
      refine parseRest_shape h ?_ (lowerStr_idem sch) ?_ ?_
      · intro c hc
        obtain ⟨d, hd, rfl⟩ := List.mem_map.1 hc
        exact schemeChar_lowerChar (f1 d hd)
      · intro d ds hds
        obtain ⟨e, es, he, hea⟩ := f2
        rw [he] at hds
        simp [lowerStr] at hds
        rw [← hds.1]
        exact isAlphaCh_lowerChar hea
      · intro c hc
        exact hrest0 c (f3 c hc)

theorem schemeChar_toNat {c : Char} (h : schemeChar c = true) :
    32 ≤ c.toNat ∧ c.toNat ≤ 126 ∧ c.toNat ≠ 35 ∧ c.toNat ≠ 37 ∧ c.toNat ≠ 63 ∧
      c.toNat ≠ 47 ∧ c.toNat ≠ 58 ∧ c.toNat ≠ 35 := by
  rcases of_decide_eq_true h with h1 | h1 | h1 | h1 | h1
  · rcases (isAlphaCh_iff c).1 h1 with h2 | h2 <;> omega
  · have h2 := (isDigitCh_iff c).1 h1
    omega
  all_goals subst h1; decide

theorem hostChar_toNat {c : Char} (h : hostChar c = true) :
    32 ≤ c.toNat ∧ c.toNat ≤ 126 ∧ c.toNat ≠ 35 ∧ c.toNat ≠ 37 ∧ c.toNat ≠ 63 ∧
      c.toNat ≠ 47 := by
  rcases of_decide_eq_true h with h1 | h1 | h1 | h1 | h1 | h1
  · rcases (isAlphaCh_iff c).1 h1 with h2 | h2 <;> omega
  · have h2 := (isDigitCh_iff c).1 h1
    omega
  all_goals subst h1; decide

theorem pathChar_toNat {c : Char} (h : pathChar c = true) :
    32 ≤ c.toNat ∧ c.toNat ≤ 126 ∧ c.toNat ≠ 35 ∧ c.toNat ≠ 37 ∧ c.toNat ≠ 63 := by
  rcases of_decide_eq_true h with h1 | h1 | h1 | h1 | h1 | h1 | h1 | h1 | h1 | h1 | h1 | h1 | h1 | h1 | h1
  · rcases (isAlphaCh_iff c).1 h1 with h2 | h2 <;> omega
  · have h2 := (isDigitCh_iff c).1 h1
    omega
  all_goals subst h1; decide

theorem safe_of_toNat {c : Char} (h : 32 ≤ c.toNat ∧ c.toNat ≤ 126 ∧ c.toNat ≠ 35 ∧
    c.toNat ≠ 37) : ¬ (isCTL c = true ∨ c = '%') ∧ c ≠ '#' := by
  constructor
  · intro hc
    rcases hc with hc | hc
    · rcases of_decide_eq_true hc with h1 | h1 <;> omega
    · rw [charEq_toNat] at hc
      have h37 : ('%').toNat = 37 := rfl
      omega
  · intro hc
    rw [charEq_toNat] at hc
    have h35 : ('#').toNat = 35 := rfl
    omega

theorem ne_of_toNat_ne {c d : Char} (h : c.toNat ≠ d.toNat) : c ≠ d := by
  intro hc
  exact h (by rw [hc])

theorem any_eq_false_of {p : Char → Bool} {l : GoStr} (h : ∀ x ∈ l, p x = false) :
    l.any p = false := by
  induction l with
  | nil => rfl
  | cons c cs ih =>
    simp only [List.any_cons, h c (by simp), Bool.false_or]
    exact ih (fun x hx => h x (by simp [hx]))

theorem parseURL_of_safe {s : GoStr}
    (hsafe : ∀ c ∈ s, ¬ (isCTL c = true ∨ c = '%'))
    (hnh : ∀ c ∈ s, c ≠ '#') :
    parseURL s = (match getScheme s with
      | .err => none
      | .noScheme => parseRest [] s []
      | .found sch r => parseRest (lowerStr sch) r []) := by
  unfold parseURL
  rw [if_neg, cutList_not_mem hnh]
  intro hany
  rw [List.any_eq_true] at hany
  obtain ⟨x, hx, hpx⟩ := hany
  exact hsafe x hx (of_decide_eq_true hpx)

theorem parseRest_of_split {scheme X frag q : GoStr}
    (hX : ∀ c ∈ X, c ≠ '?') :
    parseRest scheme (X ++ (if q ≠ [] then '?' :: q else [])) frag =
      parseMain scheme X q frag := by
  by_cases hq : q = []
  · subst hq
    rw [if_neg (by simp), List.append_nil]
    unfold parseRest
    rw [cutList_not_mem hX]
    rw [if_neg (by simp)]
  · rw [if_pos hq]
    unfold parseRest
    rw [cutList_hit hX]
    rw [if_neg (by simp [hq])]

theorem colonSafe_slash (t : GoStr) : colonSafe ('/' :: t) = true := by
  unfold colonSafe
  rw [if_neg (by decide), if_neg (by decide)]

theorem colonSafe_quest (t : GoStr) : colonSafe ('?' :: t) = true := by
  unfold colonSafe
  rw [if_neg (by decide), if_neg (by decide)]

theorem colonSafe_of_seg : ∀ p : GoStr, ((cutList '/' p).1).contains ':' = false →
    ∀ q0 : GoStr, (q0 = [] ∨ ∃ t, q0 = '?' :: t) → colonSafe (p ++ q0) = true := by
  intro p
  induction p with
  | nil =>
    intro _ q0 hq0
    rcases hq0 with hq0 | ⟨t, hq0⟩
    · subst hq0
      rfl
    · subst hq0
      exact colonSafe_quest t
  | cons c p' ih =>
    intro hseg q0 hq0
    by_cases hc : c = '/'
    · subst hc
      exact colonSafe_slash _
    · rw [cutList_cons, if_neg hc] at hseg
      have hcns : c ≠ ':' := by
        intro hcc
        subst hcc
        simp [List.contains] at hseg
      have hseg' : ((cutList '/' p').1).contains ':' = false := by
        by_cases hmem : ((cutList '/' p').1).contains ':' = true
        · exfalso
          simp only [List.contains] at hseg hmem
          rw [List.elem_cons] at hseg
          split at hseg
          · simp at hseg
          · rw [hmem] at hseg
            simp at hseg
        · exact Bool.eq_false_iff.2 hmem
      rw [List.cons_append]
      unfold colonSafe
      rw [if_neg hcns]
      by_cases hsc : schemeChar c = true
      · rw [if_pos hsc]
        exact ih hseg' q0 hq0
      · rw [if_neg hsc]

theorem mem_qpart {wq : GoStr} {c : Char} (hc : c ∈ (if wq ≠ [] then '?' :: wq else [])) :
    c = '?' ∨ c ∈ wq := by
  split at hc
  · rcases List.mem_cons.1 hc with hc | hc
    · exact Or.inl hc
    · exact Or.inr hc
  · simp at hc

theorem query_safe {v : GoURL} (hok : URLOK v) {c : Char} (hc : c ∈ v.rawQuery) :
    ¬ (isCTL c = true ∨ c = '%') ∧ c ≠ '#' :=
  ⟨(hok.query_ok c hc).1, (hok.query_ok c hc).2⟩

theorem roundtrip_opq {ws wo wh wp wq : GoStr}
    (hok : URLOK ⟨ws, wo, wh, wp, wq, []⟩) (hwo : wo ≠ []) :
    parseURL (urlString ⟨ws, wo, wh, wp, wq, []⟩) = some ⟨ws, wo, [], [], wq, []⟩ := by
  have hshape := hok.opq_shape hwo
  have hsne : ws ≠ [] := hshape.1
  have hbw : begWith (str "/") wo = false := hshape.2.1
  have hscheme : ∀ c ∈ ws, schemeChar c = true := hok.scheme_chars
  have hopq : ∀ c ∈ wo, pathChar c = true := hok.opq_chars
  have hquery : ∀ c ∈ wq, ¬ (isCTL c = true ∨ c = '%') ∧ c ≠ '#' := hok.query_ok
  have hfr : (if ([] : GoStr) ≠ [] then '#' :: ([] : GoStr) else []) = [] := by simp
  have hprint : urlString ⟨ws, wo, wh, wp, wq, []⟩ =
      ws ++ ':' :: (wo ++ (if wq ≠ [] then '?' :: wq else [])) := by
    unfold urlString
    simp only []
    rw [if_pos hsne, if_pos hwo, hfr]
    simp [List.append_assoc]
  have hmem : ∀ c ∈ ws ++ ':' :: (wo ++ (if wq ≠ [] then '?' :: wq else [])),
      ¬ (isCTL c = true ∨ c = '%') ∧ c ≠ '#' := by
    intro c hc
    rcases List.mem_append.1 hc with hc | hc
    · exact safe_of_toNat (by
        have := schemeChar_toNat (hscheme c hc)
        omega)
    · rcases List.mem_cons.1 hc with hc | hc
      · subst hc
        exact ⟨by decide, by decide⟩
      · rcases List.mem_append.1 hc with hc | hc
        · exact safe_of_toNat (by
            have := pathChar_toNat (hopq c hc)
            omega)
        · rcases mem_qpart hc with hc | hc
          · subst hc
            exact ⟨by decide, by decide⟩
          · exact hquery c hc
  rw [hprint, parseURL_of_safe (fun c hc => (hmem c hc).1) (fun c hc => (hmem c hc).2)]
  cases hws : ws with
  | nil => exact absurd hws hsne
  | cons d ds =>
    have hsch : ∀ x ∈ ds, schemeChar x = true := by
      intro x hx
      exact hscheme x (by rw [hws]; simp [hx])
    have hda : isAlphaCh d = true := hok.scheme_head d ds hws
    have hlow : lowerStr (d :: ds) = d :: ds := by
      rw [← hws]
      exact hok.scheme_lower
    simp only [getScheme_of_scheme hda hsch]
    rw [hlow]
    rw [parseRest_of_split (by
      intro c hc
      have := pathChar_toNat (hopq c hc)
      apply ne_of_toNat_ne
      have h63 : ('?').toNat = 63 := rfl
      omega)]
    unfold parseMain
    rw [if_pos (by rw [hbw]; simp), if_pos (by rw [← hws]; exact hsne),
      if_pos (List.all_eq_true.2 hopq)]

theorem parseMain_authority {scheme wh wp wq frag : GoStr}
    (hwh : wh ≠ []) (hhost : ∀ c ∈ wh, hostChar c = true)
    (hpath : ∀ c ∈ wp, pathChar c = true)
    (hshape : wp = [] ∨ begWith (str "/") wp = true) :
    parseMain scheme ('/' :: '/' :: (wh ++ wp)) wq frag = some ⟨scheme, [], wh, wp, wq, frag⟩ := by
  have hne : ∀ c ∈ wh, c ≠ '/' := by
    intro c hc
    have := hostChar_toNat (hhost c hc)
    apply ne_of_toNat_ne
    have h47 : ('/').toNat = 47 := rfl
    omega
  unfold parseMain
  rw [if_neg (not_not_intro (by simp [str_slash, begWith]))]
  rw [if_pos (by simp [str_slash2, begWith])]
  rw [if_neg ?hguard]
  case hguard =>
    intro hg
    cases wh with
    | nil => exact hwh rfl
    | cons e es =>
      have he := hostChar_toNat (hhost e (by simp))
      have h3 := hg.2
      rw [str_slash3] at h3
      simp only [List.cons_append, begWith_cons] at h3
      have h47 : ('/').toNat = 47 := rfl
      exact absurd h3.2.2.1.symm (ne_of_toNat_ne (by omega))
  have hdrop : ('/' :: '/' :: (wh ++ wp)).drop 2 = wh ++ wp := rfl
  rw [hdrop]
  rcases hshape with hwp | hwp
  · subst hwp
    rw [List.append_nil, cutList_not_mem hne]
    simp only []
    rw [if_pos ⟨List.all_eq_true.2 hhost, by simp⟩]
    simp
  · cases wp with
    | nil => simp [str_slash, begWith] at hwp
    | cons p0 p' =>
      rw [str_slash] at hwp
      rcases (begWith_cons _ _ _ _).1 hwp with ⟨hp0, _⟩
      subst hp0
      rw [cutList_hit hne]
      simp only []
      rw [if_pos ⟨List.all_eq_true.2 hhost, List.all_eq_true.2 hpath⟩]
      simp

theorem getScheme_noScheme_of_colonSafe {s : GoStr} (h : colonSafe s = true) :
    getScheme s = .noScheme := getSchemeAux_noScheme h []

theorem roundtrip_host {ws wh wp wq : GoStr}
    (hok : URLOK ⟨ws, [], wh, wp, wq, []⟩) (hwh : wh ≠ []) :
    parseURL (urlString ⟨ws, [], wh, wp, wq, []⟩) = some ⟨ws, [], wh, wp, wq, []⟩ := by
  have hscheme : ∀ c ∈ ws, schemeChar c = true := hok.scheme_chars
  have hhost : ∀ c ∈ wh, hostChar c = true := hok.host_chars
  have hpath : ∀ c ∈ wp, pathChar c = true := hok.path_chars
  have hquery : ∀ c ∈ wq, ¬ (isCTL c = true ∨ c = '%') ∧ c ≠ '#' := hok.query_ok
  have hshape : wp = [] ∨ begWith (str "/") wp = true := hok.host_path hwh
  have hprint : urlString ⟨ws, [], wh, wp, wq, []⟩ =
      (if ws ≠ [] then ws ++ [':'] else []) ++
        (('/' :: '/' :: (wh ++ wp)) ++ (if wq ≠ [] then '?' :: wq else [])) := by
    unfold urlString
    simp only []
    rw [if_neg (show ¬ (([] : GoStr) ≠ []) by simp),
      if_pos (show (ws ≠ [] ∨ wh ≠ []) ∧ (wh ≠ [] ∨ wp ≠ []) from ⟨Or.inr hwh, Or.inl hwh⟩),
      if_neg (show ¬ (wp ≠ [] ∧ ¬ begWith (str "/") wp = true ∧ wh ≠ []) by
        intro hg
        rcases hshape with h1 | h1
        · exact hg.1 h1
        · exact hg.2.1 h1),
      if_neg (show ¬ (ws = [] ∧ wh = [] ∧ ((cutList '/' wp).1).contains ':' = true) from
        fun hg => hwh hg.2.1),
      if_neg (show ¬ (([] : GoStr) ≠ []) by simp)]
    simp [str_slash2, List.append_assoc]
  have hXmem : ∀ c ∈ ('/' :: '/' :: (wh ++ wp)),
      (32 ≤ c.toNat ∧ c.toNat ≤ 126 ∧ c.toNat ≠ 35 ∧ c.toNat ≠ 37 ∧ c.toNat ≠ 63) := by
    intro c hc
    rcases List.mem_cons.1 hc with hc | hc
    · subst hc; decide
    · rcases List.mem_cons.1 hc with hc | hc
      · subst hc; decide
      · rcases List.mem_append.1 hc with hc | hc
        · have := hostChar_toNat (hhost c hc)
          omega
        · exact pathChar_toNat (hpath c hc)
  have hmem : ∀ c ∈ (if ws ≠ [] then ws ++ [':'] else []) ++
      (('/' :: '/' :: (wh ++ wp)) ++ (if wq ≠ [] then '?' :: wq else [])),
      ¬ (isCTL c = true ∨ c = '%') ∧ c ≠ '#' := by
    intro c hc
    rcases List.mem_append.1 hc with hc | hc
    · split at hc
      · rcases List.mem_append.1 hc with hc | hc
        · exact safe_of_toNat (by
            have := schemeChar_toNat (hscheme c hc)
            omega)
        · simp at hc
          subst hc
          exact ⟨by decide, by decide⟩
      · simp at hc
    · rcases List.mem_append.1 hc with hc | hc
      · exact safe_of_toNat (by
          have := hXmem c hc
          omega)
      · rcases mem_qpart hc with hc | hc
        · subst hc
          exact ⟨by decide, by decide⟩
        · exact hquery c hc
  rw [hprint, parseURL_of_safe (fun c hc => (hmem c hc).1) (fun c hc => (hmem c hc).2)]
  have hXq : ∀ c ∈ ('/' :: '/' :: (wh ++ wp)), c ≠ '?' := by
    intro c hc
    have := hXmem c hc
    apply ne_of_toNat_ne
    have h63 : ('?').toNat = 63 := rfl
    omega
  cases hws : ws with
  | nil =>
    rw [if_neg (by simp)]
    rw [List.nil_append]
    have hcs : colonSafe (('/' :: '/' :: (wh ++ wp)) ++
        (if wq ≠ [] then '?' :: wq else [])) = true := by
      rw [List.cons_append]
      exact colonSafe_slash _
    simp only [getScheme_noScheme_of_colonSafe hcs]
    rw [parseRest_of_split hXq]
    exact parseMain_authority hwh hhost hpath hshape
  | cons d ds =>
    have hsch : ∀ x ∈ ds, schemeChar x = true := by
      intro x hx
      exact hscheme x (by rw [hws]; simp [hx])
    have hda : isAlphaCh d = true := hok.scheme_head d ds hws
    have hlow : lowerStr (d :: ds) = d :: ds := by
      rw [← hws]
      exact hok.scheme_lower
    rw [if_pos (by simp)]
    have hassoc : ((d :: ds) ++ [':']) ++
        (('/' :: '/' :: (wh ++ wp)) ++ (if wq ≠ [] then '?' :: wq else [])) =
        (d :: ds) ++ ':' :: (('/' :: '/' :: (wh ++ wp)) ++ (if wq ≠ [] then '?' :: wq else [])) := by
      simp [List.append_assoc]
    rw [hassoc]
    simp only [getScheme_of_scheme hda hsch]
    rw [hlow]
    rw [parseRest_of_split hXq]
    exact parseMain_authority hwh hhost hpath hshape

theorem parseMain_authEmpty {scheme p' wq frag : GoStr} (hs : scheme ≠ [])
    (hpath : ∀ c ∈ ('/' :: p' : GoStr), pathChar c = true) :
    parseMain scheme ('/' :: '/' :: '/' :: p') wq frag =
      some ⟨scheme, [], [], '/' :: p', wq, frag⟩ := by
  unfold parseMain
  rw [if_neg (not_not_intro (by simp [str_slash, begWith]))]
  rw [if_pos (by simp [str_slash2, begWith])]
  rw [if_neg (show ¬ (scheme = [] ∧ begWith (str "///") ('/' :: '/' :: '/' :: p') = true) from
    fun hg => hs hg.1)]
  have hdrop : ('/' :: '/' :: '/' :: p' : GoStr).drop 2 = '/' :: p' := rfl
  rw [hdrop, cutList_cons, if_pos rfl]
  simp only []
  rw [if_pos ⟨by simp, List.all_eq_true.2 hpath⟩]
  simp

theorem urlString_hier (ws wh wp wq : GoStr) :
    urlString ⟨ws, [], wh, wp, wq, []⟩ =
      (if ws ≠ [] then ws ++ [':'] else []) ++
      ((if (ws ≠ [] ∨ wh ≠ []) ∧ (wh ≠ [] ∨ wp ≠ []) then '/' :: '/' :: wh else []) ++
       ((if wp ≠ [] ∧ ¬ begWith (str "/") wp = true ∧ wh ≠ [] then str "/" else []) ++
        ((if ws = [] ∧ wh = [] ∧ ((cutList '/' wp).1).contains ':' = true then str "./" else []) ++
         (wp ++ (if wq ≠ [] then '?' :: wq else []))))) := by
  unfold urlString
  simp only []
  rw [if_neg (show ¬ (([] : GoStr) ≠ []) by simp)]
  rw [if_neg (show ¬ (([] : GoStr) ≠ []) by simp)]
  simp [str_slash2, List.append_assoc]

theorem roundtrip_schemeOnly {ws wp wq : GoStr}
    (hok : URLOK ⟨ws, [], [], wp, wq, []⟩) (hws : ws ≠ []) :
    parseURL (urlString ⟨ws, [], [], wp, wq, []⟩) = some ⟨ws, [], [], wp, wq, []⟩ := by
  have hscheme : ∀ c ∈ ws, schemeChar c = true := hok.scheme_chars
  have hpath : ∀ c ∈ wp, pathChar c = true := hok.path_chars
  have hquery : ∀ c ∈ wq, ¬ (isCTL c = true ∨ c = '%') ∧ c ≠ '#' := hok.query_ok
  have hshape : wp = [] ∨ begWith (str "/") wp = true := hok.scheme_path hws rfl rfl
  obtain ⟨d, ds, hws2⟩ : ∃ d ds, ws = d :: ds := by
    cases ws with
    | nil => exact absurd rfl hws
    | cons d ds => exact ⟨d, ds, rfl⟩
  have hsch : ∀ x ∈ ds, schemeChar x = true := by
    intro x hx
    exact hscheme x (by rw [hws2]; simp [hx])
  have hda : isAlphaCh d = true := hok.scheme_head d ds hws2
  have hlow : lowerStr (d :: ds) = d :: ds := by
    rw [← hws2]
    exact hok.scheme_lower
  have hmemq : ∀ c ∈ (if wq ≠ [] then '?' :: wq else []),
      ¬ (isCTL c = true ∨ c = '%') ∧ c ≠ '#' := by
    intro c hc
    rcases mem_qpart hc with hc | hc
    · subst hc
      exact ⟨by decide, by decide⟩
    · exact hquery c hc
  have hmemsc : ∀ c ∈ ws, ¬ (isCTL c = true ∨ c = '%') ∧ c ≠ '#' := by
    intro c hc
    exact safe_of_toNat (by
      have := schemeChar_toNat (hscheme c hc)
      omega)
  have hmemp : ∀ c ∈ wp, ¬ (isCTL c = true ∨ c = '%') ∧ c ≠ '#' := by
    intro c hc
    exact safe_of_toNat (by
      have := pathChar_toNat (hpath c hc)
      omega)
  have hpq : ∀ c ∈ wp, c ≠ '?' := by
    intro c hc
    have := pathChar_toNat (hpath c hc)
    apply ne_of_toNat_ne
    have h63 : ('?').toNat = 63 := rfl
    omega
  rcases hshape with hwp | hwp
  · subst hwp
    rw [urlString_hier]
    rw [if_pos hws,
      if_neg (show ¬ ((ws ≠ [] ∨ ([] : GoStr) ≠ []) ∧ (([] : GoStr) ≠ [] ∨ ([] : GoStr) ≠ []))
        from fun hg => by rcases hg.2 with h | h <;> exact h rfl),
      if_neg (show ¬ (([] : GoStr) ≠ [] ∧ ¬ begWith (str "/") ([] : GoStr) = true ∧
        ([] : GoStr) ≠ []) from fun hg => hg.1 rfl),
      if_neg (show ¬ (ws = [] ∧ ([] : GoStr) = [] ∧
        ((cutList '/' ([] : GoStr)).1).contains ':' = true) from fun hg => hws hg.1)]
    have hassoc : (ws ++ [':']) ++ ([] ++ ([] ++ ([] ++ (([] : GoStr) ++
        (if wq ≠ [] then '?' :: wq else []))))) =
        ws ++ ':' :: (([] : GoStr) ++ (if wq ≠ [] then '?' :: wq else [])) := by
      simp [List.append_assoc]
    rw [hassoc]
    rw [parseURL_of_safe (fun c hc => ?s1) (fun c hc => ?s2)]
    case s1 =>
      rcases List.mem_append.1 hc with hc | hc
      · exact (hmemsc c hc).1
      · rcases List.mem_cons.1 hc with hc | hc
        · subst hc
          decide
        · exact (hmemq c (by simpa using hc)).1
    case s2 =>
      rcases List.mem_append.1 hc with hc | hc
      · exact (hmemsc c hc).2
      · rcases List.mem_cons.1 hc with hc | hc
        · subst hc
          decide
        · exact (hmemq c (by simpa using hc)).2
    rw [hws2]
    simp only [getScheme_of_scheme hda hsch]
    rw [hlow, parseRest_of_split (by simp)]
    unfold parseMain
    rw [if_pos (show ¬ begWith (str "/") ([] : GoStr) = true by simp [str_slash, begWith]),
      if_pos (show (d :: ds : GoStr) ≠ [] by simp)]
    rw [if_pos (by simp)]
  · obtain ⟨p', hp'⟩ : ∃ p', wp = '/' :: p' := by
      cases wp with
      | nil => simp [str_slash, begWith] at hwp
      | cons p0 t =>
        rw [str_slash] at hwp
        rcases (begWith_cons _ _ _ _).1 hwp with ⟨h1, _⟩
        exact ⟨t, by rw [← h1]⟩
    subst hp'
    rw [urlString_hier]
    rw [if_pos hws,
      if_pos (show (ws ≠ [] ∨ ([] : GoStr) ≠ []) ∧ (([] : GoStr) ≠ [] ∨ ('/' :: p' : GoStr) ≠ [])
        from ⟨Or.inl hws, Or.inr (by simp)⟩),
      if_neg (show ¬ (('/' :: p' : GoStr) ≠ [] ∧ ¬ begWith (str "/") ('/' :: p') = true ∧
        ([] : GoStr) ≠ []) from fun hg => hg.2.2 rfl),
      if_neg (show ¬ (ws = [] ∧ ([] : GoStr) = [] ∧
        ((cutList '/' ('/' :: p')).1).contains ':' = true) from fun hg => hws hg.1)]
    have hassoc : (ws ++ [':']) ++ (('/' :: '/' :: ([] : GoStr)) ++ ([] ++ ([] ++
        (('/' :: p') ++ (if wq ≠ [] then '?' :: wq else []))))) =
        ws ++ ':' :: (('/' :: '/' :: '/' :: p') ++ (if wq ≠ [] then '?' :: wq else [])) := by
      simp [List.append_assoc]
    rw [hassoc]
    rw [parseURL_of_safe (fun c hc => ?t1) (fun c hc => ?t2)]
    case t1 =>
      rcases List.mem_append.1 hc with hc | hc
      · exact (hmemsc c hc).1
      · rcases List.mem_cons.1 hc with hc | hc
        · subst hc
          decide
        · rcases List.mem_append.1 hc with hc | hc
          · rcases List.mem_cons.1 hc with hc | hc
            · subst hc
              decide
            · rcases List.mem_cons.1 hc with hc | hc
              · subst hc
                decide
              · exact (hmemp c hc).1
          · exact (hmemq c hc).1
    case t2 =>
      rcases List.mem_append.1 hc with hc | hc
      · exact (hmemsc c hc).2
      · rcases List.mem_cons.1 hc with hc | hc
        · subst hc
          decide
        · rcases List.mem_append.1 hc with hc | hc
          · rcases List.mem_cons.1 hc with hc | hc
            · subst hc
              decide
            · rcases List.mem_cons.1 hc with hc | hc
              · subst hc
                decide
              · exact (hmemp c hc).2
          · exact (hmemq c hc).2
    rw [hws2]
    simp only [getScheme_of_scheme hda hsch]
    rw [hlow, parseRest_of_split (by
      intro c hc
      rcases List.mem_cons.1 hc with hc | hc
      · subst hc; decide
      · rcases List.mem_cons.1 hc with hc | hc
        · subst hc; decide
        · exact hpq c hc)]
    rw [parseMain_authEmpty (by rw [← hws2]; exact hws) hpath]

theorem roundtrip_relative {wp wq : GoStr}
    (hok : URLOK ⟨[], [], [], wp, wq, []⟩) :
    parseURL (urlString ⟨[], [], [], wp, wq, []⟩) = some ⟨[], [], [], wp, wq, []⟩ := by
  have hpath : ∀ c ∈ wp, pathChar c = true := hok.path_chars
  have hquery : ∀ c ∈ wq, ¬ (isCTL c = true ∨ c = '%') ∧ c ≠ '#' := hok.query_ok
  have hcol : ((cutList '/' wp).1).contains ':' = false := by
    by_cases hb : begWith (str "/") wp = true
    · cases wp with
      | nil => rfl
      | cons p0 t =>
        rw [str_slash] at hb
        rcases (begWith_cons _ _ _ _).1 hb with ⟨h1, _⟩
        rw [cutList_cons, if_pos h1.symm]
        rfl
    · exact hok.rel_colon rfl rfl (Bool.eq_false_iff.2 hb)
  have hqshape : (if wq ≠ [] then '?' :: wq else []) = [] ∨
      ∃ t, (if wq ≠ [] then '?' :: wq else []) = '?' :: t := by
    by_cases hq : wq = []
    · subst hq
      exact Or.inl (by simp)
    · exact Or.inr ⟨wq, by rw [if_pos hq]⟩
  have hcs : colonSafe (wp ++ (if wq ≠ [] then '?' :: wq else [])) = true :=
    colonSafe_of_seg wp hcol _ hqshape
  have hpq : ∀ c ∈ wp, c ≠ '?' := by
    intro c hc
    have := pathChar_toNat (hpath c hc)
    apply ne_of_toNat_ne
    have h63 : ('?').toNat = 63 := rfl
    omega
  rw [urlString_hier]
  rw [if_neg (show ¬ (([] : GoStr) ≠ []) by simp),
    if_neg (show ¬ ((([] : GoStr) ≠ [] ∨ ([] : GoStr) ≠ []) ∧ (([] : GoStr) ≠ [] ∨ wp ≠ []))
      from fun hg => by rcases hg.1 with h | h <;> exact h rfl),
    if_neg (show ¬ (wp ≠ [] ∧ ¬ begWith (str "/") wp = true ∧ ([] : GoStr) ≠ [])
      from fun hg => hg.2.2 rfl),
    if_neg (show ¬ (([] : GoStr) = [] ∧ ([] : GoStr) = [] ∧
      ((cutList '/' wp).1).contains ':' = true) from fun hg => bool_clash hg.2.2 hcol)]
  have hassoc : ([] : GoStr) ++ ([] ++ ([] ++ ([] ++ (wp ++
      (if wq ≠ [] then '?' :: wq else []))))) =
      wp ++ (if wq ≠ [] then '?' :: wq else []) := by
    simp
  rw [hassoc]
  rw [parseURL_of_safe (fun c hc => ?r1) (fun c hc => ?r2)]
  case r1 =>
    rcases List.mem_append.1 hc with hc | hc
    · exact (safe_of_toNat (by
        have := pathChar_toNat (hpath c hc)
        omega)).1
    · rcases mem_qpart hc with hc | hc
      · subst hc
        decide
      · exact (hquery c hc).1
  case r2 =>
    rcases List.mem_append.1 hc with hc | hc
    · exact (safe_of_toNat (by
        have := pathChar_toNat (hpath c hc)
        omega)).2
    · rcases mem_qpart hc with hc | hc
      · subst hc
        decide
      · exact (hquery c hc).2
  simp only [getScheme_noScheme_of_colonSafe hcs]
  rw [parseRest_of_split hpq]
  unfold parseMain
  by_cases hb : begWith (str "/") wp = true
  · rw [if_neg (not_not_intro hb)]
    by_cases hbb : begWith (str "//") wp = true
    · rw [if_pos hbb, if_pos ⟨rfl, hok.rel_slashes rfl rfl hbb⟩,
        if_pos (List.all_eq_true.2 hpath)]
    · rw [if_neg (by rw [Bool.eq_false_iff.2 hbb]; simp),
        if_neg (show ¬ (([] : GoStr) ≠ []) by simp),
        if_pos (List.all_eq_true.2 hpath)]
  · rw [if_pos (by rw [Bool.eq_false_iff.2 hb]; simp),
      if_neg (show ¬ (([] : GoStr) ≠ []) by simp),
      if_neg (by rw [hcol]; simp),
      if_pos (List.all_eq_true.2 hpath)]

/-- Printing then re-parsing a well-formed fragment-free URL value recovers
it exactly, except that for opaque URLs the (ignored) path field comes back
empty. -/
theorem parse_urlString {w : GoURL} (hok : URLOK w) (hfrag : w.fragment = []) :
    parseURL (urlString w) = some (if w.opq = [] then w else { w with path := [] }) := by
  obtain ⟨ws, wo, wh, wp, wq, wf⟩ := w
  simp only [] at hfrag
  subst hfrag
  by_cases hwo : wo = []
  · subst hwo
    rw [if_pos rfl]
    by_cases hwh : wh = []
    · subst hwh
      by_cases hws : ws = []
      · subst hws
        exact roundtrip_relative hok
      · exact roundtrip_schemeOnly hok hws
    · exact roundtrip_host hok hwh
  · have hwh : wh = [] := (hok.opq_shape hwo).2.2
    subst hwh
    rw [if_neg hwo]
    exact roundtrip_opq hok hwo

theorem normStep_path_cases (v : GoURL) :
    normStep v = ⟨v.scheme, v.opq, v.host,
      (if v.path = [] then str "/"
       else if v.path = str "/" then str "/"
       else rtrimSlash v.path), v.rawQuery, []⟩ := by
  unfold normStep
  by_cases h1 : v.path = []
  · rw [if_pos h1, if_pos h1]
  · rw [if_neg h1, if_neg h1]
    by_cases h2 : v.path = str "/"
    · rw [if_neg (not_not_intro h2), if_pos h2, h2]
    · rw [if_pos h2, if_neg h2]

theorem rtrim_prefix_ex : ∀ p : GoStr, ∃ t, p = rtrimSlash p ++ t := by
  intro p
  induction p with
  | nil => exact ⟨[], rfl⟩
  | cons c cs ih =>
    rw [rtrimSlash_cons]
    by_cases h : rtrimSlash cs = [] ∧ c = '/'
    · rw [if_pos h]
      exact ⟨c :: cs, rfl⟩
    · rw [if_neg h]
      obtain ⟨t, ht⟩ := ih
      exact ⟨t, by rw [List.cons_append, ← ht]⟩

theorem begWith_of_append {pre a : GoStr} (h : begWith pre a = true) (t : GoStr) :
    begWith pre (a ++ t) = true := by
  induction pre generalizing a with
  | nil => rfl
  | cons c cs ih =>
    cases a with
    | nil => simp [begWith] at h
    | cons d ds =>
      rcases (begWith_cons _ _ _ _).1 h with ⟨h1, h2⟩
      rw [List.cons_append]
      exact (begWith_cons _ _ _ _).2 ⟨h1, ih h2⟩

theorem begWith_rtrim_rev {pre p : GoStr} (h : begWith pre (rtrimSlash p) = true) :
    begWith pre p = true := by
  obtain ⟨t, ht⟩ := rtrim_prefix_ex p
  rw [ht]
  exact begWith_of_append h t

theorem seg_rtrim : ∀ p : GoStr,
    ((cutList '/' (rtrimSlash p)).1).contains ':' = true →
    ((cutList '/' p).1).contains ':' = true := by
  intro p
  induction p with
  | nil => simp [rtrimSlash]
  | cons c cs ih =>
    intro h
    rw [rtrimSlash_cons] at h
    split at h
    · simp [cutList] at h
    · by_cases hc : c = '/'
      · rw [cutList_cons, if_pos hc] at h
        simp [List.contains] at h
      · rw [cutList_cons, if_neg hc] at h ⊢
        simp only [List.contains, List.elem_cons] at h ⊢
        split at h
        · rfl
        · exact ih h

theorem rtrim_ne_single_slash (p : GoStr) : rtrimSlash p ≠ ['/'] := by
  intro h
  have h2 := rtrimSlash_idem p
  rw [h] at h2
  simp [rtrimSlash_cons, rtrimSlash] at h2

theorem all_slash_len {p : GoStr} (hne : p ≠ []) (hns : p ≠ str "/")
    (hall : ∀ c ∈ p, c = '/') : 2 ≤ p.length ∧ p.all (fun c => c = '/') = true := by
  constructor
  · cases p with
    | nil => exact absurd rfl hne
    | cons c cs =>
      cases cs with
      | nil =>
        exfalso
        apply hns
        rw [hall c (by simp)]
        rfl
      | cons d ds => simp
  · exact List.all_eq_true.2 (fun x hx => decide_eq_true (hall x hx))

theorem URLOK_slash_path {v : GoURL} (hok : URLOK v) :
    URLOK ⟨v.scheme, v.opq, v.host, str "/", v.rawQuery, []⟩ :=
  { scheme_chars := hok.scheme_chars
    scheme_lower := hok.scheme_lower
    scheme_head := hok.scheme_head
    host_chars := hok.host_chars
    path_chars := by
      intro c hc
      rw [str_slash] at hc
      simp at hc
      subst hc
      decide
    opq_chars := hok.opq_chars
    query_ok := hok.query_ok
    opq_shape := fun hop => hok.opq_shape hop
    opq_path := fun _ => Or.inr rfl
    host_path := fun _ => Or.inr (show begWith (str "/") (str "/") = true by decide)
    scheme_path := fun _ _ _ => Or.inr (show begWith (str "/") (str "/") = true by decide)
    rel_colon := fun _ _ hf => bool_clash (show begWith (str "/") (str "/") = true by decide) hf
    rel_slashes := fun _ _ hbb =>
      absurd hbb (show ¬ begWith (str "//") (str "/") = true by decide) }

theorem URLOK_normStep {v : GoURL} (hok : URLOK v)
    (hgood : ¬ (2 ≤ v.path.length ∧ v.path.all (fun c => c = '/') = true)) :
    URLOK (normStep v) := by
  rw [normStep_path_cases]
  by_cases h1 : v.path = []
  · rw [if_pos h1]
    exact URLOK_slash_path hok
  · rw [if_neg h1]
    by_cases h2 : v.path = str "/"
    · rw [if_pos h2]
      exact URLOK_slash_path hok
    · rw [if_neg h2]
      have hne : rtrimSlash v.path ≠ [] := by
        intro h
        exact hgood (all_slash_len h1 h2 ((rtrimSlash_eq_nil_iff _).1 h))
      have hroot : begWith (str "/") v.path = true →
          begWith (str "/") (rtrimSlash v.path) = true := by
        intro hb
        rcases rtrim_begWith_slashes
          (by intro c hc; rw [str_slash] at hc; simpa using hc) v.path hb with h | h
        · exact absurd h hne
        · exact h
      exact {
        scheme_chars := hok.scheme_chars
        scheme_lower := hok.scheme_lower
        scheme_head := hok.scheme_head
        host_chars := hok.host_chars
        path_chars := fun c hc => hok.path_chars c (mem_rtrimSlash c hc)
        opq_chars := hok.opq_chars
        query_ok := hok.query_ok
        opq_shape := fun hop => hok.opq_shape hop
        opq_path := fun hop => by
          rcases hok.opq_path hop with h | h
          · exact absurd h h1
          · exact absurd h h2
        host_path := by
          intro hh
          rcases hok.host_path hh with hp | hp
          · exact absurd hp h1
          · exact Or.inr (hroot hp)
        scheme_path := by
          intro hs hh ho
          rcases hok.scheme_path hs hh ho with hp | hp
          · exact absurd hp h1
          · exact Or.inr (hroot hp)
        rel_colon := by
          intro hs hh hf
          have hvb : begWith (str "/") v.path = false := by
            by_cases hb : begWith (str "/") v.path = true
            · exact absurd (hroot hb) (by rw [hf]; simp)
            · exact Bool.eq_false_iff.2 hb
          have hv := hok.rel_colon hs hh hvb
          by_cases hcc : ((cutList '/' (rtrimSlash v.path)).1).contains ':' = true
          · exact absurd (seg_rtrim _ hcc) (by rw [hv]; simp)
          · exact Bool.eq_false_iff.2 hcc
        rel_slashes := by
          intro hs hh hbb
          have h3 := hok.rel_slashes hs hh (begWith_rtrim_rev hbb)
          rcases rtrim_begWith_slashes
            (by intro c hc; rw [str_slash3] at hc; simpa using hc) v.path h3 with h | h
          · exact absurd h hne
          · exact h }

theorem normStep_fix {w : GoURL} (hf : w.fragment = [])
    (hp : w.path = str "/" ∨ (w.path ≠ [] ∧ w.path ≠ str "/" ∧ rtrimSlash w.path = w.path)) :
    normStep w = w := by
  obtain ⟨ws, wo, wh, wp, wq, wf⟩ := w
  simp only [] at hf hp
  subst hf
  rcases hp with hp | ⟨hne, hns, hfix⟩
  · subst hp
    unfold normStep
    rw [if_neg (show ¬ (str "/" = ([] : GoStr)) by rw [str_slash]; simp),
      if_neg (not_not_intro rfl)]
  · unfold normStep
    rw [if_neg hne, if_pos hns, hfix]

theorem normStep_path_ne_nil {v : GoURL}
    (hgood : ¬ (2 ≤ v.path.length ∧ v.path.all (fun c => c = '/') = true)) :
    (normStep v).path ≠ [] := by
  rw [normStep_path_cases]
  simp only []
  by_cases h1 : v.path = []
  · rw [if_pos h1]
    rw [str_slash]
    simp
  · rw [if_neg h1]
    by_cases h2 : v.path = str "/"
    · rw [if_pos h2]
      rw [str_slash]
      simp
    · rw [if_neg h2]
      intro h
      exact hgood (all_slash_len h1 h2 ((rtrimSlash_eq_nil_iff _).1 h))

theorem normalizeURL_idem_aux {raw : GoStr} {v : GoURL}
    (h : parseURL raw = some v)
    (hgood : ¬ (2 ≤ v.path.length ∧ v.path.all (fun c => c = '/') = true)) :
    normalizeURL raw = some (urlString (normStep v), normStep v) ∧
      normalizeURL (urlString (normStep v)) = some (urlString (normStep v), normStep v) := by
  have hok := parseURL_shape h
  have hokw := URLOK_normStep hok hgood
  have hfragw : (normStep v).fragment = [] := by rw [normStep_path_cases]
  constructor
  · unfold normalizeURL
    rw [h]
  · unfold normalizeURL
    rw [parse_urlString hokw hfragw]
    simp only []
    by_cases hopq : (normStep v).opq = []
    · rw [if_pos hopq]
      rw [normStep_fix hfragw ?hp]
      case hp =>
        rw [normStep_path_cases]
        simp only []
        by_cases h1 : v.path = []
        · rw [if_pos h1]
          exact Or.inl rfl
        · rw [if_neg h1]
          by_cases h2 : v.path = str "/"
          · rw [if_pos h2]
            exact Or.inl rfl
          · rw [if_neg h2]
            refine Or.inr ⟨?_, ?_, rtrimSlash_idem _⟩
            · intro hn
              exact hgood (all_slash_len h1 h2 ((rtrimSlash_eq_nil_iff _).1 hn))
            · rw [str_slash]
              exact rtrim_ne_single_slash _
    · rw [if_neg hopq]
      have hpslash : (normStep v).path = str "/" := by
        rcases hokw.opq_path hopq with hcase | hcase
        · exact absurd hcase (normStep_path_ne_nil hgood)
        · exact hcase
      generalize hW : normStep v = W at hpslash hfragw
      obtain ⟨a, b, c, d, e, f⟩ := W
      simp only [] at hpslash hfragw
      subst hpslash
      subst hfragw
      have hstep : normStep ⟨a, b, c, [], e, []⟩ = ⟨a, b, c, str "/", e, []⟩ := by
        unfold normStep
        rw [if_pos rfl]
      rw [show ({ (⟨a, b, c, str "/", e, []⟩ : GoURL) with path := ([] : GoStr) } : GoURL) =
        ⟨a, b, c, [], e, []⟩ from rfl, hstep]

/-- Claim C7, corrected form: URL normalization is idempotent for every URL
string the model parser accepts whose parsed path is not a run of two or
more slashes.  For such a path (for example in `https://x//`) the trailing
slash strip empties the path, the empty path prints without a slash, and
renormalizing appends `/`, breaking idempotence; for every other accepted
URL, normalizing the normalized form returns it unchanged. -/
theorem C7_normalize_idempotent_amended (raw : GoStr) (v : GoURL)
    (h : parseURL raw = some v)
    (hgood : ¬ (2 ≤ v.path.length ∧ v.path.all (fun c => c = '/') = true)) :
    ∃ s u, normalizeURL raw = some (s, u) ∧ normalizeURL s = some (s, u) :=
  ⟨urlString (normStep v), normStep v, (normalizeURL_idem_aux h hgood).1,
    (normalizeURL_idem_aux h hgood).2⟩

/-- Claim C7 counterexample: the accepted URL string `https://x//`
normalizes to `https://x`, which normalizes further to `https://x/`, so
`normalizeURL` is not idempotent as originally claimed. -/
theorem C7_normalize_idempotent_counterexample :
    (normalizeURL (str "https://x//")).isSome = true ∧
      (normalizeURL (str "https://x//")).bind (fun p => normalizeURL p.1) ≠
        normalizeURL (str "https://x//") := by
  constructor
  · decide
  · decide

/-- Claim C7 witness: the amended idempotence theorem applied at the
concrete accepted URL `https://x/a/`. -/
theorem C7_normalize_idempotent_witness :
    parseURL (str "https://x/a/") = some ⟨str "https", [], str "x", str "/a/", [], []⟩ ∧
      ¬ (2 ≤ (str "/a/").length ∧ (str "/a/").all (fun c => c = '/') = true) ∧
      ∃ s u, normalizeURL (str "https://x/a/") = some (s, u) ∧ normalizeURL s = some (s, u) :=
  ⟨by decide, by decide,
    C7_normalize_idempotent_amended (str "https://x/a/") ⟨str "https", [], str "x", str "/a/", [], []⟩
      (by decide) (by decide)⟩

/-- Model of Go `path.getEsc`: read one (possibly escaped) character of a
glob character class, failing on malformed input. -/
def getEsc : GoStr → Option (Char × GoStr)
  | [] => none
  | c :: rest =>
    if c = '-' ∨ c = ']' then none
    else if c = '\\' then
      match rest with
      | [] => none
      | d :: rest2 => some (d, rest2)
    else some (c, rest)

/-- Parse the ranges of a glob character class up to the closing `]`
(Go `path.Match` class scanning).  `fuel` only bounds recursion; it is
always called with more fuel than the chunk length. -/
def parseClassF : Nat → GoStr → Nat → Option (List (Char × Char) × GoStr)
  | 0, _, _ => none
  | fuel + 1, p, nrange =>
    match p with
    | ']' :: rest =>
      if nrange > 0 then some ([], rest)
      else none
    | _ =>
      match getEsc p with
      | none => none
      | some (lo, rest1) =>
        match rest1 with
        | '-' :: rest2 =>
          match getEsc rest2 with
          | none => none
          | some (hi, rest3) =>
            (parseClassF fuel rest3 (nrange + 1)).map (fun pr => ((lo, hi) :: pr.1, pr.2))
        | _ =>
          (parseClassF fuel rest1 (nrange + 1)).map (fun pr => ((lo, lo) :: pr.1, pr.2))

/-- Whether a character falls in one of the ranges of a glob class. -/
def matchClass (r : Char) : List (Char × Char) → Bool
  | [] => false
  | (lo, hi) :: rest => (lo ≤ r ∧ r ≤ hi) ∨ matchClass r rest

/-- Model of Go `path.Match` as a backtracking matcher.  `*` matches any
run of non-`/` characters, `?` one non-`/` character, `[...]` a character
class, `\\` escapes; a malformed pattern matches nothing (the crawler
discards `path.Match` errors).  `fuel` only bounds recursion and is always
called with more than the pattern length. -/
def globMatchF : Nat → GoStr → GoStr → Bool
  | 0, _, _ => false
  | fuel + 1, p, s =>
    match p with
    | [] => s = []
    | '*' :: ps =>
      (List.range (s.length + 1)).any (fun k =>
        (s.take k).all (fun c => c ≠ '/') && globMatchF fuel ps (s.drop k))
    | '?' :: ps =>
      match s with
      | [] => false
      | c :: ss => c ≠ '/' && globMatchF fuel ps ss
    | '[' :: ps =>
      match s with
      | [] => false
      | c :: ss =>
        let negated := begWith ['^'] ps
        let body := if negated then ps.drop 1 else ps
        match parseClassF (body.length + 1) body 0 with
        | none => false
        | some (ranges, rest) =>
          (if negated then ¬ matchClass c ranges = true else matchClass c ranges = true) &&
            globMatchF fuel rest ss
    | '\\' :: ps =>
      match ps with
      | [] => false
      | d :: ps2 =>
        match s with
        | [] => false
        | c :: ss => c = d && globMatchF fuel ps2 ss
    | c :: ps =>
      match s with
      | [] => false
      | d :: ss => c = d && globMatchF fuel ps ss

/-- Model of Go `path.Match` with error discarded (as the crawler uses it:
`matched, _ := path.Match(pattern, name)`). -/
def pathMatch (pattern name : GoStr) : Bool :=
  globMatchF (pattern.length + 1) pattern name

/-- The suffix of `s` after its last `/`. -/
def afterLastSlash (s : GoStr) : GoStr :=
  (s.reverse.takeWhile (fun c => c ≠ '/')).reverse

/-- Model of Go `path.Base`. -/
def pathBase (p : GoStr) : GoStr :=
  if p = [] then str "."
  else
    let p1 := rtrimSlash p
    let p2 := afterLastSlash p1
    if p2 = [] then str "/" else p2

/-- Model of Go `strings.TrimPrefix(s, "/")`. -/
def dropLeadSlash (s : GoStr) : GoStr :=
  if begWith (str "/") s then s.drop 1 else s

/-- Embedding of `shouldExclude` from `internal/crawler/crawler.go`: each
non-blank pattern is glob-matched against the full URL, the path, the last
path segment, and (when a query is present) path+query with and without
the leading slash. -/
def shouldExclude (link : GoStr) (patterns : List GoStr) : Bool :=
  patterns.any (fun pat0 =>
    let pat := trimSpace pat0
    if pat = [] then false
    else if pathMatch pat link then true
    else
      match parseURL link with
      | none => false
      | some parsed =>
        if pathMatch pat parsed.path then true
        else if pathMatch pat (pathBase parsed.path) then true
        else if parsed.rawQuery ≠ [] then
          let queryPath := parsed.path ++ '?' :: parsed.rawQuery
          if pathMatch pat queryPath then true
          else pathMatch pat (dropLeadSlash queryPath)
        else false)

example : pathMatch (str "*.pdf") (str "f.pdf") = true := by decide

example : shouldExclude (str "https://x/f.pdf") [str "*.pdf"] = true := by decide

example : shouldExclude (str "https://x/admin/y") [str "/admin/*"] = true := by decide

example : shouldExclude (str "https://x/y") [str "/admin/*"] = false := by decide

example : shouldExclude (str "https://x/page?lang=rs") [str "*?lang=rs"] = true := by decide

/-- Model of Go `time.Time`: an instant plus whether the location is UTC
(all the crawler observes about a time's location). -/
structure GoTime where
  instant : Int
  isUTC : Bool
  deriving DecidableEq, Repr

/-- Model of Go `Time.UTC()`: same instant, location UTC. -/
def GoTime.utc (t : GoTime) : GoTime := ⟨t.instant, true⟩

/-- Decoded JSON values, the output of the consumed JSON-decoding
capability. -/
inductive JVal where
  | jnull : JVal
  | jbool : Bool → JVal
  | jnum : Int → JVal
  | jstr : GoStr → JVal
  | jarr : List JVal → JVal
  | jobj : List (GoStr × JVal) → JVal

/-- One `<script type="application/ld+json">` block as the lastmod code
sees it: whitespace-only text, text that is not valid JSON, or a decoded
JSON value. -/
inductive JBlock where
  | blank : JBlock
  | malformed : JBlock
  | value : JVal → JBlock

/-- Go `json.Unmarshal` into `map[string]interface{}`: succeeds on an
object (or `null`, yielding the nil map). -/
def unmarshalObj : JVal → Option (List (GoStr × JVal))
  | .jobj f => some f
  | .jnull => some []
  | _ => none

/-- Go `json.Unmarshal` into `[]map[string]interface{}`: succeeds on an
array whose elements are all objects (or `null`). -/
def unmarshalArr : JVal → Option (List (List (GoStr × JVal)))
  | .jarr xs => xs.mapM unmarshalObj
  | .jnull => some []
  | _ => none

/-- Go map lookup on a decoded JSON object. -/
def lookupJ : List (GoStr × JVal) → GoStr → Option JVal
  | [], _ => none
  | (k2, v) :: rest, k => if k2 = k then some v else lookupJ rest k

/-- Model of the lastmod `parseTime` helper: trim, reject empty, then try
the known layouts via the date-parsing capability `pt` (Go `time.Parse`
over the eight `knownFormats`, abstracted). -/
def parseTimeM (pt : GoStr → Option GoTime) (raw : GoStr) : Option GoTime :=
  let raw2 := trimSpace raw
  if raw2 = [] then none else pt raw2

theorem lookupJ_sizeOf {fields : List (GoStr × JVal)} {k : GoStr} {v : JVal}
    (h : lookupJ fields k = some v) : sizeOf v < sizeOf fields := by
  induction fields with
  | nil => simp [lookupJ] at h
  | cons p rest ih =>
    obtain ⟨k2, w⟩ := p
    unfold lookupJ at h
    split at h
    · injection h with h2
      subst h2
      simp
      omega
    · have := ih h
      simp
      omega

mutual
/-- Embedding of `extractDateModified` from `internal/lastmod/lastmod.go`:
look for a parseable string `dateModified`, else recurse into the
`@graph` array. -/
def extractDMobj (pt : GoStr → Option GoTime) (fields : List (GoStr × JVal)) :
    Option GoTime :=
  match (match lookupJ fields (str "dateModified") with
         | some (.jstr s) => parseTimeM pt s
         | _ => none) with
  | some t => some t
  | none =>
    match hg : lookupJ fields (str "@graph") with
    | some (.jarr items) => extractDMlist pt items
    | _ => none
termination_by sizeOf fields
decreasing_by
  have := lookupJ_sizeOf hg
  simp at this ⊢
  omega

/-- Iteration of `extractDateModified` over a `@graph` array: objects are
searched in order, other elements skipped. -/
def extractDMlist (pt : GoStr → Option GoTime) (xs : List JVal) : Option GoTime :=
  match xs with
  | [] => none
  | x :: rest =>
    match hx : x with
    | .jobj m =>
      match extractDMobj pt m with
      | some t => some t
      | none => extractDMlist pt rest
    | _ => extractDMlist pt rest
termination_by sizeOf xs
end

/-- First success of `extractDateModified` over an unmarshalled array of
objects (the array branch of `fromJSONLD`). -/
def firstDMarr (pt : GoStr → Option GoTime) : List (List (GoStr × JVal)) → Option GoTime
  | [] => none
  | obj :: rest =>
    match extractDMobj pt obj with
    | some t => some t
    | none => firstDMarr pt rest

/-- Embedding of `fromJSONLD` from `internal/lastmod/lastmod.go`: scan the
JSON-LD blocks in document order; skip blank or malformed blocks; a block
that unmarshals as a single object is only searched as an object, else the
array-of-objects form is tried. -/
def fromJSONLD (pt : GoStr → Option GoTime) : List JBlock → Option GoTime
  | [] => none
  | b :: rest =>
    match b with
    | .blank => fromJSONLD pt rest
    | .malformed => fromJSONLD pt rest
    | .value j =>
      match unmarshalObj j with
      | some obj =>
        match extractDMobj pt obj with
        | some t => some t
        | none => fromJSONLD pt rest
      | none =>
        match unmarshalArr j with
        | some items =>
          match firstDMarr pt items with
          | some t => some t
          | none => fromJSONLD pt rest
        | none => fromJSONLD pt rest

/-- The parts of a fetched HTML document the lastmod extractor reads:
the JSON-LD script blocks in document order and the `content` attributes
of the first `article:modified_time` and `og:updated_time` meta tags. -/
structure LDoc where
  jsonld : List JBlock
  articleModified : Option GoStr
  ogUpdated : Option GoStr

/-- Embedding of `fromMetaTags` from `internal/lastmod/lastmod.go`:
`article:modified_time` first, then `og:updated_time`; an unparseable
value falls through to the next selector. -/
def fromMetaTags (pt : GoStr → Option GoTime) (doc : LDoc) : Option GoTime :=
  match (match doc.articleModified with
         | some v => parseTimeM pt (trimSpace v)
         | none => none) with
  | some t => some t
  | none =>
    match doc.ogUpdated with
    | some v => parseTimeM pt (trimSpace v)
    | none => none

/-- Embedding of `fromHeader` from `internal/lastmod/lastmod.go`.  The
argument is `header.Get("Last-Modified")` (empty when absent). -/
def fromHeader (pt : GoStr → Option GoTime) (lm : GoStr) : Option GoTime :=
  let raw := trimSpace lm
  if raw = [] then none else parseTimeM pt raw

/-- Header-and-fallback tiers of `GetLastModified` (lines 50-58 of
`internal/lastmod/lastmod.go`): a `none` header models a nil
`http.Header`. -/
def lastModHeaderTier (pt : GoStr → Option GoTime) (header : Option GoStr)
    (now : GoTime) : GoTime :=
  match header with
  | some lm =>
    match fromHeader pt lm with
    | some t => t.utc
    | none => now.utc
  | none => now.utc

/-- Embedding of `GetLastModified` from `internal/lastmod/lastmod.go`:
JSON-LD `dateModified`, then meta tags, then the `Last-Modified` header,
then the supplied crawl time; every result is converted to UTC. -/
def GetLastModified (pt : GoStr → Option GoTime) (header : Option GoStr)
    (doc : Option LDoc) (now : GoTime) : GoTime :=
  match doc with
  | some d =>
    match fromJSONLD pt d.jsonld with
    | some t => t.utc
    | none =>
      match fromMetaTags pt d with
      | some t => t.utc
      | none => lastModHeaderTier pt header now
  | none => lastModHeaderTier pt header now

/-- Insert into a Go set-valued map key (`map[string]struct{}` semantics). -/
def insertSet (u : GoStr) (l : List GoStr) : List GoStr :=
  if u ∈ l then l else l ++ [u]

/-- Remove from a Go set (`delete` on a set-valued map). -/
def removeSet (u : GoStr) (l : List GoStr) : List GoStr :=
  l.filter (fun x => x ≠ u)

/-- Go map assignment `m[k] = v` on an association list. -/
def setA {α : Type} (k : GoStr) (v : α) : List (GoStr × α) → List (GoStr × α)
  | [] => [(k, v)]
  | (k2, v2) :: rest => if k2 = k then (k, v) :: rest else (k2, v2) :: setA k v rest

/-- Go map deletion `delete(m, k)` on an association list. -/
def eraseA {α : Type} (k : GoStr) (m : List (GoStr × α)) : List (GoStr × α) :=
  m.filter (fun p => p.1 ≠ k)

/-- Go map lookup `m[k]` on an association list. -/
def lookupA {α : Type} (k : GoStr) : List (GoStr × α) → Option α
  | [] => none
  | (k2, v) :: rest => if k2 = k then some v else lookupA k rest

/-- Record a referring page for a link (`sources[link][source] = struct{}{}`
with creation of the inner set on first use). -/
def addSource (link source : GoStr) (sources : List (GoStr × List GoStr)) :
    List (GoStr × List GoStr) :=
  match lookupA link sources with
  | none => setA link [source] sources
  | some set => setA link (insertSet source set) sources

/-- The five shared aggregates of `Crawl` plus the excluded counter
(`valid`, `broken`, `discovered`, `sources`, `lastModified`, `excluded`
in `internal/crawler/crawler.go`). -/
structure CrawlState where
  valid : List GoStr
  broken : List (GoStr × Nat)
  discovered : List GoStr
  sources : List (GoStr × List GoStr)
  lastModified : List (GoStr × GoTime)
  excluded : Nat
  deriving DecidableEq, Repr

/-- The empty crawl state created at the start of `Crawl`. -/
def initState : CrawlState := ⟨[], [], [], [], [], 0⟩

/-- Embedding of the `OnHTML("a[href]")` handler of `Crawl`.  `page` is the
requesting page URL, `rawHref` the raw attribute, and `absolute` the output
of the consumed `AbsoluteURL` capability (empty on failure).  Returns the
updated state and the link to visit, if any. -/
def onHTML (parsedRoot : GoURL) (patterns : List GoStr) (page rawHref absolute : GoStr)
    (st : CrawlState) : CrawlState × Option GoStr :=
  let raw := trimSpace rawHref
  if raw = [] then (st, none)
  else if absolute = [] then (st, none)
  else
    match normalizeURL absolute with
    | none => (st, none)
    | some (normalizedLink, parsedLink) =>
      if ¬ isHTTP parsedLink = true ∨ ¬ isInternal parsedRoot parsedLink = true then (st, none)
      else if shouldExclude normalizedLink patterns then
        ({ st with excluded := st.excluded + 1 }, none)
      else
        let st2 := { st with discovered := insertSet normalizedLink st.discovered }
        let st3 :=
          match normalizeURL page with
          | none => st2
          | some (sourceURL, _) =>
            { st2 with sources := addSource normalizedLink sourceURL st2.sources }
        (st3, some normalizedLink)

/-- Embedding of the `OnResponse` handler of `Crawl`: record discovery;
2xx/3xx marks valid, clears broken and stores the extracted last-modified
time; any other status marks broken and clears valid. -/
def onResponse (pt : GoStr → Option GoTime) (now : GoTime) (url : GoStr) (status : Nat)
    (header : Option GoStr) (doc : Option LDoc) (st : CrawlState) : CrawlState :=
  match normalizeURL url with
  | none => st
  | some (normalizedLink, _) =>
    let st1 := { st with discovered := insertSet normalizedLink st.discovered }
    if 200 ≤ status ∧ status < 400 then
      { st1 with
        valid := insertSet normalizedLink st1.valid
        broken := eraseA normalizedLink st1.broken
        lastModified := setA normalizedLink (GetLastModified pt header doc now) st1.lastModified }
    else
      { st1 with
        broken := setA normalizedLink status st1.broken
        valid := removeSet normalizedLink st1.valid }

/-- Embedding of the `OnError` handler of `Crawl`: record the status
(0 for a transport failure) in broken and clear valid. -/
def onError (url : GoStr) (status : Nat) (st : CrawlState) : CrawlState :=
  match normalizeURL url with
  | none => st
  | some (normalizedLink, _) =>
    { st with
      broken := setA normalizedLink status st.broken
      valid := removeSet normalizedLink st.valid }

/-- One observable crawl event: a link element seen on a fetched page, a
received HTTP response, or a transport/HTTP error callback.  The network
and colly scheduling are abstracted into the event sequence. -/
inductive CEvent where
  | html (page rawHref absolute : GoStr) : CEvent
  | response (url : GoStr) (status : Nat) (header : Option GoStr) (doc : Option LDoc) : CEvent
  | failure (url : GoStr) (status : Nat) : CEvent

/-- Dispatch one event to the corresponding handler. -/
def stepEvent (parsedRoot : GoURL) (patterns : List GoStr) (pt : GoStr → Option GoTime)
    (now : GoTime) (st : CrawlState) : CEvent → CrawlState
  | .html page rawHref absolute => (onHTML parsedRoot patterns page rawHref absolute st).1
  | .response url status header doc => onResponse pt now url status header doc st
  | .failure url status => onError url status st

/-- The crawl state after a sequence of events. -/
def runCrawl (parsedRoot : GoURL) (patterns : List GoStr) (pt : GoStr → Option GoTime)
    (now : GoTime) (events : List CEvent) : CrawlState :=
  events.foldl (stepEvent parsedRoot patterns pt now) initState

/-- Lexicographic string order used to model Go `sort.Strings` and the
URL-keyed task sort. -/
def strLe : GoStr → GoStr → Bool
  | [], _ => true
  | _ :: _, [] => false
  | c :: cs, d :: ds => if c < d then true else if d < c then false else strLe cs ds

/-- Model of Go `sort.Strings`. -/
def sortStrings (l : List GoStr) : List GoStr := l.mergeSort strLe

/-- Embedding of `BrokenLinkTask` from `internal/crawler/crawler.go`. -/
structure BrokenLinkTask where
  url : GoStr
  status : Nat
  sources : List GoStr
  deriving DecidableEq, Repr

/-- Embedding of `Result` from `internal/crawler/crawler.go` (the fields
the src version declares, without the canonical additions). -/
structure Result where
  validURLs : List GoStr
  brokenLinks : List (GoStr × Nat)
  brokenLinkTasks : List BrokenLinkTask
  lastModified : List (GoStr × GoTime)
  discovered : Nat
  excludedURLs : Nat

/-- Embedding of the result-assembly section of `Crawl` (lines 205-248):
re-apply the exclusion patterns, sort the valid URLs, build and sort the
broken-link tasks with sorted source lists. -/
def assemble (patterns : List GoStr) (st : CrawlState) : Result :=
  let validURLs := sortStrings (st.valid.filter (fun u => ¬ shouldExclude u patterns))
  let keptBroken := st.broken.filter (fun p => ¬ shouldExclude p.1 patterns)
  let brokenTasks :=
    (keptBroken.map (fun p =>
      { url := p.1, status := p.2,
        sources :=
          match lookupA p.1 st.sources with
          | some set => sortStrings set
          | none => [] : BrokenLinkTask })).mergeSort (fun a b => strLe a.url b.url)
  { validURLs := validURLs
    brokenLinks := keptBroken
    brokenLinkTasks := brokenTasks
    lastModified := st.lastModified
    discovered := st.discovered.length
    excludedURLs := st.excluded }

/-- Embedding of `Crawl` from `internal/crawler/crawler.go` over an
abstract event sequence: only root normalization can fail (the colly
`Limit` call with `DomainGlob "*"` never errors, an invalid thread count
is silently defaulted, and robots/transport concerns are out of scope);
every per-page outcome flows through the handlers into the state and the
assembled `Result`. -/
def Crawl (rootURL : GoStr) (patterns : List GoStr) (pt : GoStr → Option GoTime)
    (now : GoTime) (events : List CEvent) : Except GoStr Result :=
  match normalizeRoot rootURL with
  | none => .error (str "invalid root url")
  | some (_, parsedRoot) =>
    .ok (assemble patterns (runCrawl parsedRoot patterns pt now events))

/-- Segments of a string split on a character (Go `strings.Cut` loop /
`strings.Split`). -/
def splitChar (c : Char) : GoStr → List GoStr
  | [] => [[]]
  | x :: xs =>
    if x = c then [] :: splitChar c xs
    else
      match splitChar c xs with
      | [] => [[x]]
      | seg :: rest => (x :: seg) :: rest

/-- Prefix of `base` up to and including its last `/` (Go
`base[:strings.LastIndex(base, "/")+1]`). -/
def takeToLastSlash (base : GoStr) : GoStr :=
  (base.reverse.dropWhile (fun c => c ≠ '/')).reverse

/-- Prefix of `s` up to (excluding) its last `/`
(Go `s[:strings.LastIndexByte(s, 0x2f)]`, only used when `s` has a `/`). -/
def takeBeforeLastSlash (s : GoStr) : GoStr :=
  ((s.reverse.dropWhile (fun c => c ≠ '/')).drop 1).reverse

/-- One iteration of the segment loop of Go `net/url.resolvePath`: the
accumulator is the builder contents `dst` and the `first` flag; `.` is
dropped, `..` truncates `dst` after its last `/` (resetting `first` when
`dst` holds at most one segment), any other segment is appended after a
separator unless `first`. -/
def dstStep (acc : GoStr × Bool) (elem : GoStr) : GoStr × Bool :=
  if elem = str "." then (acc.1, false)
  else if elem = str ".." then
    let s := acc.1.drop 1
    if '/' ∈ s then ('/' :: takeBeforeLastSlash s, acc.2)
    else (str "/", true)
  else
    ((if acc.2 then acc.1 else acc.1 ++ str "/") ++ elem, false)

/-- Model of Go `net/url.resolvePath`: merge `ref` onto `base`, then walk
the `/`-separated segments with `dstStep` starting from builder `"/"`, add
a final slash when the last segment is a dot segment, and drop the second
of two leading slashes (the `r[1] == 0x2f` fixup). -/
def resolvePath (base ref : GoStr) : GoStr :=
  let full :=
    if ref = [] then base
    else if ¬ begWith (str "/") ref then takeToLastSlash base ++ ref
    else ref
  if full = [] then []
  else
    let segs := splitChar '/' full
    let p := segs.foldl dstStep (str "/", true)
    let dst := p.1 ++
      (if segs.getLastD [] = str "." ∨ segs.getLastD [] = str ".." then str "/" else [])
    match dst with
    | a :: b :: rest => if b = '/' then b :: rest else a :: b :: rest
    | r => r

/-- Model of Go `URL.ResolveReference` restricted to the modelled fields
(no userinfo; `ForceQuery` and `OmitHost` are outside the parser's
sub-domain). -/
def resolveReference (u ref : GoURL) : GoURL :=
  let r0 := if ref.scheme = [] then { ref with scheme := u.scheme } else ref
  if ref.scheme ≠ [] ∨ ref.host ≠ [] then
    { r0 with path := resolvePath ref.path [] }
  else if ref.opq ≠ [] then
    { r0 with host := [], path := [] }
  else
    let r1 :=
      if ref.path = [] ∧ ref.rawQuery = [] then
        ⟨r0.scheme, r0.opq, r0.host, r0.path, u.rawQuery,
          if ref.fragment = [] then u.fragment else ref.fragment⟩
      else r0
    if ref.path = [] ∧ u.opq ≠ [] then
      { r1 with opq := u.opq, host := [], path := [] }
    else
      { r1 with host := u.host, path := resolvePath u.path ref.path }

/-- Embedding of `resolveAgainstPage` from `internal/canonical`
(`src/unnamed/part_002`): parse both URLs, resolve the reference and
normalize. -/
def resolveAgainstPage (pageURL href : GoStr) : Option GoStr :=
  match parseURL pageURL with
  | none => none
  | some base =>
    match parseURL href with
    | none => none
    | some ref => (normalizeURL (urlString (resolveReference base ref))).map Prod.fst

/-- Embedding of `canonical.Info` from `src/unnamed/part_002`. -/
structure CanonicalInfo where
  pageURL : GoStr
  canonicalURL : GoStr
  tagCount : Nat
  missing : Bool
  multiple : Bool
  deriving DecidableEq, Repr

/-- The `EachWithBreak` loop of `canonical.Extract`: the first tag in
document order whose trimmed href is non-empty wins (the empty string when
no tag qualifies). -/
def firstNonEmptyHref : List GoStr → GoStr
  | [] => []
  | h :: rest =>
    let t := trimSpace h
    if t = [] then firstNonEmptyHref rest else t

/-- Embedding of `canonical.Extract` from `src/unnamed/part_002`.  The
document is modelled as the list of `href` attribute values of the
`link[rel=canonical]` tags in document order (`none` models a nil
document; a tag without an href contributes the empty string, as
`AttrOr("href", "")` does). -/
def Extract (pageURL : GoStr) (doc : Option (List GoStr)) : CanonicalInfo :=
  match doc with
  | none => ⟨pageURL, [], 0, true, false⟩
  | some tags =>
    if tags.length = 0 then ⟨pageURL, [], 0, true, false⟩
    else
      let multiple := decide (1 < tags.length)
      let found := firstNonEmptyHref tags
      if found = [] then ⟨pageURL, [], tags.length, true, multiple⟩
      else
        match resolveAgainstPage pageURL found with
        | none => ⟨pageURL, found, tags.length, false, multiple⟩
        | some resolved => ⟨pageURL, resolved, tags.length, false, multiple⟩

/-- Embedding of `canonical.Issue` from `src/unnamed/part_002`; the issue
type is the Go string constant, so the sort order matches the source. -/
structure Issue where
  pageURL : GoStr
  canonicalURL : GoStr
  type : GoStr
  detail : GoStr
  deriving DecidableEq, Repr

/-- Status tier of `validatePair`: redirect and broken checks against the
crawl statuses. -/
def statusCheck (page target : GoStr) (statusByURL : List (GoStr × Nat)) : Option Issue :=
  match lookupA target statusByURL with
  | some status =>
    if 300 ≤ status ∧ status < 400 then
      some ⟨page, target, str "target_redirect", str "canonical target responds with redirect"⟩
    else if status = 0 ∨ 400 ≤ status then
      some ⟨page, target, str "target_broken", str "canonical target is broken/unreachable"⟩
    else none
  | none => none

/-- Embedding of `validatePair` from `src/unnamed/part_002`: first match
wins among non-HTTP scheme, cross-domain host, redirecting target, broken
target. -/
def validatePair (page target : GoStr) (statusByURL : List (GoStr × Nat)) : Option Issue :=
  match parseURL target with
  | none => none
  | some parsedTarget =>
    if ¬ (parsedTarget.scheme = str "http" ∨ parsedTarget.scheme = str "https") then
      some ⟨page, target, str "non_http_scheme", str "canonical target is not HTTP(S)"⟩
    else
      match parseURL page with
      | some parsedPage =>
        if ¬ equalFold (hostname parsedPage) (hostname parsedTarget) = true then
          some ⟨page, target, str "cross_domain", str "canonical target is on a different host"⟩
        else statusCheck page target statusByURL
      | none => statusCheck page target statusByURL

/-- The chain issue produced by `detectLoopOrChain`. -/
def chainIssue (start target : GoStr) : Issue :=
  ⟨start, target, str "loop_or_chain", str "canonical chain detected"⟩

/-- The loop issue produced by `detectLoopOrChain`. -/
def loopIssue (start target : GoStr) : Issue :=
  ⟨start, target, str "loop_or_chain", str "canonical loop detected"⟩

/-- The walk loop of `detectLoopOrChain` from `src/unnamed/part_002`:
follow the canonical chain, terminating on a missing or empty target
(chain issue when 2+ hops), a revisited page (loop issue), a self-loop
(chain issue when 2+ hops), or the `steps > len(map)+1` safety bound
(loop issue). -/
def loopAux (m : List (GoStr × GoStr)) (start target : GoStr) (visited : List GoStr)
    (current : GoStr) (steps : Nat) : Option Issue :=
  match lookupA current m with
  | none => if 2 ≤ steps then some (chainIssue start target) else none
  | some next =>
    if next = [] then
      if 2 ≤ steps then some (chainIssue start target) else none
    else if current ∈ visited then some (loopIssue start target)
    else if next = current then
      if 2 ≤ steps then some (chainIssue start target) else none
    else if m.length + 1 < steps + 1 then some (loopIssue start target)
    else loopAux m start target (current :: visited) next (steps + 1)
termination_by m.length + 1 - steps
decreasing_by
  rename_i h
  omega

/-- Embedding of `detectLoopOrChain` from `src/unnamed/part_002`. -/
def detectLoopOrChain (start : GoStr) (m : List (GoStr × GoStr)) : Option Issue :=
  match lookupA start m with
  | none => none
  | some target =>
    if target = [] ∨ target = start then none
    else loopAux m start target [start] target 1

/-- Fuel-bounded variant of the walk loop, used to state the termination
bound: `none` means the fuel ran out before the walk returned. -/
def loopAuxF : Nat → List (GoStr × GoStr) → GoStr → GoStr → List GoStr → GoStr → Nat →
    Option (Option Issue)
  | 0, _, _, _, _, _, _ => none
  | fuel + 1, m, start, target, visited, current, steps =>
    match lookupA current m with
    | none => some (if 2 ≤ steps then some (chainIssue start target) else none)
    | some next =>
      if next = [] then
        some (if 2 ≤ steps then some (chainIssue start target) else none)
      else if current ∈ visited then some (some (loopIssue start target))
      else if next = current then
        some (if 2 ≤ steps then some (chainIssue start target) else none)
      else if m.length + 1 < steps + 1 then some (some (loopIssue start target))
      else loopAuxF fuel m start target (current :: visited) next (steps + 1)

/-- Fuel-bounded variant of `detectLoopOrChain`. -/
def detectLoopOrChainF (fuel : Nat) (start : GoStr) (m : List (GoStr × GoStr)) :
    Option (Option Issue) :=
  match lookupA start m with
  | none => some none
  | some target =>
    if target = [] ∨ target = start then some none
    else loopAuxF fuel m start target [start] target 1

/-- Go comparator of the `sort.Slice` call in `canonical.Validate`:
page URL, then type, then canonical URL, then detail. -/
def strLt : GoStr → GoStr → Bool
  | [], [] => false
  | [], _ :: _ => true
  | _ :: _, [] => false
  | c :: cs, d :: ds => if c < d then true else if d < c then false else strLt cs ds

/-- The `less` function of the `sort.Slice` call in `canonical.Validate`. -/
def issueLess (a b : Issue) : Bool :=
  if a.pageURL ≠ b.pageURL then strLt a.pageURL b.pageURL
  else if a.type ≠ b.type then strLt a.type b.type
  else if a.canonicalURL ≠ b.canonicalURL then strLt a.canonicalURL b.canonicalURL
  else strLt a.detail b.detail

/-- Deduplication key of `canonical.Validate` (`type|page|canonical`, plus
`|detail` for walk issues). -/
def dedupKey (i : Issue) (withDetail : Bool) : GoStr :=
  i.type ++ '|' :: i.pageURL ++ '|' :: i.canonicalURL ++
    (if withDetail then '|' :: i.detail else [])

/-- One iteration of the collection loop of `canonical.Validate`. -/
def valStep (canonicalByPage : List (GoStr × GoStr)) (statusByURL : List (GoStr × Nat))
    (acc : List Issue × List GoStr) (entry : GoStr × GoStr) : List Issue × List GoStr :=
  let acc1 :=
    match validatePair entry.1 entry.2 statusByURL with
    | some issue =>
      let key := dedupKey issue false
      if key ∈ acc.2 then acc else (acc.1 ++ [issue], key :: acc.2)
    | none => acc
  match detectLoopOrChain entry.1 canonicalByPage with
  | some issue =>
    let key := dedupKey issue true
    if key ∈ acc1.2 then acc1 else (acc1.1 ++ [issue], key :: acc1.2)
  | none => acc1

/-- Embedding of `canonical.Validate` from `src/unnamed/part_002`: collect
per-page and walk issues with deduplication, then sort by the Go
comparator.  The canonical-by-page map is an association list with
distinct keys (a Go map iterated in list order; the sort and the
field-complete dedup keys make the output order-independent). -/
def Validate (canonicalByPage : List (GoStr × GoStr)) (statusByURL : List (GoStr × Nat)) :
    List Issue :=
  ((canonicalByPage.foldl (valStep canonicalByPage statusByURL) ([], [])).1).mergeSort
    (fun a b => ! issueLess b a)

/-- Fuel agreement for the walk loop: with fuel at least
`len(map) + 2 - steps` the fuelled walk returns the total walk. -/
theorem loopAux_eq_of_fuel (fuel : Nat) (m : List (GoStr × GoStr)) (start target : GoStr)
    (visited : List GoStr) (current : GoStr) (steps : Nat)
    (hf : m.length + 2 ≤ fuel + steps) (h1 : 1 ≤ fuel) :
    loopAuxF fuel m start target visited current steps =
      some (loopAux m start target visited current steps) := by
  induction fuel generalizing visited current steps with
  | zero => omega
  | succ fuel ih =>
    rw [loopAux]
    unfold loopAuxF
    cases hc : lookupA current m with
    | none => rfl
    | some next =>
      by_cases h2 : next = []
      · simp only [if_pos h2]
      · simp only [if_neg h2]
        by_cases h3 : current ∈ visited
        · simp only [if_pos h3]
        · simp only [if_neg h3]
          by_cases h4 : next = current
          · simp only [if_pos h4]
          · simp only [if_neg h4]
            by_cases h5 : m.length + 1 < steps + 1
            · simp only [if_pos h5]
            · simp only [if_neg h5]
              exact ih (current :: visited) next (steps + 1) (by omega) (by omega)

/-- The fuelled walk with fuel `len(map) + 1` (or more) agrees with
`detectLoopOrChain` on every input. -/
theorem detect_agree (m : List (GoStr × GoStr)) (start : GoStr) (fuel : Nat)
    (hf : m.length + 1 ≤ fuel) :
    detectLoopOrChainF fuel start m = some (detectLoopOrChain start m) := by
  unfold detectLoopOrChainF detectLoopOrChain
  cases hc : lookupA start m with
  | none => rfl
  | some target =>
    by_cases h : target = [] ∨ target = start
    · simp only [if_pos h]
    · simp only [if_neg h]
      exact loopAux_eq_of_fuel fuel m start target [start] target 1 (by omega) (by omega)

/-- Evaluation principle for the walk: a fuelled run with enough fuel
determines the total function. -/
theorem detectLoopOrChain_eval (m : List (GoStr × GoStr)) (start : GoStr) (fuel : Nat)
    (r : Option Issue) (hf : m.length + 1 ≤ fuel)
    (h : detectLoopOrChainF fuel start m = some r) :
    detectLoopOrChain start m = r := by
  have hA := detect_agree m start fuel hf
  rw [h] at hA
  exact (Option.some_inj.mp hA).symm

/-- C6: the canonical-chain walk terminates on every input map, including
cyclic ones: for any finite map and start page, a fuel-bounded run of the
walk with fuel `map size + 1` (or more) already returns
`detectLoopOrChain`'s answer, so `detectLoopOrChain` (and hence the walks
inside `Validate`) returns after at most `map size + 1` chain steps. -/
theorem C6_walk_terminates_within_bound (m : List (GoStr × GoStr)) (start : GoStr)
    (fuel : Nat) (hf : m.length + 1 ≤ fuel) :
    detectLoopOrChainF fuel start m = some (detectLoopOrChain start m) :=
  detect_agree m start fuel hf

/-- Witness for C6 at the cyclic two-entry map with fuel exactly
`map size + 1`. -/
theorem C6_walk_terminates_within_bound_witness :
    [(str "a", str "b"), (str "b", str "a")].length + 1 ≤ 3 ∧
      detectLoopOrChainF 3 (str "a") [(str "a", str "b"), (str "b", str "a")] =
        some (detectLoopOrChain (str "a") [(str "a", str "b"), (str "b", str "a")]) :=
  ⟨by decide,
    C6_walk_terminates_within_bound [(str "a", str "b"), (str "b", str "a")] (str "a") 3
      (by decide)⟩

/-- Executable form of the walk, running the fuelled version at the proven
bound. -/
def detectLoopOrChainD (start : GoStr) (m : List (GoStr × GoStr)) : Option Issue :=
  match detectLoopOrChainF (m.length + 1) start m with
  | some r => r
  | none => none

/-- The walk equals its executable form. -/
theorem detect_eq_D (start : GoStr) (m : List (GoStr × GoStr)) :
    detectLoopOrChain start m = detectLoopOrChainD start m := by
  unfold detectLoopOrChainD
  rw [detect_agree m start (m.length + 1) (Nat.le_refl _)]

/-- `valStep` with the executable walk. -/
def valStepD (canonicalByPage : List (GoStr × GoStr)) (statusByURL : List (GoStr × Nat))
    (acc : List Issue × List GoStr) (entry : GoStr × GoStr) : List Issue × List GoStr :=
  let acc1 :=
    match validatePair entry.1 entry.2 statusByURL with
    | some issue =>
      let key := dedupKey issue false
      if key ∈ acc.2 then acc else (acc.1 ++ [issue], key :: acc.2)
    | none => acc
  match detectLoopOrChainD entry.1 canonicalByPage with
  | some issue =>
    let key := dedupKey issue true
    if key ∈ acc1.2 then acc1 else (acc1.1 ++ [issue], key :: acc1.2)
  | none => acc1

/-- The collection step equals its executable form. -/
theorem valStep_eq_D (cb : List (GoStr × GoStr)) (s : List (GoStr × Nat)) :
    valStep cb s = valStepD cb s := by
  funext acc e
  unfold valStep valStepD
  rw [detect_eq_D]

/-- Membership in a `Validate` result is membership in the executable
collection fold (sorting permutes). -/
theorem Validate_mem (i : Issue) (cb : List (GoStr × GoStr)) (s : List (GoStr × Nat)) :
    i ∈ Validate cb s ↔ i ∈ (cb.foldl (valStepD cb s) ([], [])).1 := by
  unfold Validate
  rw [List.mem_mergeSort, valStep_eq_D]

/-- When every href trims to empty, the tag loop finds nothing. -/
theorem fne_all_empty (tags : List GoStr) (h : ∀ t ∈ tags, trimSpace t = []) :
    firstNonEmptyHref tags = [] := by
  induction tags with
  | nil => rfl
  | cons x xs ih =>
    simp only [firstNonEmptyHref]
    rw [h x (List.mem_cons_self x xs)]
    simp only [if_pos rfl]
    exact ih (fun t ht => h t (List.mem_cons_of_mem x ht))

/-- The first tag in document order with a non-empty trimmed href wins. -/
theorem fne_first (ts1 ts2 : List GoStr) (h : GoStr) (h1 : ∀ t ∈ ts1, trimSpace t = [])
    (h2 : trimSpace h ≠ []) : firstNonEmptyHref (ts1 ++ h :: ts2) = trimSpace h := by
  induction ts1 with
  | nil =>
    rw [List.nil_append]
    simp only [firstNonEmptyHref]
    rw [if_neg h2]
  | cons x xs ih =>
    rw [List.cons_append]
    simp only [firstNonEmptyHref]
    rw [h1 x (List.mem_cons_self x xs)]
    simp only [if_pos rfl]
    exact ih (fun t ht => h1 t (List.mem_cons_of_mem x ht))

/-- Unfolding equation of `Extract` on a non-nil document. -/
theorem Extract_some (p : GoStr) (tags : List GoStr) :
    Extract p (some tags) =
      if tags.length = 0 then ⟨p, [], 0, true, false⟩
      else if firstNonEmptyHref tags = [] then
        ⟨p, [], tags.length, true, decide (1 < tags.length)⟩
      else
        match resolveAgainstPage p (firstNonEmptyHref tags) with
        | none => ⟨p, firstNonEmptyHref tags, tags.length, false, decide (1 < tags.length)⟩
        | some r => ⟨p, r, tags.length, false, decide (1 < tags.length)⟩ := rfl

/-- C8: `Extract` on a nil document returns Missing with TagCount 0; the
TagCount always equals the number of canonical tags (so a tag with an
empty href still counts); 2 or more tags set Multiple; when every href
trims to empty the result is Missing; and the first tag in document order
with a non-empty href wins, its resolved form (or, on resolution failure,
the trimmed href itself, kept verbatim) becoming the reported canonical. -/
theorem C8_extract_behavior (p : GoStr) (tags ts1 ts2 : List GoStr) (h : GoStr) :
    Extract p none = ⟨p, [], 0, true, false⟩ ∧
    (Extract p (some tags)).tagCount = tags.length ∧
    (2 ≤ tags.length → (Extract p (some tags)).multiple = true) ∧
    ((∀ t ∈ tags, trimSpace t = []) →
      (Extract p (some tags)).missing = true ∧ (Extract p (some tags)).canonicalURL = []) ∧
    ((∀ t ∈ ts1, trimSpace t = []) → trimSpace h ≠ [] →
      (Extract p (some (ts1 ++ h :: ts2))).missing = false ∧
      (Extract p (some (ts1 ++ h :: ts2))).canonicalURL =
        (resolveAgainstPage p (trimSpace h)).getD (trimSpace h)) := by
  refine ⟨rfl, ?_, ?_, ?_, ?_⟩
  · rw [Extract_some]
    split
    · rename_i h0
      exact h0.symm
    · split
      · rfl
      · split <;> rfl
  · intro h2
    rw [Extract_some]
    rw [if_neg (by omega)]
    split
    · exact decide_eq_true (by omega)
    · split <;> exact decide_eq_true (by omega)
  · intro hall
    rw [Extract_some]
    by_cases h0 : tags.length = 0
    · rw [if_pos h0]
      exact ⟨rfl, rfl⟩
    · rw [if_neg h0, fne_all_empty tags hall]
      rw [if_pos rfl]
      exact ⟨rfl, rfl⟩
  · intro h1 h2
    rw [Extract_some]
    rw [if_neg (by simp)]
    rw [fne_first ts1 ts2 h h1 h2]
    rw [if_neg h2]
    cases resolveAgainstPage p (trimSpace h) <;> exact ⟨rfl, rfl⟩

/-- Witness for C8 at concrete documents: two tags where the first href is
blank (Multiple set, blank page Missing, and the second href wins). -/
theorem C8_extract_behavior_witness :
    (2 ≤ ([str " ", str "/b"] : List GoStr).length ∧
      (Extract (str "https://example.com/x") (some [str " ", str "/b"])).multiple = true) ∧
    ((∀ t ∈ ([str " "] : List GoStr), trimSpace t = []) ∧
      (Extract (str "https://example.com/x") (some [str " "])).missing = true) ∧
    ((∀ t ∈ ([str " "] : List GoStr), trimSpace t = []) ∧ trimSpace (str "/b") ≠ [] ∧
      (Extract (str "https://example.com/x") (some ([str " "] ++ str "/b" :: []))).missing =
        false) :=
  ⟨⟨by decide,
     (C8_extract_behavior (str "https://example.com/x") [str " ", str "/b"] [] []
        []).2.2.1 (by decide)⟩,
   ⟨by decide,
     ((C8_extract_behavior (str "https://example.com/x") [str " "] [] []
        []).2.2.2.1 (by decide)).1⟩,
   ⟨by decide, by decide,
     ((C8_extract_behavior (str "https://example.com/x") [] [str " "] []
        (str "/b")).2.2.2.2 (by decide) (by decide)).1⟩⟩

/-- Lookup in the empty map. -/
theorem lookupA_nil {α : Type} (k : GoStr) : lookupA (α := α) k [] = none := rfl

/-- Unfolding equation of `lookupA`. -/
theorem lookupA_cons {α : Type} (k k2 : GoStr) (v : α) (rest : List (GoStr × α)) :
    lookupA k ((k2, v) :: rest) = if k2 = k then some v else lookupA k rest := rfl

/-- Unfolding equation of `setA` on the empty map. -/
theorem setA_nil {α : Type} (k : GoStr) (v : α) : setA k v [] = [(k, v)] := rfl

/-- Unfolding equation of `setA`. -/
theorem setA_cons {α : Type} (k k2 : GoStr) (v v2 : α) (rest : List (GoStr × α)) :
    setA k v ((k2, v2) :: rest) =
      if k2 = k then (k, v) :: rest else (k2, v2) :: setA k v rest := rfl

/-- Membership after a set insertion. -/
theorem mem_insertSet (x u : GoStr) (l : List GoStr) :
    x ∈ insertSet u l ↔ x = u ∨ x ∈ l := by
  unfold insertSet
  by_cases h : u ∈ l
  · rw [if_pos h]
    constructor
    · exact Or.inr
    · rintro (rfl | hx)
      · exact h
      · exact hx
  · rw [if_neg h]
    rw [List.mem_append, List.mem_singleton]
    tauto

/-- Membership after a set deletion. -/
theorem mem_removeSet (x u : GoStr) (l : List GoStr) :
    x ∈ removeSet u l ↔ x ∈ l ∧ x ≠ u := by
  unfold removeSet
  rw [List.mem_filter]
  simp

/-- Assignment leaves other keys alone. -/
theorem lookupA_setA_ne {α : Type} (k k2 : GoStr) (v : α) (m : List (GoStr × α))
    (h : k2 ≠ k) : lookupA k2 (setA k v m) = lookupA k2 m := by
  induction m with
  | nil =>
    rw [setA_nil, lookupA_cons, if_neg (fun hh => h hh.symm)]
  | cons p rest ih =>
    obtain ⟨k3, v3⟩ := p
    rw [setA_cons]
    by_cases h3 : k3 = k
    · rw [if_pos h3, lookupA_cons, lookupA_cons, if_neg (fun hh => h hh.symm),
        if_neg (by rw [h3]; exact fun hh => h hh.symm)]
    · rw [if_neg h3, lookupA_cons, lookupA_cons]
      by_cases h4 : k3 = k2
      · rw [if_pos h4, if_pos h4]
      · rw [if_neg h4, if_neg h4]
        exact ih

/-- Deletion removes the key. -/
theorem lookupA_eraseA_self {α : Type} (k : GoStr) (m : List (GoStr × α)) :
    lookupA k (eraseA k m) = none := by
  induction m with
  | nil => rfl
  | cons p rest ih =>
    obtain ⟨k2, v2⟩ := p
    unfold eraseA at ih ⊢
    rw [List.filter_cons]
    by_cases h : k2 = k
    · rw [if_neg (by simp [h])]
      exact ih
    · rw [if_pos (by simp [h])]
      rw [lookupA_cons, if_neg h]
      exact ih

/-- Deletion leaves other keys alone. -/
theorem lookupA_eraseA_ne {α : Type} (k k2 : GoStr) (m : List (GoStr × α))
    (h : k2 ≠ k) : lookupA k2 (eraseA k m) = lookupA k2 m := by
  induction m with
  | nil => rfl
  | cons p rest ih =>
    obtain ⟨k3, v3⟩ := p
    unfold eraseA at ih ⊢
    rw [List.filter_cons, lookupA_cons]
    by_cases h3 : k3 = k
    · rw [if_neg (by simp [h3])]
      rw [if_neg (by rw [h3]; exact fun hh => h hh.symm)]
      exact ih
    · rw [if_pos (by simp [h3])]
      rw [lookupA_cons]
      by_cases h4 : k3 = k2
      · rw [if_pos h4, if_pos h4]
      · rw [if_neg h4, if_neg h4]
        exact ih

/-- Filtering by a key predicate preserves lookups of unfiltered keys. -/
theorem lookupA_filter_of_false {α : Type} (f : GoStr → Bool) (k : GoStr)
    (m : List (GoStr × α)) (h : f k = false) :
    lookupA k (m.filter (fun p => ¬ f p.1)) = lookupA k m := by
  induction m with
  | nil => rfl
  | cons p rest ih =>
    obtain ⟨k2, v2⟩ := p
    rw [List.filter_cons, lookupA_cons]
    by_cases h2 : k2 = k
    · rw [if_pos (by simp [h2, h])]
      rw [lookupA_cons, if_pos h2, if_pos h2]
    · by_cases hf : f k2 = true
      · rw [if_neg (by simp [hf])]
        rw [if_neg h2]
        exact ih
      · rw [if_pos (by simp at hf ⊢; exact hf)]
        rw [lookupA_cons, if_neg h2, if_neg h2]
        exact ih

/-- Filtering by a key predicate drops lookups of filtered keys. -/
theorem lookupA_filter_of_true {α : Type} (f : GoStr → Bool) (k : GoStr)
    (m : List (GoStr × α)) (h : f k = true) :
    lookupA k (m.filter (fun p => ¬ f p.1)) = none := by
  induction m with
  | nil => rfl
  | cons p rest ih =>
    obtain ⟨k2, v2⟩ := p
    rw [List.filter_cons]
    by_cases h2 : k2 = k
    · rw [if_neg (by simp [h2, h])]
      exact ih
    · by_cases hf : f k2 = true
      · rw [if_neg (by simp [hf])]
        exact ih
      · rw [if_pos (by simp at hf ⊢; exact hf)]
        rw [lookupA_cons, if_neg h2]
        exact ih

/-- A successful lookup is membership. -/
theorem lookupA_mem {α : Type} (k : GoStr) (v : α) (m : List (GoStr × α))
    (h : lookupA k m = some v) : (k, v) ∈ m := by
  induction m with
  | nil => exact absurd h (by rw [lookupA_nil]; exact Option.noConfusion)
  | cons p rest ih =>
    obtain ⟨k2, v2⟩ := p
    rw [lookupA_cons] at h
    by_cases h2 : k2 = k
    · rw [if_pos h2] at h
      subst h2
      rw [Option.some_inj] at h
      subst h
      exact List.mem_cons_self _ _
    · rw [if_neg h2] at h
      exact List.mem_cons_of_mem _ (ih h)

/-- Sorting permutes, so membership is unchanged. -/
theorem mem_sortStrings (x : GoStr) (l : List GoStr) : x ∈ sortStrings l ↔ x ∈ l := by
  unfold sortStrings
  exact List.mem_mergeSort

/-- C2 (amended): a link that normalizes to a URL on a different host than
the root is neither fetched nor recorded at all by the `OnHTML` handler —
the handler returns before touching the `discovered` set — while an
internal http(s) link that is not excluded is added to `discovered` and
fetched. -/
theorem C2_cross_host_links_amended (root : GoURL) (patterns : List GoStr)
    (page rawHref absolute : GoStr) (st : CrawlState) (link : GoStr) (v : GoURL)
    (hn : normalizeURL absolute = some (link, v)) :
    (isInternal root v = false → onHTML root patterns page rawHref absolute st = (st, none)) ∧
    (isHTTP v = true → isInternal root v = true → shouldExclude link patterns = false →
      trimSpace rawHref ≠ [] → absolute ≠ [] →
      link ∈ (onHTML root patterns page rawHref absolute st).1.discovered ∧
      (onHTML root patterns page rawHref absolute st).2 = some link) := by
  constructor
  · intro hint
    unfold onHTML
    by_cases h1 : trimSpace rawHref = []
    · rw [if_pos h1]
    · rw [if_neg h1]
      by_cases h2 : absolute = []
      · rw [if_pos h2]
      · rw [if_neg h2]
        simp only [hn]
        rw [if_pos (Or.inr (by rw [hint]; exact Bool.false_ne_true))]
  · intro hhttp hint hexc htrim habs
    unfold onHTML
    rw [if_neg htrim, if_neg habs]
    simp only [hn]
    rw [if_neg (by rw [hhttp, hint]; simp)]
    rw [if_neg (by rw [hexc]; exact Bool.false_ne_true)]
    cases hna : normalizeURL page with
    | none =>
      simp only [hna]
      exact ⟨(mem_insertSet link link st.discovered).mpr (Or.inl rfl), trivial⟩
    | some pr =>
      obtain ⟨s1, s2⟩ := pr
      simp only [hna]
      exact ⟨(mem_insertSet link link st.discovered).mpr (Or.inl rfl), trivial⟩

/-- Counterexample to C2 as stated: the cross-host link
`https://other.com/page` seen on `https://example.com/` is a valid,
normalizable URL on a different host, yet the `OnHTML` handler leaves the
state unchanged — in particular the link is NOT added to the `discovered`
set (the handler returns before the `discovered` insertion), contradicting
the claim that cross-host links are still discovered. -/
theorem C2_cross_host_links_counterexample :
    normalizeRoot (str "https://example.com") =
      some (str "https://example.com/",
        ⟨str "https", [], str "example.com", str "/", [], []⟩) ∧
    normalizeURL (str "https://other.com/page") =
      some (str "https://other.com/page",
        ⟨str "https", [], str "other.com", str "/page", [], []⟩) ∧
    isInternal ⟨str "https", [], str "example.com", str "/", [], []⟩
      ⟨str "https", [], str "other.com", str "/page", [], []⟩ = false ∧
    onHTML ⟨str "https", [], str "example.com", str "/", [], []⟩ []
      (str "https://example.com/") (str "https://other.com/page")
      (str "https://other.com/page") initState = (initState, none) ∧
    str "https://other.com/page" ∉
      (onHTML ⟨str "https", [], str "example.com", str "/", [], []⟩ []
        (str "https://example.com/") (str "https://other.com/page")
        (str "https://other.com/page") initState).1.discovered := by decide

/-- Witness for the amended C2 at concrete links: the cross-host link is
dropped without a visit, the internal link is discovered and visited. -/
theorem C2_cross_host_links_witness :
    (normalizeURL (str "https://other.com/page") =
        some (str "https://other.com/page",
          ⟨str "https", [], str "other.com", str "/page", [], []⟩) ∧
      onHTML ⟨str "https", [], str "example.com", str "/", [], []⟩ []
        (str "https://example.com/") (str "https://other.com/page")
        (str "https://other.com/page") initState = (initState, none)) ∧
    (normalizeURL (str "https://example.com/about") =
        some (str "https://example.com/about",
          ⟨str "https", [], str "example.com", str "/about", [], []⟩) ∧
      str "https://example.com/about" ∈
        (onHTML ⟨str "https", [], str "example.com", str "/", [], []⟩ []
          (str "https://example.com/") (str "/about")
          (str "https://example.com/about") initState).1.discovered ∧
      (onHTML ⟨str "https", [], str "example.com", str "/", [], []⟩ []
        (str "https://example.com/") (str "/about")
        (str "https://example.com/about") initState).2 =
          some (str "https://example.com/about")) :=
  ⟨⟨by decide,
    (C2_cross_host_links_amended ⟨str "https", [], str "example.com", str "/", [], []⟩ []
      (str "https://example.com/") (str "https://other.com/page")
      (str "https://other.com/page") initState (str "https://other.com/page")
      ⟨str "https", [], str "other.com", str "/page", [], []⟩ (by decide)).1 (by decide)⟩,
   ⟨by decide,
    (C2_cross_host_links_amended ⟨str "https", [], str "example.com", str "/", [], []⟩ []
      (str "https://example.com/") (str "/about")
      (str "https://example.com/about") initState (str "https://example.com/about")
      ⟨str "https", [], str "example.com", str "/about", [], []⟩ (by decide)).2
      (by decide) (by decide) (by decide) (by decide) (by decide)⟩⟩

/-- The invariant of C3: no URL is both valid and broken. -/
def DisjointVB (st : CrawlState) : Prop :=
  ∀ u, u ∈ st.valid → lookupA u st.broken = none

/-- The `OnHTML` handler never touches `valid` or `broken`. -/
theorem disjoint_onHTML (root : GoURL) (patterns : List GoStr)
    (page rawHref absolute : GoStr) (st : CrawlState) (h : DisjointVB st) :
    DisjointVB (onHTML root patterns page rawHref absolute st).1 := by
  unfold onHTML
  by_cases h1 : trimSpace rawHref = []
  · rw [if_pos h1]
    exact h
  · rw [if_neg h1]
    by_cases h2 : absolute = []
    · rw [if_pos h2]
      exact h
    · rw [if_neg h2]
      cases hn : normalizeURL absolute with
      | none => exact h
      | some pr =>
        obtain ⟨link, v⟩ := pr
        simp only []
        by_cases h3 : ¬ isHTTP v = true ∨ ¬ isInternal root v = true
        · rw [if_pos h3]
          exact h
        · rw [if_neg h3]
          by_cases h4 : shouldExclude link patterns = true
          · rw [if_pos h4]
            exact h
          · rw [if_neg h4]
            cases hna : normalizeURL page with
            | none => exact h
            | some pr2 =>
              obtain ⟨s1, s2⟩ := pr2
              simp only []
              exact h

/-- The `OnResponse` handler preserves disjointness: success inserts into `valid` and deletes from `broken`; failure does the reverse. -/
theorem disjoint_onResponse (pt : GoStr → Option GoTime) (now : GoTime) (url : GoStr)
    (status : Nat) (header : Option GoStr) (doc : Option LDoc) (st : CrawlState)
    (h : DisjointVB st) : DisjointVB (onResponse pt now url status header doc st) := by
  unfold onResponse
  cases hn : normalizeURL url with
  | none => exact h
  | some pr =>
    obtain ⟨n, v⟩ := pr
    simp only []
    by_cases hs : 200 ≤ status ∧ status < 400
    · rw [if_pos hs]
      intro u hu
      simp only [] at hu ⊢
      rw [mem_insertSet] at hu
      rcases hu with rfl | hu
      · exact lookupA_eraseA_self u st.broken
      · by_cases he : u = n
        · subst he
          exact lookupA_eraseA_self u st.broken
        · rw [lookupA_eraseA_ne n u st.broken he]
          exact h u hu
    · rw [if_neg hs]
      intro u hu
      simp only [] at hu ⊢
      rw [mem_removeSet] at hu
      rw [lookupA_setA_ne n u status st.broken hu.2]
      exact h u hu.1

/-- The `OnError` handler preserves disjointness. -/
theorem disjoint_onError (url : GoStr) (status : Nat) (st : CrawlState)
    (h : DisjointVB st) : DisjointVB (onError url status st) := by
  unfold onError
  cases hn : normalizeURL url with
  | none => exact h
  | some pr =>
    obtain ⟨n, v⟩ := pr
    simp only []
    intro u hu
    simp only [] at hu ⊢
    rw [mem_removeSet] at hu
    rw [lookupA_setA_ne n u status st.broken hu.2]
    exact h u hu.1

/-- Disjointness of `valid` and `broken` holds at every point of a crawl. -/
theorem disjoint_runCrawl (root : GoURL) (patterns : List GoStr)
    (pt : GoStr → Option GoTime) (now : GoTime) (events : List CEvent) :
    DisjointVB (runCrawl root patterns pt now events) := by
  unfold runCrawl
  have base : DisjointVB initState := fun u hu => absurd hu (List.not_mem_nil u)
  generalize initState = st0 at base ⊢
  induction events generalizing st0 with
  | nil => exact base
  | cons e rest ih =>
    rw [List.foldl_cons]
    apply ih
    cases e with
    | html page rawHref absolute => exact disjoint_onHTML root patterns page rawHref absolute st0 base
    | response url status header doc => exact disjoint_onResponse pt now url status header doc st0 base
    | failure url status => exact disjoint_onError url status st0 base

/-- Projection equation of `assemble`. -/
theorem assemble_validURLs (patterns : List GoStr) (st : CrawlState) :
    (assemble patterns st).validURLs =
      sortStrings (st.valid.filter (fun u => ¬ shouldExclude u patterns)) := rfl

/-- Projection equation of `assemble`. -/
theorem assemble_brokenLinks (patterns : List GoStr) (st : CrawlState) :
    (assemble patterns st).brokenLinks =
      st.broken.filter (fun p => ¬ shouldExclude p.1 patterns) := rfl

/-- C3: at every point during a crawl no URL is simultaneously in the
valid set and the broken map (a success response inserts into `valid` and
removes from `broken`, a failure does the reverse, so the latest observed
status wins), and the same disjointness holds between `ValidURLs` and
`BrokenLinks` of the assembled final `Result`. -/
theorem C3_valid_broken_disjoint (root : GoURL) (patterns : List GoStr)
    (pt : GoStr → Option GoTime) (now : GoTime) (events : List CEvent) (u : GoStr) :
    (u ∈ (runCrawl root patterns pt now events).valid →
      lookupA u (runCrawl root patterns pt now events).broken = none) ∧
    (u ∈ (assemble patterns (runCrawl root patterns pt now events)).validURLs →
      lookupA u (assemble patterns (runCrawl root patterns pt now events)).brokenLinks =
        none) := by
  have hrun := disjoint_runCrawl root patterns pt now events
  refine ⟨fun hu => hrun u hu, fun hu => ?_⟩
  rw [assemble_validURLs, mem_sortStrings] at hu
  have h2 : u ∈ (runCrawl root patterns pt now events).valid := (List.mem_filter.mp hu).1
  have h3 := hrun u h2
  rw [assemble_brokenLinks]
  by_cases he : shouldExclude u patterns = true
  · exact lookupA_filter_of_true (fun k => shouldExclude k patterns) u _ he
  · exact (lookupA_filter_of_false (fun k => shouldExclude k patterns) u _
      (Bool.eq_false_iff.mpr he)).trans h3

/-- Witness for C3 after one successful response event. -/
theorem C3_valid_broken_disjoint_witness :
    (str "https://example.com/a" ∈
        (runCrawl ⟨str "https", [], str "example.com", str "/", [], []⟩ []
          (fun _ => none) ⟨0, false⟩
          [CEvent.response (str "https://example.com/a") 200 none none]).valid ∧
      lookupA (str "https://example.com/a")
        (runCrawl ⟨str "https", [], str "example.com", str "/", [], []⟩ []
          (fun _ => none) ⟨0, false⟩
          [CEvent.response (str "https://example.com/a") 200 none none]).broken = none) ∧
    (str "https://example.com/a" ∈
        (assemble [] (runCrawl ⟨str "https", [], str "example.com", str "/", [], []⟩ []
          (fun _ => none) ⟨0, false⟩
          [CEvent.response (str "https://example.com/a") 200 none none])).validURLs ∧
      lookupA (str "https://example.com/a")
        (assemble [] (runCrawl ⟨str "https", [], str "example.com", str "/", [], []⟩ []
          (fun _ => none) ⟨0, false⟩
          [CEvent.response (str "https://example.com/a") 200 none none])).brokenLinks =
            none) := by
  refine ⟨⟨by decide,
    (C3_valid_broken_disjoint ⟨str "https", [], str "example.com", str "/", [], []⟩ []
      (fun _ => none) ⟨0, false⟩
      [CEvent.response (str "https://example.com/a") 200 none none]
      (str "https://example.com/a")).1 (by decide)⟩, ?_⟩
  have m2 : str "https://example.com/a" ∈
      (assemble [] (runCrawl ⟨str "https", [], str "example.com", str "/", [], []⟩ []
        (fun _ => none) ⟨0, false⟩
        [CEvent.response (str "https://example.com/a") 200 none none])).validURLs := by
    rw [assemble_validURLs, mem_sortStrings]
    decide
  exact ⟨m2,
    (C3_valid_broken_disjoint ⟨str "https", [], str "example.com", str "/", [], []⟩ []
      (fun _ => none) ⟨0, false⟩
      [CEvent.response (str "https://example.com/a") 200 none none]
      (str "https://example.com/a")).2 m2⟩

/-- Projection equation of `assemble`. -/
theorem assemble_brokenLinkTasks (patterns : List GoStr) (st : CrawlState) :
    (assemble patterns st).brokenLinkTasks =
      ((st.broken.filter (fun p => ¬ shouldExclude p.1 patterns)).map (fun p =>
        ({ url := p.1, status := p.2,
           sources := match lookupA p.1 st.sources with
             | some set => sortStrings set
             | none => [] } : BrokenLinkTask))).mergeSort (fun a b => strLe a.url b.url) := rfl

/-- A successful `Crawl` is the assembly of the event fold under a
successfully normalized root. -/
theorem Crawl_ok_elim (rootURL : GoStr) (patterns : List GoStr) (pt : GoStr → Option GoTime)
    (now : GoTime) (events : List CEvent) (res : Result)
    (h : Crawl rootURL patterns pt now events = .ok res) :
    ∃ nr root, normalizeRoot rootURL = some (nr, root) ∧
      res = assemble patterns (runCrawl root patterns pt now events) := by
  unfold Crawl at h
  cases hnr : normalizeRoot rootURL with
  | none =>
    rw [hnr] at h
    exact Except.noConfusion h
  | some pr =>
    obtain ⟨nr, root⟩ := pr
    rw [hnr] at h
    exact ⟨nr, root, rfl, (Except.ok.inj h).symm⟩

/-- C10: exclusion patterns are re-applied at result-assembly time — for
every completed crawl, a URL matching an exclusion pattern appears in
neither `ValidURLs` nor `BrokenLinks` nor `BrokenLinkTasks`, whatever the
crawl state says (so even if it was fetched, e.g. when the root itself
matches a pattern). -/
theorem C10_exclusion_at_assembly (rootURL : GoStr) (patterns : List GoStr)
    (pt : GoStr → Option GoTime) (now : GoTime) (events : List CEvent) (u : GoStr)
    (res : Result) (hx : shouldExclude u patterns = true)
    (hok : Crawl rootURL patterns pt now events = .ok res) :
    u ∉ res.validURLs ∧ lookupA u res.brokenLinks = none ∧
    ∀ t ∈ res.brokenLinkTasks, t.url ≠ u := by
  obtain ⟨nr, root, hnr, hres⟩ := Crawl_ok_elim rootURL patterns pt now events res hok
  subst hres
  refine ⟨?_, ?_, ?_⟩
  · intro hu
    rw [assemble_validURLs, mem_sortStrings, List.mem_filter] at hu
    have := hu.2
    simp only [decide_eq_true_eq] at this
    exact this hx
  · rw [assemble_brokenLinks]
    exact lookupA_filter_of_true (fun k => shouldExclude k patterns) u _ hx
  · intro t ht
    rw [assemble_brokenLinkTasks, List.mem_mergeSort] at ht
    obtain ⟨p, hp, hpt⟩ := List.mem_map.mp ht
    have hpp := (List.mem_filter.mp hp).2
    simp only [decide_eq_true_eq] at hpp
    intro hcon
    apply hpp
    rw [← hpt] at hcon
    simp only [] at hcon
    rw [hcon]
    exact hx

/-- Witness for C10 with a pdf-excluding pattern. -/
theorem C10_exclusion_at_assembly_witness :
    shouldExclude (str "https://example.com/file.pdf") [str "*.pdf"] = true ∧
    Crawl (str "https://example.com") [str "*.pdf"] (fun _ => none) ⟨0, false⟩ [] =
      .ok (assemble [str "*.pdf"]
        (runCrawl ⟨str "https", [], str "example.com", str "/", [], []⟩ [str "*.pdf"]
          (fun _ => none) ⟨0, false⟩ [])) ∧
    str "https://example.com/file.pdf" ∉
      (assemble [str "*.pdf"]
        (runCrawl ⟨str "https", [], str "example.com", str "/", [], []⟩ [str "*.pdf"]
          (fun _ => none) ⟨0, false⟩ [])).validURLs :=
  ⟨by decide, rfl,
    (C10_exclusion_at_assembly (str "https://example.com") [str "*.pdf"] (fun _ => none)
      ⟨0, false⟩ [] (str "https://example.com/file.pdf") _ (by decide) rfl).1⟩

/-- A parseable string `dateModified` is returned directly by
`extractDateModified`. -/
theorem extractDM_first (pt : GoStr → Option GoTime) (fields : List (GoStr × JVal))
    (s : GoStr) (t : GoTime) (hl : lookupJ fields (str "dateModified") = some (.jstr s))
    (hp : parseTimeM pt s = some t) : extractDMobj pt fields = some t := by
  rw [extractDMobj]
  simp only [hl, hp]

/-- The header/fallback tiers always return a UTC time. -/
theorem lastModHeaderTier_isUTC (pt : GoStr → Option GoTime) (header : Option GoStr)
    (now : GoTime) : (lastModHeaderTier pt header now).isUTC = true := by
  cases header with
  | none => rfl
  | some lm2 =>
    show (match fromHeader pt lm2 with
          | some t => t.utc
          | none => now.utc).isUTC = true
    cases fromHeader pt lm2 <;> rfl

/-- C4: `GetLastModified` is a total function (it never fails) and always
returns a UTC timestamp; its tiers apply in strict priority order: a
parseable JSON-LD `dateModified` wins over everything, else a parseable
meta tag (`article:modified_time` first, falling through to
`og:updated_time` when absent or unparseable), else a parseable
`Last-Modified` header, else the supplied crawl time in UTC. -/
theorem C4_lastmod_priority (pt : GoStr → Option GoTime) (header : Option GoStr)
    (doc : Option LDoc) (d : LDoc) (now t : GoTime) (lm v : GoStr) :
    (GetLastModified pt header doc now).isUTC = true ∧
    (fromJSONLD pt d.jsonld = some t → GetLastModified pt header (some d) now = t.utc) ∧
    (fromJSONLD pt d.jsonld = none → fromMetaTags pt d = some t →
      GetLastModified pt header (some d) now = t.utc) ∧
    (fromJSONLD pt d.jsonld = none → fromMetaTags pt d = none →
      fromHeader pt lm = some t → GetLastModified pt (some lm) (some d) now = t.utc) ∧
    (fromJSONLD pt d.jsonld = none → fromMetaTags pt d = none →
      GetLastModified pt none (some d) now = now.utc) ∧
    (fromJSONLD pt d.jsonld = none → fromMetaTags pt d = none →
      fromHeader pt lm = none → GetLastModified pt (some lm) (some d) now = now.utc) ∧
    (d.articleModified = some v → parseTimeM pt (trimSpace v) = some t →
      fromMetaTags pt d = some t) ∧
    (d.articleModified = some v → parseTimeM pt (trimSpace v) = none →
      fromMetaTags pt d =
        (match d.ogUpdated with | some w => parseTimeM pt (trimSpace w) | none => none)) ∧
    (d.articleModified = none → fromMetaTags pt d =
      (match d.ogUpdated with | some w => parseTimeM pt (trimSpace w) | none => none)) := by
  refine ⟨?_, ?_, ?_, ?_, ?_, ?_, ?_, ?_, ?_⟩
  · cases doc with
    | none => exact lastModHeaderTier_isUTC pt header now
    | some d2 =>
      show (match fromJSONLD pt d2.jsonld with
            | some t2 => t2.utc
            | none =>
              match fromMetaTags pt d2 with
              | some t2 => t2.utc
              | none => lastModHeaderTier pt header now).isUTC = true
      cases fromJSONLD pt d2.jsonld with
      | some t2 => rfl
      | none =>
        cases fromMetaTags pt d2 with
        | some t2 => rfl
        | none => exact lastModHeaderTier_isUTC pt header now
  · intro h1
    unfold GetLastModified
    simp only [h1]
  · intro h1 h2
    unfold GetLastModified
    simp only [h1, h2]
  · intro h1 h2 h3
    unfold GetLastModified lastModHeaderTier
    simp only [h1, h2, h3]
  · intro h1 h2
    unfold GetLastModified lastModHeaderTier
    simp only [h1, h2]
  · intro h1 h2 h3
    unfold GetLastModified lastModHeaderTier
    simp only [h1, h2, h3]
  · intro h1 h2
    unfold fromMetaTags
    simp only [h1, h2]
  · intro h1 h2
    unfold fromMetaTags
    simp only [h1, h2]
  · intro h1
    unfold fromMetaTags
    simp only [h1]

/-- Concrete date-parsing capability used by the C4 witness. -/
def ptDemo : GoStr → Option GoTime := fun s =>
  if s = str "d" then some ⟨100, false⟩
  else if s = str "m" then some ⟨200, false⟩
  else if s = str "h" then some ⟨300, false⟩
  else none

/-- Fixture: a document whose JSON-LD block carries `dateModified`. -/
def ldocJson : LDoc :=
  ⟨[JBlock.value (.jobj [(str "dateModified", .jstr (str "d"))])], some (str "m"),
    some (str "o")⟩

/-- Fixture: a document with only an `article:modified_time` meta tag. -/
def ldocMeta : LDoc := ⟨[], some (str "m"), none⟩

/-- Fixture: a document with no last-modified data. -/
def ldocEmpty : LDoc := ⟨[], none, none⟩

/-- Witness for C4 exercising all four tiers on concrete documents and a
concrete date-parsing capability. -/
theorem C4_lastmod_priority_witness :
    (fromJSONLD ptDemo ldocJson.jsonld = some ⟨100, false⟩ ∧
      GetLastModified ptDemo (some (str "h")) (some ldocJson) ⟨7, false⟩ = ⟨100, true⟩) ∧
    (fromJSONLD ptDemo ldocMeta.jsonld = none ∧
      fromMetaTags ptDemo ldocMeta = some ⟨200, false⟩ ∧
      GetLastModified ptDemo (some (str "h")) (some ldocMeta) ⟨7, false⟩ = ⟨200, true⟩) ∧
    (fromMetaTags ptDemo ldocEmpty = none ∧
      fromHeader ptDemo (str "h") = some ⟨300, false⟩ ∧
      GetLastModified ptDemo (some (str "h")) (some ldocEmpty) ⟨7, false⟩ = ⟨300, true⟩) ∧
    GetLastModified ptDemo none (some ldocEmpty) ⟨7, false⟩ = ⟨7, true⟩ := by
  have h1 : fromJSONLD ptDemo ldocJson.jsonld = some ⟨100, false⟩ := by
    show fromJSONLD ptDemo [JBlock.value (.jobj [(str "dateModified", .jstr (str "d"))])] =
      some ⟨100, false⟩
    simp only [fromJSONLD, unmarshalObj]
    rw [extractDM_first ptDemo [(str "dateModified", .jstr (str "d"))] (str "d")
      ⟨100, false⟩ rfl rfl]
  refine ⟨⟨h1, ?_⟩, ⟨rfl, rfl, ?_⟩, ⟨rfl, rfl, ?_⟩, ?_⟩
  · exact (C4_lastmod_priority ptDemo (some (str "h")) (some ldocJson) ldocJson ⟨7, false⟩
      ⟨100, false⟩ (str "h") (str "m")).2.1 h1
  · exact (C4_lastmod_priority ptDemo (some (str "h")) (some ldocMeta) ldocMeta ⟨7, false⟩
      ⟨200, false⟩ (str "h") (str "m")).2.2.1 rfl rfl
  · exact (C4_lastmod_priority ptDemo (some (str "h")) (some ldocEmpty) ldocEmpty ⟨7, false⟩
      ⟨300, false⟩ (str "h") (str "m")).2.2.2.1 rfl rfl rfl
  · exact (C4_lastmod_priority ptDemo none (some ldocEmpty) ldocEmpty ⟨7, false⟩
      ⟨7, false⟩ (str "h") (str "m")).2.2.2.2.1 rfl rfl

/-- Go string `<` is irreflexive. -/
theorem strLt_irrefl (a : GoStr) : strLt a a = false := by
  induction a with
  | nil => rfl
  | cons c cs ih =>
    unfold strLt
    rw [if_neg (lt_irrefl c), if_neg (lt_irrefl c)]
    exact ih

/-- Go string `<` is asymmetric. -/
theorem strLt_asymm (a b : GoStr) (h : strLt a b = true) : strLt b a = false := by
  induction a generalizing b with
  | nil =>
    cases b with
    | nil => rfl
    | cons d ds => rfl
  | cons c cs ih =>
    cases b with
    | nil => exact absurd h (by rw [strLt]; exact Bool.false_ne_true)
    | cons d ds =>
      unfold strLt at h ⊢
      by_cases h1 : c < d
      · rw [if_neg (asymm h1), if_pos h1]
      · rw [if_neg h1] at h
        by_cases h2 : d < c
        · rw [if_pos h2] at h
          exact absurd h Bool.false_ne_true
        · rw [if_neg h2] at h
          rw [if_neg h2, if_neg h1]
          exact ih ds h

/-- Go string `<` is transitive. -/
theorem strLt_trans (a b c : GoStr) (h1 : strLt a b = true) (h2 : strLt b c = true) :
    strLt a c = true := by
  induction a generalizing b c with
  | nil =>
    cases b with
    | nil => exact absurd h1 (by rw [strLt]; exact Bool.false_ne_true)
    | cons d ds =>
      cases c with
      | nil => exact absurd h2 (by rw [strLt]; exact Bool.false_ne_true)
      | cons e es => rfl
  | cons x xs ih =>
    cases b with
    | nil => exact absurd h1 (by rw [strLt]; exact Bool.false_ne_true)
    | cons d ds =>
      cases c with
      | nil => exact absurd h2 (by rw [strLt]; exact Bool.false_ne_true)
      | cons e es =>
        unfold strLt at h1 h2 ⊢
        by_cases hxd : x < d
        · by_cases hde : d < e
          · rw [if_pos (lt_trans hxd hde)]
          · rw [if_neg hde] at h2
            by_cases hed : e < d
            · rw [if_pos hed] at h2
              exact absurd h2 Bool.false_ne_true
            · have : d = e := le_antisymm (le_of_not_lt hed) (le_of_not_lt hde)
              subst this
              rw [if_pos hxd]
        · rw [if_neg hxd] at h1
          by_cases hdx : d < x
          · rw [if_pos hdx] at h1
            exact absurd h1 Bool.false_ne_true
          · have hxd2 : x = d := le_antisymm (le_of_not_lt hdx) (le_of_not_lt hxd)
            subst hxd2
            rw [if_neg hxd] at h1
            by_cases hxe : x < e
            · rw [if_pos hxe]
            · rw [if_neg hxe] at h2 ⊢
              by_cases hex : e < x
              · rw [if_pos hex] at h2
                exact absurd h2 Bool.false_ne_true
              · rw [if_neg hex] at h2 ⊢
                exact ih ds es h1 h2

/-- Go string `<` is connex on distinct strings. -/
theorem strLt_connex (a b : GoStr) (h : a ≠ b) :
    strLt a b = true ∨ strLt b a = true := by
  induction a generalizing b with
  | nil =>
    cases b with
    | nil => exact absurd rfl h
    | cons d ds => exact Or.inl rfl
  | cons c cs ih =>
    cases b with
    | nil => exact Or.inr rfl
    | cons d ds =>
      by_cases h1 : c < d
      · refine Or.inl ?_
        unfold strLt
        rw [if_pos h1]
      · by_cases h2 : d < c
        · refine Or.inr ?_
          unfold strLt
          rw [if_pos h2]
        · have hcd : c = d := le_antisymm (le_of_not_lt h2) (le_of_not_lt h1)
          subst hcd
          have hne : cs ≠ ds := fun hh => h (by rw [hh])
          rcases ih ds hne with hl | hr
          · refine Or.inl ?_
            unfold strLt
            rw [if_neg h1, if_neg h1]
            exact hl
          · refine Or.inr ?_
            unfold strLt
            rw [if_neg h1, if_neg h1]
            exact hr

/-- The four sort/dedup-relevant fields of an issue, in comparator
order. -/
def issueKey (i : Issue) : List GoStr := [i.pageURL, i.type, i.canonicalURL, i.detail]

/-- Lexicographic order on field lists, the shape of the `sort.Slice`
comparator of `Validate`. -/
def strListLt : List GoStr → List GoStr → Bool
  | [], [] => false
  | [], _ :: _ => true
  | _ :: _, [] => false
  | x :: xs, y :: ys => if x ≠ y then strLt x y else strListLt xs ys

/-- The `sort.Slice` comparator is the lexicographic order on the
four-field key. -/
theorem issueLess_eq_key (a b : Issue) :
    issueLess a b = strListLt (issueKey a) (issueKey b) := by
  unfold issueLess issueKey
  by_cases e1 : a.pageURL = b.pageURL
  · rw [if_neg (not_not_intro e1)]
    unfold strListLt
    rw [if_neg (not_not_intro e1)]
    by_cases e2 : a.type = b.type
    · rw [if_neg (not_not_intro e2)]
      unfold strListLt
      rw [if_neg (not_not_intro e2)]
      by_cases e3 : a.canonicalURL = b.canonicalURL
      · rw [if_neg (not_not_intro e3)]
        unfold strListLt
        rw [if_neg (not_not_intro e3)]
        by_cases e4 : a.detail = b.detail
        · rw [e4, strLt_irrefl]
          unfold strListLt
          rw [if_neg (not_not_intro rfl)]
          rfl
        · unfold strListLt
          rw [if_pos e4]
      · rw [if_pos e3]
        unfold strListLt
        rw [if_pos e3]
    · rw [if_pos e2]
      unfold strListLt
      rw [if_pos e2]
  · rw [if_pos e1]
    unfold strListLt
    rw [if_pos e1]

/-- The key order is asymmetric. -/
theorem strListLt_asymm (xs ys : List GoStr) (h : strListLt xs ys = true) :
    strListLt ys xs = false := by
  induction xs generalizing ys with
  | nil =>
    cases ys with
    | nil => rfl
    | cons y ys2 => rfl
  | cons x xs2 ih =>
    cases ys with
    | nil => exact absurd h (by rw [strListLt]; exact Bool.false_ne_true)
    | cons y ys2 =>
      unfold strListLt at h ⊢
      by_cases e : x = y
      · rw [if_neg (not_not_intro e)] at h
        rw [if_neg (not_not_intro e.symm)]
        exact ih ys2 h
      · rw [if_pos e] at h
        rw [if_pos (fun hh => e hh.symm)]
        exact strLt_asymm x y h

/-- The key order is transitive. -/
theorem strListLt_trans (xs ys zs : List GoStr) (h1 : strListLt xs ys = true)
    (h2 : strListLt ys zs = true) : strListLt xs zs = true := by
  induction xs generalizing ys zs with
  | nil =>
    cases ys with
    | nil => exact absurd h1 (by rw [strListLt]; exact Bool.false_ne_true)
    | cons y ys2 =>
      cases zs with
      | nil => exact absurd h2 (by rw [strListLt]; exact Bool.false_ne_true)
      | cons z zs2 => rfl
  | cons x xs2 ih =>
    cases ys with
    | nil => exact absurd h1 (by rw [strListLt]; exact Bool.false_ne_true)
    | cons y ys2 =>
      cases zs with
      | nil => exact absurd h2 (by rw [strListLt]; exact Bool.false_ne_true)
      | cons z zs2 =>
        unfold strListLt at h1 h2 ⊢
        by_cases e1 : x = y
        · rw [if_neg (not_not_intro e1)] at h1
          by_cases e2 : y = z
          · rw [if_neg (not_not_intro e2)] at h2
            rw [if_neg (not_not_intro (e1.trans e2))]
            exact ih ys2 zs2 h1 h2
          · rw [if_pos e2] at h2
            rw [if_pos (fun hh => e2 (e1 ▸ hh))]
            rw [e1]
            exact h2
        · rw [if_pos e1] at h1
          by_cases e2 : y = z
          · rw [if_pos (fun hh => e1 (e2 ▸ hh))]
            rw [← e2]
            exact h1
          · rw [if_pos e2] at h2
            have h3 := strLt_trans x y z h1 h2
            rw [if_pos (fun hh : x = z => by
              rw [hh] at h1
              rw [strLt_asymm y z h2] at h1
              exact Bool.false_ne_true h1)]
            exact h3

/-- The key order is connex on distinct keys. -/
theorem strListLt_connex (xs ys : List GoStr) (h : xs ≠ ys) :
    strListLt xs ys = true ∨ strListLt ys xs = true := by
  induction xs generalizing ys with
  | nil =>
    cases ys with
    | nil => exact absurd rfl h
    | cons y ys2 => exact Or.inl rfl
  | cons x xs2 ih =>
    cases ys with
    | nil => exact Or.inr rfl
    | cons y ys2 =>
      by_cases e : x = y
      · subst e
        have hne : xs2 ≠ ys2 := fun hh => h (by rw [hh])
        rcases ih ys2 hne with hl | hr
        · refine Or.inl ?_
          unfold strListLt
          rw [if_neg (not_not_intro rfl)]
          exact hl
        · refine Or.inr ?_
          unfold strListLt
          rw [if_neg (not_not_intro rfl)]
          exact hr
      · rcases strLt_connex x y e with hl | hr
        · refine Or.inl ?_
          unfold strListLt
          rw [if_pos e]
          exact hl
        · refine Or.inr ?_
          unfold strListLt
          rw [if_pos (fun hh => e hh.symm)]
          exact hr

/-- The four-field key determines the issue. -/
theorem issueKey_inj (a b : Issue) (h : issueKey a = issueKey b) : a = b := by
  obtain ⟨p1, u1, t1, d1⟩ := a
  obtain ⟨p2, u2, t2, d2⟩ := b
  unfold issueKey at h
  simp only [List.cons.injEq, and_true] at h
  obtain ⟨h1, h2, h3, h4⟩ := h
  rw [h1, h2, h3, h4]

/-- The sort relation of `Validate` is transitive. -/
theorem issueLE_trans (a b c : Issue) (h1 : (! issueLess b a) = true)
    (h2 : (! issueLess c b) = true) : (! issueLess c a) = true := by
  rw [Bool.not_eq_true'] at h1 h2 ⊢
  rw [issueLess_eq_key] at h1 h2 ⊢
  by_cases hca : strListLt (issueKey c) (issueKey a) = true
  · exfalso
    by_cases hbc : issueKey b = issueKey c
    · rw [hbc, hca] at h1
      exact Bool.noConfusion h1
    · rcases strListLt_connex _ _ hbc with hbc2 | hcb
      · by_cases hab : issueKey a = issueKey b
        · rw [← hab] at hbc2
          rw [strListLt_asymm _ _ hca] at hbc2
          exact Bool.noConfusion hbc2
        · rcases strListLt_connex _ _ hab with hab2 | hba
          · have hac := strListLt_trans _ _ _ hab2 hbc2
            rw [strListLt_asymm _ _ hca] at hac
            exact Bool.noConfusion hac
          · rw [hba] at h1
            exact Bool.noConfusion h1
      · rw [hcb] at h2
        exact Bool.noConfusion h2
  · exact Bool.eq_false_iff.mpr hca

/-- The sort relation of `Validate` is total. -/
theorem issueLE_total (a b : Issue) :
    ((! issueLess b a) || (! issueLess a b)) = true := by
  rw [Bool.or_eq_true, Bool.not_eq_true', Bool.not_eq_true']
  by_cases h : issueLess b a = true
  · refine Or.inr ?_
    rw [issueLess_eq_key] at h ⊢
    exact strListLt_asymm _ _ h
  · exact Or.inl (Bool.eq_false_iff.mpr h)

/-- `Validate` output is sorted by the Go comparator (page URL, then
type, then canonical URL, then detail). -/
theorem Validate_sorted (cb : List (GoStr × GoStr)) (s : List (GoStr × Nat)) :
    List.Pairwise (fun a b => (! issueLess b a) = true) (Validate cb s) := by
  unfold Validate
  exact List.sorted_mergeSort issueLE_trans issueLE_total _

/-- Modelled from the spec: the shared crawl state of the
canonical-integrated `Crawl` (the version consumed by `cmd/crawl.go` but
missing from `src/`) — the base aggregates plus the page-to-canonical
map, the per-URL status codes snapshot for the Validator, and the pages
flagged Missing or Multiple by the Canonical Extractor. -/
structure CrawlStateX where
  base : CrawlState
  canonMap : List (GoStr × GoStr)
  statuses : List (GoStr × Nat)
  missingPages : List GoStr
  multiplePages : List GoStr
  deriving DecidableEq, Repr

/-- Modelled from the spec: empty extended crawl state. -/
def initStateX : CrawlStateX := ⟨initState, [], [], [], []⟩

/-- Modelled from the spec: crawl events of the canonical-integrated
`Crawl`; a response additionally carries the `link[rel=canonical]` href
attributes of the fetched page, in document order, as consumed by the
Canonical Extractor (`none` models an unparseable/nil document). -/
inductive CEventX where
  | html (page rawHref absolute : GoStr) : CEventX
  | response (url : GoStr) (status : Nat) (header : Option GoStr) (doc : Option LDoc)
      (canonTags : Option (List GoStr)) : CEventX
  | failure (url : GoStr) (status : Nat) : CEventX

/-- Modelled from the spec: the success handler of the
canonical-integrated `Crawl` — on top of the base `OnResponse` behaviour
it records the status code for the Validator and, on 2xx/3xx, runs the
Canonical Extractor and accumulates its `CanonicalInfo` into the
page-to-canonical map and the Missing/Multiple page sets. -/
def onResponseX (pt : GoStr → Option GoTime) (now : GoTime) (url : GoStr) (status : Nat)
    (header : Option GoStr) (doc : Option LDoc) (canonTags : Option (List GoStr))
    (st : CrawlStateX) : CrawlStateX :=
  match normalizeURL url with
  | none => st
  | some (n, _) =>
    let base2 := onResponse pt now url status header doc st.base
    if 200 ≤ status ∧ status < 400 then
      let info := Extract n canonTags
      CrawlStateX.mk base2 (setA n info.canonicalURL st.canonMap) (setA n status st.statuses)
        (if info.missing then insertSet n st.missingPages else st.missingPages)
        (if info.multiple then insertSet n st.multiplePages else st.multiplePages)
    else
      CrawlStateX.mk base2 st.canonMap (setA n status st.statuses) st.missingPages
        st.multiplePages

/-- Modelled from the spec: dispatch one event of the
canonical-integrated `Crawl`; failures also record their status code for
the Validator. -/
def stepEventX (parsedRoot : GoURL) (patterns : List GoStr) (pt : GoStr → Option GoTime)
    (now : GoTime) (st : CrawlStateX) : CEventX → CrawlStateX
  | .html page rawHref absolute =>
    CrawlStateX.mk (onHTML parsedRoot patterns page rawHref absolute st.base).1 st.canonMap
      st.statuses st.missingPages st.multiplePages
  | .response url status header doc canonTags =>
    onResponseX pt now url status header doc canonTags st
  | .failure url status =>
    match normalizeURL url with
    | none => st
    | some (n, _) =>
      CrawlStateX.mk (onError url status st.base) st.canonMap (setA n status st.statuses)
        st.missingPages st.multiplePages

/-- Modelled from the spec: the extended crawl state after a sequence of
events. -/
def runCrawlX (parsedRoot : GoURL) (patterns : List GoStr) (pt : GoStr → Option GoTime)
    (now : GoTime) (events : List CEventX) : CrawlStateX :=
  events.foldl (stepEventX parsedRoot patterns pt now) initStateX

/-- Modelled from the spec: the `Result` of the canonical-integrated
`Crawl` — the base fields plus `CanonicalIssues`,
`MissingCanonicalPages` and `MultipleCanonicalPages`. -/
structure ResultX where
  base : Result
  canonicalIssues : List Issue
  missingCanonicalPages : List GoStr
  multipleCanonicalPages : List GoStr

/-- Modelled from the spec: result assembly of the canonical-integrated
`Crawl` — snapshot the per-page canonical declarations and status codes,
run the Validator, sort everything, and emit the result alongside the
base assembly. -/
def assembleX (patterns : List GoStr) (st : CrawlStateX) : ResultX :=
  ⟨assemble patterns st.base, Validate st.canonMap st.statuses,
    sortStrings st.missingPages, sortStrings st.multiplePages⟩

/-- Modelled from the spec: the canonical-integrated `Crawl` over an
abstract event sequence; only root normalization can fail. -/
def CrawlX (rootURL : GoStr) (patterns : List GoStr) (pt : GoStr → Option GoTime)
    (now : GoTime) (events : List CEventX) : Except GoStr ResultX :=
  match normalizeRoot rootURL with
  | none => .error (str "invalid root url")
  | some (_, parsedRoot) =>
    .ok (assembleX patterns (runCrawlX parsedRoot patterns pt now events))

/-- C1: for every successful crawl of the canonical-integrated `Crawl`
(modelled from the spec, see `CrawlX`), the returned result carries the
canonical analysis output — `CanonicalIssues` equal to the Validator's
output over the accumulated page-to-canonical map and status codes and
sorted by the Go comparator, plus sorted `MissingCanonicalPages` and
`MultipleCanonicalPages` — alongside the base `Result` assembled from the
shared crawl state; and the success handler runs the Canonical Extractor
on each fetched HTML page, accumulating its `CanonicalInfo` into the
canonical aggregates. -/
theorem C1_canonical_in_result (rootURL url : GoStr) (patterns : List GoStr)
    (pt : GoStr → Option GoTime) (now : GoTime) (events : List CEventX) (res : ResultX)
    (status : Nat) (header : Option GoStr) (doc : Option LDoc)
    (canonTags : Option (List GoStr)) (stx : CrawlStateX) (n : GoStr) (v : GoURL)
    (hok : CrawlX rootURL patterns pt now events = .ok res) :
    (∃ nr root, normalizeRoot rootURL = some (nr, root) ∧
      res.base = assemble patterns (runCrawlX root patterns pt now events).base ∧
      res.canonicalIssues =
        Validate (runCrawlX root patterns pt now events).canonMap
          (runCrawlX root patterns pt now events).statuses ∧
      res.missingCanonicalPages =
        sortStrings (runCrawlX root patterns pt now events).missingPages ∧
      res.multipleCanonicalPages =
        sortStrings (runCrawlX root patterns pt now events).multiplePages) ∧
    List.Pairwise (fun a b => (! issueLess b a) = true) res.canonicalIssues ∧
    (normalizeURL url = some (n, v) → 200 ≤ status ∧ status < 400 →
      (onResponseX pt now url status header doc canonTags stx).canonMap =
        setA n (Extract n canonTags).canonicalURL stx.canonMap ∧
      (onResponseX pt now url status header doc canonTags stx).missingPages =
        (if (Extract n canonTags).missing then insertSet n stx.missingPages
         else stx.missingPages) ∧
      (onResponseX pt now url status header doc canonTags stx).multiplePages =
        (if (Extract n canonTags).multiple then insertSet n stx.multiplePages
         else stx.multiplePages) ∧
      (onResponseX pt now url status header doc canonTags stx).base =
        onResponse pt now url status header doc stx.base) := by
  have hshape : ∃ nr root, normalizeRoot rootURL = some (nr, root) ∧
      res = assembleX patterns (runCrawlX root patterns pt now events) := by
    unfold CrawlX at hok
    cases hnr : normalizeRoot rootURL with
    | none =>
      rw [hnr] at hok
      exact Except.noConfusion hok
    | some pr =>
      obtain ⟨nr, root⟩ := pr
      rw [hnr] at hok
      exact ⟨nr, root, rfl, (Except.ok.inj hok).symm⟩
  obtain ⟨nr, root, hnr, hres⟩ := hshape
  subst hres
  refine ⟨⟨nr, root, hnr, rfl, rfl, rfl, rfl⟩, ?_, ?_⟩
  · exact Validate_sorted _ _
  · intro hn hs
    unfold onResponseX
    simp only [hn]
    rw [if_pos hs]
    exact ⟨rfl, rfl, rfl, rfl⟩

/-- Witness for C1 on a one-page crawl whose page declares the canonical
`/c`. -/
theorem C1_canonical_in_result_witness :
    CrawlX (str "https://example.com") [] (fun _ => none) ⟨0, false⟩
        [CEventX.response (str "https://example.com/") 200 none none (some [str "/c"])] =
      .ok (assembleX []
        (runCrawlX ⟨str "https", [], str "example.com", str "/", [], []⟩ []
          (fun _ => none) ⟨0, false⟩
          [CEventX.response (str "https://example.com/") 200 none none
            (some [str "/c"])])) ∧
    normalizeURL (str "https://example.com/") =
      some (str "https://example.com/",
        ⟨str "https", [], str "example.com", str "/", [], []⟩) ∧
    (200 ≤ 200 ∧ 200 < 400) ∧
    (onResponseX (fun _ => none) ⟨0, false⟩ (str "https://example.com/") 200 none none
        (some [str "/c"]) initStateX).canonMap =
      setA (str "https://example.com/")
        (Extract (str "https://example.com/") (some [str "/c"])).canonicalURL
        initStateX.canonMap ∧
    List.Pairwise (fun a b => (! issueLess b a) = true)
      (assembleX []
        (runCrawlX ⟨str "https", [], str "example.com", str "/", [], []⟩ []
          (fun _ => none) ⟨0, false⟩
          [CEventX.response (str "https://example.com/") 200 none none
            (some [str "/c"])])).canonicalIssues := by
  refine ⟨rfl, by decide, by decide, ?_, ?_⟩
  · exact ((C1_canonical_in_result (str "https://example.com") (str "https://example.com/")
      [] (fun _ => none) ⟨0, false⟩
      [CEventX.response (str "https://example.com/") 200 none none (some [str "/c"])]
      (assembleX []
        (runCrawlX ⟨str "https", [], str "example.com", str "/", [], []⟩ []
          (fun _ => none) ⟨0, false⟩
          [CEventX.response (str "https://example.com/") 200 none none (some [str "/c"])]))
      200 none none (some [str "/c"]) initStateX (str "https://example.com/")
      ⟨str "https", [], str "example.com", str "/", [], []⟩ rfl).2.2
      (by decide) (by decide)).1
  · exact (C1_canonical_in_result (str "https://example.com") (str "https://example.com/")
      [] (fun _ => none) ⟨0, false⟩
      [CEventX.response (str "https://example.com/") 200 none none (some [str "/c"])]
      (assembleX []
        (runCrawlX ⟨str "https", [], str "example.com", str "/", [], []⟩ []
          (fun _ => none) ⟨0, false⟩
          [CEventX.response (str "https://example.com/") 200 none none (some [str "/c"])]))
      200 none none (some [str "/c"]) initStateX (str "https://example.com/")
      ⟨str "https", [], str "example.com", str "/", [], []⟩ rfl).2.1

/-- Once the walk has taken two hops, every exit of the loop reports an
issue: chain on normal termination, loop on a revisit or on the safety
bound. -/
theorem loopAuxF_ne_none (fuel : Nat) (m : List (GoStr × GoStr)) (start target : GoStr)
    (visited : List GoStr) (current : GoStr) (steps : Nat) (h2 : 2 ≤ steps)
    (hf : m.length + 2 ≤ fuel + steps) (h1 : 1 ≤ fuel) :
    loopAuxF fuel m start target visited current steps ≠ some none := by
  induction fuel generalizing visited current steps with
  | zero => omega
  | succ fuel ih =>
    unfold loopAuxF
    cases hc : lookupA current m with
    | none =>
      simp only [hc]
      rw [if_pos h2]
      intro hcon
      exact Option.noConfusion (Option.some_inj.mp hcon)
    | some next =>
      simp only [hc]
      by_cases hb : next = []
      · rw [if_pos hb, if_pos h2]
        intro hcon
        exact Option.noConfusion (Option.some_inj.mp hcon)
      · rw [if_neg hb]
        by_cases hv : current ∈ visited
        · rw [if_pos hv]
          intro hcon
          exact Option.noConfusion (Option.some_inj.mp hcon)
        · rw [if_neg hv]
          by_cases hn : next = current
          · rw [if_pos hn, if_pos h2]
            intro hcon
            exact Option.noConfusion (Option.some_inj.mp hcon)
          · rw [if_neg hn]
            by_cases hbd : m.length + 1 < steps + 1
            · rw [if_pos hbd]
              intro hcon
              exact Option.noConfusion (Option.some_inj.mp hcon)
            · rw [if_neg hbd]
              exact ih (current :: visited) next (steps + 1) (by omega) (by omega) (by omega)

/-- The walk loop only ever returns the chain or the loop issue for its
start and first target. -/
theorem loopAuxF_shape (fuel : Nat) (m : List (GoStr × GoStr)) (start target : GoStr)
    (visited : List GoStr) (current : GoStr) (steps : Nat) (i : Issue)
    (h : loopAuxF fuel m start target visited current steps = some (some i)) :
    i = chainIssue start target ∨ i = loopIssue start target := by
  induction fuel generalizing visited current steps with
  | zero => exact Option.noConfusion h
  | succ fuel ih =>
    unfold loopAuxF at h
    cases hc : lookupA current m with
    | none =>
      simp only [hc] at h
      by_cases h2 : 2 ≤ steps
      · rw [if_pos h2] at h
        exact Or.inl (Option.some_inj.mp (Option.some_inj.mp h)).symm
      · rw [if_neg h2] at h
        exact Option.noConfusion (Option.some_inj.mp h)
    | some next =>
      simp only [hc] at h
      by_cases hb : next = []
      · rw [if_pos hb] at h
        by_cases h2 : 2 ≤ steps
        · rw [if_pos h2] at h
          exact Or.inl (Option.some_inj.mp (Option.some_inj.mp h)).symm
        · rw [if_neg h2] at h
          exact Option.noConfusion (Option.some_inj.mp h)
      · rw [if_neg hb] at h
        by_cases hv : current ∈ visited
        · rw [if_pos hv] at h
          exact Or.inr (Option.some_inj.mp (Option.some_inj.mp h)).symm
        · rw [if_neg hv] at h
          by_cases hn : next = current
          · rw [if_pos hn] at h
            by_cases h2 : 2 ≤ steps
            · rw [if_pos h2] at h
              exact Or.inl (Option.some_inj.mp (Option.some_inj.mp h)).symm
            · rw [if_neg h2] at h
              exact Option.noConfusion (Option.some_inj.mp h)
          · rw [if_neg hn] at h
            by_cases hbd : m.length + 1 < steps + 1
            · rw [if_pos hbd] at h
              exact Or.inr (Option.some_inj.mp (Option.some_inj.mp h)).symm
            · rw [if_neg hbd] at h
              exact ih (current :: visited) next (steps + 1) h

/-- The walk flags a page exactly when its canonical exists, is non-empty
and differs from the page, and the walk continues past that canonical
(the canonical of the canonical exists, is non-empty and differs from
it).  This second-hop condition captures both of the spec's disjuncts:
reaching two or more hops and revisiting a page each require the second
hop, and once it is taken every exit of the loop reports. -/
theorem detect_some_iff (m : List (GoStr × GoStr)) (p : GoStr) :
    (∃ j, detectLoopOrChain p m = some j) ↔
      (∃ t u, lookupA p m = some t ∧ t ≠ [] ∧ t ≠ p ∧
        lookupA t m = some u ∧ u ≠ [] ∧ u ≠ t) := by
  constructor
  · rintro ⟨j, hj⟩
    unfold detectLoopOrChain at hj
    cases hp : lookupA p m with
    | none =>
      rw [hp] at hj
      exact Option.noConfusion hj
    | some t =>
      simp only [hp] at hj
      by_cases hg : t = [] ∨ t = p
      · rw [if_pos hg] at hj
        exact Option.noConfusion hj
      · rw [if_neg hg] at hj
        push_neg at hg
        rw [loopAux] at hj
        cases ht : lookupA t m with
        | none =>
          simp only [ht] at hj
          rw [if_neg (by omega)] at hj
          exact Option.noConfusion hj
        | some u =>
          simp only [ht] at hj
          by_cases hu : u = []
          · rw [if_pos hu, if_neg (by omega)] at hj
            exact Option.noConfusion hj
          · rw [if_neg hu] at hj
            rw [if_neg (by
              intro hmem
              exact hg.2 (List.mem_singleton.mp hmem))] at hj
            by_cases hut : u = t
            · rw [if_pos hut, if_neg (by omega)] at hj
              exact Option.noConfusion hj
            · exact ⟨t, u, rfl, hg.1, hg.2, ht, hu, hut⟩
  · rintro ⟨t, u, hp, ht1, ht2, htu, hu1, hu2⟩
    have hlen : 1 ≤ m.length := by
      cases m with
      | nil => exact absurd hp (by rw [lookupA_nil]; exact Option.noConfusion)
      | cons e rest => simp
    unfold detectLoopOrChain
    simp only [hp]
    rw [if_neg (by
      push_neg
      exact ⟨ht1, ht2⟩)]
    rw [loopAux]
    simp only [htu]
    rw [if_neg hu1]
    rw [if_neg (fun hmem => ht2 (List.mem_singleton.mp hmem))]
    rw [if_neg hu2]
    rw [if_neg (by omega)]
    have hagree := loopAux_eq_of_fuel m.length m p t [t, p] u 2 (by omega) (by omega)
    have hne := loopAuxF_ne_none m.length m p t [t, p] u 2 (by omega) (by omega) (by omega)
    cases hres : loopAux m p t [t, p] u 2 with
    | none =>
      rw [hres] at hagree
      exact absurd hagree hne
    | some j => exact ⟨j, rfl⟩

/-- A reported walk issue is the chain or the loop issue of the start
page and its canonical target. -/
theorem detect_shape (m : List (GoStr × GoStr)) (p : GoStr) (i : Issue)
    (h : detectLoopOrChain p m = some i) :
    ∃ t, lookupA p m = some t ∧ (i = chainIssue p t ∨ i = loopIssue p t) := by
  unfold detectLoopOrChain at h
  cases hp : lookupA p m with
  | none =>
    rw [hp] at h
    exact Option.noConfusion h
  | some t =>
    simp only [hp] at h
    by_cases hg : t = [] ∨ t = p
    · rw [if_pos hg] at h
      exact Option.noConfusion h
    · rw [if_neg hg] at h
      have hagree := loopAux_eq_of_fuel (m.length + 1) m p t [p] t 1 (by omega) (by omega)
      rw [h] at hagree
      exact ⟨t, rfl, loopAuxF_shape (m.length + 1) m p t [p] t 1 i hagree⟩

/-- A walk issue names the page it was started from. -/
theorem detect_pageURL (m : List (GoStr × GoStr)) (p : GoStr) (i : Issue)
    (h : detectLoopOrChain p m = some i) : i.pageURL = p := by
  obtain ⟨t, _, hi | hi⟩ := detect_shape m p i h <;> rw [hi] <;> rfl

/-- A pair issue names its page and target and carries one of the four
pair issue types (never `loop_or_chain`). -/
theorem validatePair_shape (page target : GoStr) (s : List (GoStr × Nat)) (j : Issue)
    (h : validatePair page target s = some j) :
    j.pageURL = page ∧ j.canonicalURL = target ∧
      (j.type = str "non_http_scheme" ∨ j.type = str "cross_domain" ∨
        j.type = str "target_redirect" ∨ j.type = str "target_broken") := by
  unfold validatePair at h
  cases hpt : parseURL target with
  | none =>
    rw [hpt] at h
    exact Option.noConfusion h
  | some pt2 =>
    simp only [hpt] at h
    by_cases h1 : ¬ (pt2.scheme = str "http" ∨ pt2.scheme = str "https")
    · rw [if_pos h1] at h
      rw [← Option.some_inj.mp h]
      exact ⟨rfl, rfl, Or.inl rfl⟩
    · rw [if_neg h1] at h
      have hsc : ∀ (hst : statusCheck page target s = some j),
          j.pageURL = page ∧ j.canonicalURL = target ∧
            (j.type = str "non_http_scheme" ∨ j.type = str "cross_domain" ∨
              j.type = str "target_redirect" ∨ j.type = str "target_broken") := by
        intro hst
        unfold statusCheck at hst
        cases hl : lookupA target s with
        | none =>
          rw [hl] at hst
          exact Option.noConfusion hst
        | some status =>
          simp only [hl] at hst
          by_cases h2 : 300 ≤ status ∧ status < 400
          · rw [if_pos h2] at hst
            rw [← Option.some_inj.mp hst]
            exact ⟨rfl, rfl, Or.inr (Or.inr (Or.inl rfl))⟩
          · rw [if_neg h2] at hst
            by_cases h3 : status = 0 ∨ 400 ≤ status
            · rw [if_pos h3] at hst
              rw [← Option.some_inj.mp hst]
              exact ⟨rfl, rfl, Or.inr (Or.inr (Or.inr rfl))⟩
            · rw [if_neg h3] at hst
              exact Option.noConfusion hst
      cases hpp : parseURL page with
      | none =>
        rw [hpp] at h
        exact hsc h
      | some pp =>
        simp only [hpp] at h
        by_cases h2 : ¬ equalFold (hostname pp) (hostname pt2) = true
        · rw [if_pos h2] at h
          rw [← Option.some_inj.mp h]
          exact ⟨rfl, rfl, Or.inr (Or.inl rfl)⟩
        · rw [if_neg h2] at h
          exact hsc h

/-- A `|`-separated concatenation splits uniquely when the first part is
`|`-free. -/
theorem pipeSplit (a b a2 b2 : GoStr) (ha : ('|' : Char) ∉ a) (ha2 : ('|' : Char) ∉ a2)
    (h : a ++ '|' :: b = a2 ++ '|' :: b2) : a = a2 ∧ b = b2 := by
  induction a generalizing a2 with
  | nil =>
    cases a2 with
    | nil =>
      rw [List.nil_append, List.nil_append] at h
      exact ⟨rfl, (List.cons.injEq _ _ _ _ ▸ h).2⟩
    | cons x xs =>
      rw [List.nil_append, List.cons_append] at h
      have hx := (List.cons.injEq _ _ _ _ ▸ h).1
      exact absurd (hx ▸ List.mem_cons_self x xs) ha2
  | cons c cs ih =>
    cases a2 with
    | nil =>
      rw [List.cons_append, List.nil_append] at h
      have hc := (List.cons.injEq _ _ _ _ ▸ h).1
      exact absurd (hc ▸ List.mem_cons_self c cs) ha
    | cons x xs =>
      rw [List.cons_append, List.cons_append] at h
      have hc := (List.cons.injEq _ _ _ _ ▸ h).1
      have hrest := (List.cons.injEq _ _ _ _ ▸ h).2
      have := ih xs (fun hm => ha (List.mem_cons_of_mem c hm))
        (fun hm => ha2 (List.mem_cons_of_mem x hm)) hrest
      exact ⟨by rw [hc, this.1], this.2⟩

/-- An issue the collection loop can have recorded: a pair issue or a
walk issue of some entry. -/
def GoodIssue (m : List (GoStr × GoStr)) (s : List (GoStr × Nat)) (j : Issue) : Prop :=
  (∃ e ∈ m, validatePair e.1 e.2 s = some j) ∨
  (∃ e ∈ m, detectLoopOrChain e.1 m = some j)

/-- The dedup invariant: every seen key is the key of a collected issue
of the matching kind. -/
def SeenOK (m : List (GoStr × GoStr)) (s : List (GoStr × Nat))
    (acc : List Issue × List GoStr) : Prop :=
  ∀ k ∈ acc.2, ∃ j ∈ acc.1,
    ((∃ e ∈ m, validatePair e.1 e.2 s = some j) ∧ dedupKey j false = k) ∨
    ((∃ e ∈ m, detectLoopOrChain e.1 m = some j) ∧ dedupKey j true = k)

/-- The full collection invariant. -/
def AccOK (m : List (GoStr × GoStr)) (s : List (GoStr × Nat))
    (acc : List Issue × List GoStr) : Prop :=
  SeenOK m s acc ∧ ∀ j ∈ acc.1, GoodIssue m s j

/-- Adding one recorded issue preserves the collection invariant. -/
theorem addIssue_accOK (m : List (GoStr × GoStr)) (s : List (GoStr × Nat))
    (acc : List Issue × List GoStr) (j : Issue) (k : GoStr)
    (hk : ((∃ e ∈ m, validatePair e.1 e.2 s = some j) ∧ dedupKey j false = k) ∨
          ((∃ e ∈ m, detectLoopOrChain e.1 m = some j) ∧ dedupKey j true = k))
    (h : AccOK m s acc) :
    AccOK m s (if k ∈ acc.2 then acc else (acc.1 ++ [j], k :: acc.2)) := by
  by_cases hmem : k ∈ acc.2
  · rw [if_pos hmem]
    exact h
  · rw [if_neg hmem]
    constructor
    · intro k2 hk2
      rcases List.mem_cons.mp hk2 with rfl | hk2
      · exact ⟨j, List.mem_append_right _ (List.mem_singleton_self j), hk⟩
      · obtain ⟨j2, hj2, hcase⟩ := h.1 k2 hk2
        exact ⟨j2, List.mem_append_left _ hj2, hcase⟩
    · intro j2 hj2
      rcases List.mem_append.mp hj2 with hj2 | hj2
      · exact h.2 j2 hj2
      · rw [List.mem_singleton.mp hj2]
        rcases hk with ⟨hg, _⟩ | ⟨hg, _⟩
        · exact Or.inl hg
        · exact Or.inr hg

/-- One collection step preserves the invariant: every seen key belongs
to a collected issue of one of the two kinds. -/
theorem valStep_accOK (m : List (GoStr × GoStr)) (s : List (GoStr × Nat))
    (acc : List Issue × List GoStr) (e : GoStr × GoStr) (he : e ∈ m)
    (h : AccOK m s acc) : AccOK m s (valStep m s acc e) := by
  unfold valStep
  have h1 : AccOK m s (match validatePair e.1 e.2 s with
      | some issue =>
        if dedupKey issue false ∈ acc.2 then acc
        else (acc.1 ++ [issue], dedupKey issue false :: acc.2)
      | none => acc) := by
    cases hvp : validatePair e.1 e.2 s with
    | none => exact h
    | some jp => exact addIssue_accOK m s acc jp _ (Or.inl ⟨⟨e, he, hvp⟩, rfl⟩) h
  cases hdet : detectLoopOrChain e.1 m with
  | none =>
    simp only [hdet]
    cases hvp : validatePair e.1 e.2 s with
    | none =>
      simp only [hvp]
      exact h
    | some jp =>
      simp only [hvp]
      simp only [hvp] at h1
      exact h1
  | some i =>
    simp only [hdet]
    cases hvp : validatePair e.1 e.2 s with
    | none =>
      simp only [hvp]
      exact addIssue_accOK m s acc i _ (Or.inr ⟨⟨e, he, hdet⟩, rfl⟩) h
    | some jp =>
      simp only [hvp]
      simp only [hvp] at h1
      exact addIssue_accOK m s _ i _ (Or.inr ⟨⟨e, he, hdet⟩, rfl⟩) h1

/-- The collection step only appends issues. -/
theorem valStep_mono (m : List (GoStr × GoStr)) (s : List (GoStr × Nat))
    (acc : List Issue × List GoStr) (e : GoStr × GoStr) (x : Issue) (hx : x ∈ acc.1) :
    x ∈ (valStep m s acc e).1 := by
  unfold valStep
  have h1 : ∀ acc2 : List Issue × List GoStr, x ∈ acc2.1 →
      x ∈ (match detectLoopOrChain e.1 m with
        | some issue =>
          if dedupKey issue true ∈ acc2.2 then acc2
          else (acc2.1 ++ [issue], dedupKey issue true :: acc2.2)
        | none => acc2).1 := by
    intro acc2 hx2
    cases hdet : detectLoopOrChain e.1 m with
    | none => exact hx2
    | some i =>
      show x ∈ (if dedupKey i true ∈ acc2.2 then acc2
        else (acc2.1 ++ [i], dedupKey i true :: acc2.2)).1
      by_cases hk : dedupKey i true ∈ acc2.2
      · rw [if_pos hk]
        exact hx2
      · rw [if_neg hk]
        exact List.mem_append_left _ hx2
  cases hvp : validatePair e.1 e.2 s with
  | none => exact h1 acc hx
  | some jp =>
    refine h1 (if dedupKey jp false ∈ acc.2 then acc
      else (acc.1 ++ [jp], dedupKey jp false :: acc.2)) ?_
    by_cases hk : dedupKey jp false ∈ acc.2
    · rw [if_pos hk]
      exact hx
    · rw [if_neg hk]
      exact List.mem_append_left _ hx

/-- The collection fold preserves the invariant. -/
theorem foldl_accOK (m : List (GoStr × GoStr)) (s : List (GoStr × Nat))
    (l : List (GoStr × GoStr)) (acc : List Issue × List GoStr)
    (hl : ∀ e ∈ l, e ∈ m) (h : AccOK m s acc) :
    AccOK m s (l.foldl (valStep m s) acc) := by
  induction l generalizing acc with
  | nil => exact h
  | cons e rest ih =>
    rw [List.foldl_cons]
    exact ih _ (fun e2 he2 => hl e2 (List.mem_cons_of_mem e he2))
      (valStep_accOK m s acc e (hl e (List.mem_cons_self e rest)) h)

/-- The collection fold only appends issues. -/
theorem foldl_mono (m : List (GoStr × GoStr)) (s : List (GoStr × Nat))
    (l : List (GoStr × GoStr)) (acc : List Issue × List GoStr) (x : Issue)
    (hx : x ∈ acc.1) : x ∈ (l.foldl (valStep m s) acc).1 := by
  induction l generalizing acc with
  | nil => exact hx
  | cons e rest ih =>
    rw [List.foldl_cons]
    exact ih _ (valStep_mono m s acc e x hx)

/-- The dedup key of a walk issue, in right-nested form. -/
theorem dedupKey_true (j : Issue) : dedupKey j true =
    j.type ++ '|' :: (j.pageURL ++ '|' :: (j.canonicalURL ++ '|' :: j.detail)) := by
  unfold dedupKey
  rw [if_pos rfl]
  rw [List.append_assoc, List.append_assoc, List.cons_append, List.cons_append]

/-- The dedup key of a pair issue, in right-nested form. -/
theorem dedupKey_false (j : Issue) : dedupKey j false =
    j.type ++ '|' :: (j.pageURL ++ '|' :: (j.canonicalURL ++ [])) := by
  unfold dedupKey
  rw [if_neg (by decide : ¬ false = true)]
  rw [List.append_assoc, List.append_assoc, List.cons_append, List.cons_append]

/-- Over a map whose URLs avoid the `|` key separator, only the walk
issue itself produces its own dedup key: a pair issue's key differs in
the type segment, and another walk issue with the same key has the same
page, target and detail, hence is the same issue. -/
theorem key_collision (m : List (GoStr × GoStr)) (s : List (GoStr × Nat))
    (hm : ∀ e ∈ m, ('|' : Char) ∉ e.1 ∧ ('|' : Char) ∉ e.2)
    (p : GoStr) (i : Issue) (hd : detectLoopOrChain p m = some i) (j : Issue)
    (hj : ((∃ e ∈ m, validatePair e.1 e.2 s = some j) ∧ dedupKey j false = dedupKey i true) ∨
          ((∃ e ∈ m, detectLoopOrChain e.1 m = some j) ∧ dedupKey j true = dedupKey i true)) :
    j = i := by
  obtain ⟨t, hpt, hi⟩ := detect_shape m p i hd
  have hpm : (p, t) ∈ m := lookupA_mem p t m hpt
  have hpf : ('|' : Char) ∉ p := (hm (p, t) hpm).1
  have htf : ('|' : Char) ∉ t := (hm (p, t) hpm).2
  have hiT : i.type = str "loop_or_chain" := by rcases hi with rfl | rfl <;> rfl
  have hiP : i.pageURL = p := by rcases hi with rfl | rfl <;> rfl
  have hiC : i.canonicalURL = t := by rcases hi with rfl | rfl <;> rfl
  rcases hj with ⟨⟨e, he, hvp⟩, hkey⟩ | ⟨⟨e, he, hdet2⟩, hkey⟩
  · exfalso
    obtain ⟨hjP, hjC, hjT⟩ := validatePair_shape e.1 e.2 s j hvp
    rw [dedupKey_false, dedupKey_true, hiT] at hkey
    have htypepf : ('|' : Char) ∉ j.type := by
      rcases hjT with h4 | h4 | h4 | h4 <;> rw [h4] <;> decide
    have hT : j.type = str "loop_or_chain" :=
      (pipeSplit _ _ _ _ htypepf (by decide) hkey).1
    rcases hjT with h4 | h4 | h4 | h4 <;> rw [h4] at hT <;> exact absurd hT (by decide)
  · obtain ⟨t2, hpt2, hj2⟩ := detect_shape m e.1 j hdet2
    have hp2m : (e.1, t2) ∈ m := lookupA_mem _ _ m hpt2
    have hp2f : ('|' : Char) ∉ e.1 := (hm _ hp2m).1
    have ht2f : ('|' : Char) ∉ t2 := (hm _ hp2m).2
    have hjT : j.type = str "loop_or_chain" := by rcases hj2 with rfl | rfl <;> rfl
    have hjP : j.pageURL = e.1 := by rcases hj2 with rfl | rfl <;> rfl
    have hjC : j.canonicalURL = t2 := by rcases hj2 with rfl | rfl <;> rfl
    rw [dedupKey_true, dedupKey_true, hiT, hjT, hiP, hjP, hiC, hjC] at hkey
    have h1 := pipeSplit _ _ _ _ (by decide) (by decide) hkey
    have h2 := pipeSplit _ _ _ _ hp2f hpf h1.2
    have h3 := pipeSplit _ _ _ _ ht2f htf h2.2
    rcases hj2 with rfl | rfl <;> rcases hi with rfl | rfl
    · rw [chainIssue, chainIssue, h2.1, h3.1]
    · have hbad : str "canonical chain detected" = str "canonical loop detected" := h3.2
      exact absurd hbad (by decide)
    · have hbad : str "canonical loop detected" = str "canonical chain detected" := h3.2
      exact absurd hbad (by decide)
    · rw [loopIssue, loopIssue, h2.1, h3.1]

/-- The pair half of a collection step preserves the invariant. -/
theorem pairPart_accOK (m : List (GoStr × GoStr)) (s : List (GoStr × Nat))
    (acc : List Issue × List GoStr) (e : GoStr × GoStr) (he : e ∈ m)
    (h : AccOK m s acc) :
    AccOK m s (match validatePair e.1 e.2 s with
      | some issue =>
        if dedupKey issue false ∈ acc.2 then acc
        else (acc.1 ++ [issue], dedupKey issue false :: acc.2)
      | none => acc) := by
  cases hvp : validatePair e.1 e.2 s with
  | none => exact h
  | some jp => exact addIssue_accOK m s acc jp _ (Or.inl ⟨⟨e, he, hvp⟩, rfl⟩) h

/-- Completeness of the collection fold: once some processed entry starts
at page `p`, the walk issue of `p` is in the collected list — the dedup
check can only drop it in favour of itself. -/
theorem fold_hits (m : List (GoStr × GoStr)) (s : List (GoStr × Nat)) (p : GoStr)
    (i : Issue) (hd : detectLoopOrChain p m = some i)
    (hm : ∀ e ∈ m, ('|' : Char) ∉ e.1 ∧ ('|' : Char) ∉ e.2)
    (l : List (GoStr × GoStr)) (acc : List Issue × List GoStr)
    (hl : ∀ e ∈ l, e ∈ m) (hacc : AccOK m s acc)
    (hstart : i ∈ acc.1 ∨ ∃ e ∈ l, e.1 = p) :
    i ∈ (l.foldl (valStep m s) acc).1 := by
  induction l generalizing acc with
  | nil =>
    rcases hstart with hiacc | ⟨e, he, _⟩
    · exact hiacc
    · exact absurd he (List.not_mem_nil e)
  | cons e rest ih =>
    rw [List.foldl_cons]
    have hrest : ∀ e2 ∈ rest, e2 ∈ m := fun e2 he2 => hl e2 (List.mem_cons_of_mem e he2)
    have hem : e ∈ m := hl e (List.mem_cons_self e rest)
    have hacc' : AccOK m s (valStep m s acc e) := valStep_accOK m s acc e hem hacc
    rcases hstart with hiacc | ⟨e2, he2, hp2⟩
    · exact ih _ hrest hacc' (Or.inl (valStep_mono m s acc e i hiacc))
    · rcases List.mem_cons.mp he2 with rfl | he2r
      · refine ih _ hrest hacc' (Or.inl ?_)
        have hA := pairPart_accOK m s acc e2 hem hacc
        have hgen : ∀ A : List Issue × List GoStr, AccOK m s A →
            i ∈ (match detectLoopOrChain e2.1 m with
              | some issue =>
                if dedupKey issue true ∈ A.2 then A
                else (A.1 ++ [issue], dedupKey issue true :: A.2)
              | none => A).1 := by
          intro A hA2
          rw [hp2, hd]
          show i ∈ (if dedupKey i true ∈ A.2 then A
            else (A.1 ++ [i], dedupKey i true :: A.2)).1
          by_cases hk : dedupKey i true ∈ A.2
          · rw [if_pos hk]
            obtain ⟨j, hjA, hcase⟩ := hA2.1 _ hk
            rw [← key_collision m s hm p i hd j hcase]
            exact hjA
          · rw [if_neg hk]
            exact List.mem_append_right _ (List.mem_singleton_self i)
        exact hgen _ hA
      · exact ih _ hrest hacc' (Or.inr ⟨e2, he2r, hp2⟩)

/-- Every flagged page's walk issue appears in the `Validate` output
(for maps whose URLs avoid the `|` dedup-key separator). -/
theorem Validate_complete (m : List (GoStr × GoStr)) (s : List (GoStr × Nat)) (p : GoStr)
    (i : Issue) (hd : detectLoopOrChain p m = some i)
    (hm : ∀ e ∈ m, ('|' : Char) ∉ e.1 ∧ ('|' : Char) ∉ e.2) :
    i ∈ Validate m s := by
  unfold Validate
  rw [List.mem_mergeSort]
  obtain ⟨t, hpt, _⟩ := detect_shape m p i hd
  have hinit : AccOK m s ([], []) :=
    ⟨fun k hk => absurd hk (List.not_mem_nil k), fun j hj => absurd hj (List.not_mem_nil j)⟩
  exact fold_hits m s p i hd hm m ([], []) (fun e he => he) hinit
    (Or.inr ⟨(p, t), lookupA_mem p t m hpt, rfl⟩)

/-- Every `loop_or_chain` issue of the `Validate` output is the walk
issue of the page it names. -/
theorem Validate_sound (m : List (GoStr × GoStr)) (s : List (GoStr × Nat)) (i : Issue)
    (hi : i ∈ Validate m s) (ht : i.type = str "loop_or_chain") :
    detectLoopOrChain i.pageURL m = some i := by
  unfold Validate at hi
  rw [List.mem_mergeSort] at hi
  have hinit : AccOK m s ([], []) :=
    ⟨fun k hk => absurd hk (List.not_mem_nil k), fun j hj => absurd hj (List.not_mem_nil j)⟩
  have hacc := foldl_accOK m s m ([], []) (fun e he => he) hinit
  rcases hacc.2 i hi with ⟨e, _, hvp⟩ | ⟨e, _, hdet⟩
  · exfalso
    obtain ⟨_, _, h4⟩ := validatePair_shape e.1 e.2 s i hvp
    rcases h4 with h4 | h4 | h4 | h4 <;> rw [h4] at ht <;> exact absurd ht (by decide)
  · rw [detect_pageURL m e.1 i hdet]
    exact hdet

/-- C5: `Validate` reports `loop_or_chain` for a page exactly under the
spec's conditions.  The walk flags `p` iff `p`'s canonical `t` exists, is
non-empty and differs from `p`, and the walk continues past `t` (`t`'s
own canonical exists, is non-empty and differs from `t`) — this
second-hop condition is equivalent to "the chain reaches 2 or more hops
before terminating, or a page reappears in the path": either disjunct
requires the walk to take a second hop, and once two hops are taken every
exit of the walk loop reports an issue (chain on normal termination, loop
on a revisit or on the safety bound).  At the `Validate` level the
correspondence is exact in both directions: every flagged page's issue
appears in the output (completeness, for maps whose URLs avoid the `|`
dedup-key separator) and every `loop_or_chain` issue of the output is the
walk's issue for the page it names (soundness); hence a self-canonical
page is never flagged.  In particular `validate({a:b, b:c}, {b:200,
c:200})` yields the chain issue for page `a` and `validate({a:b, b:a},
{a:200, b:200})` yields the loop issue for page `a`. -/
theorem C5_loop_or_chain_exactly (m : List (GoStr × GoStr)) (s : List (GoStr × Nat))
    (p : GoStr) (i : Issue) :
    ((∃ j, detectLoopOrChain p m = some j) ↔
      (∃ t u, lookupA p m = some t ∧ t ≠ [] ∧ t ≠ p ∧
        lookupA t m = some u ∧ u ≠ [] ∧ u ≠ t)) ∧
    (detectLoopOrChain p m = some i →
      (∀ e ∈ m, ('|' : Char) ∉ e.1 ∧ ('|' : Char) ∉ e.2) → i ∈ Validate m s) ∧
    (i ∈ Validate m s → i.type = str "loop_or_chain" →
      detectLoopOrChain i.pageURL m = some i) ∧
    (lookupA p m = some p → ∀ j ∈ Validate m s,
      ¬ (j.pageURL = p ∧ j.type = str "loop_or_chain")) ∧
    chainIssue (str "a") (str "b") ∈
      Validate [(str "a", str "b"), (str "b", str "c")] [(str "b", 200), (str "c", 200)] ∧
    loopIssue (str "a") (str "b") ∈
      Validate [(str "a", str "b"), (str "b", str "a")] [(str "a", 200), (str "b", 200)] := by
  refine ⟨detect_some_iff m p, ?_, ?_, ?_, ?_, ?_⟩
  · intro hd hm
    exact Validate_complete m s p i hd hm
  · intro hi ht
    exact Validate_sound m s i hi ht
  · intro hp j hj hcon
    have hs := Validate_sound m s j hj hcon.2
    rw [hcon.1] at hs
    have hnone : detectLoopOrChain p m = none := by
      unfold detectLoopOrChain
      simp only [hp]
      simp
    rw [hnone] at hs
    exact Option.noConfusion hs
  · rw [Validate_mem]
    decide
  · rw [Validate_mem]
    decide

/-- Witness for C5: the two-entry chain map satisfies the second-hop
condition (so some issue is flagged), its chain issue reaches the
`Validate` output, the loop issue of the cyclic map traces back to the
walk, and the self-canonical map's only issue is not `loop_or_chain`. -/
theorem C5_loop_or_chain_exactly_witness :
    (∃ j, detectLoopOrChain (str "a") [(str "a", str "b"), (str "b", str "c")] = some j) ∧
    chainIssue (str "a") (str "b") ∈
      Validate [(str "a", str "b"), (str "b", str "c")] [] ∧
    detectLoopOrChain (str "a") [(str "a", str "b"), (str "b", str "a")] =
      some (loopIssue (str "a") (str "b")) ∧
    (lookupA (str "p") [(str "p", str "p")] = some (str "p") ∧
      ¬ ((⟨str "p", str "p", str "non_http_scheme",
          str "canonical target is not HTTP(S)"⟩ : Issue).pageURL = str "p" ∧
        (⟨str "p", str "p", str "non_http_scheme",
          str "canonical target is not HTTP(S)"⟩ : Issue).type = str "loop_or_chain")) := by
  have hdet1 : detectLoopOrChain (str "a") [(str "a", str "b"), (str "b", str "c")] =
      some (chainIssue (str "a") (str "b")) :=
    detectLoopOrChain_eval _ _ 3 _ (by decide) (by decide)
  have hmem2 : loopIssue (str "a") (str "b") ∈
      Validate [(str "a", str "b"), (str "b", str "a")] [(str "a", 200), (str "b", 200)] := by
    rw [Validate_mem]
    decide
  have hmem3 : (⟨str "p", str "p", str "non_http_scheme",
      str "canonical target is not HTTP(S)"⟩ : Issue) ∈
      Validate [(str "p", str "p")] [] := by
    rw [Validate_mem]
    decide
  refine ⟨?_, ?_, ?_, by decide, ?_⟩
  · exact (C5_loop_or_chain_exactly [(str "a", str "b"), (str "b", str "c")] []
      (str "a") (chainIssue (str "a") (str "b"))).1.mpr
      ⟨str "b", str "c", by decide, by decide, by decide, by decide, by decide, by decide⟩
  · exact (C5_loop_or_chain_exactly [(str "a", str "b"), (str "b", str "c")] []
      (str "a") (chainIssue (str "a") (str "b"))).2.1 hdet1 (by decide)
  · exact (C5_loop_or_chain_exactly [(str "a", str "b"), (str "b", str "a")]
      [(str "a", 200), (str "b", 200)] (str "a") (loopIssue (str "a") (str "b"))).2.2.1
      hmem2 (by decide)
  · exact (C5_loop_or_chain_exactly [(str "p", str "p")] [] (str "p")
      (⟨str "p", str "p", str "non_http_scheme",
        str "canonical target is not HTTP(S)"⟩ : Issue)).2.2.2.1 (by decide) _ hmem3
